import Mathlib

/-!
Verification of the OBO parse / serialize / diff / validate core of the
repository (src/ols_fetch_from_github).  Text is modelled as `List Char`
(Python `str`), documents as association lists mirroring Python dicts
(insertion order preserved, update-in-place on existing keys).  Every
definition is translated line by line from the Python source named in its
doc comment.
-/

namespace OboCore

/-- Python strings are modelled as lists of characters. -/
abbrev Str := List Char

/-- The characters stripped by Python `str.strip()` / matched by regex
whitespace, restricted to the ASCII range (the files are ASCII OBO text). -/
def isWs (c : Char) : Bool :=
  c = ' ' || c = '\t' || c = '\n' || c = '\r' || c = '\x0b' || c = '\x0c'

/-- Python `str.lstrip()`. -/
def lstrip (s : Str) : Str := s.dropWhile isWs

/-- Python `str.rstrip()`. -/
def rstrip (s : Str) : Str := (s.reverse.dropWhile isWs).reverse

/-- Python `str.strip()`. -/
def strip (s : Str) : Str := lstrip (rstrip s)

/-- Python `str.rstrip('\n')`. -/
def rstripNl (s : Str) : Str := (s.reverse.dropWhile (fun c => c = '\n')).reverse

/-- Python `str.split('\n')`: splits at every newline, keeping empty pieces;
the empty string yields one empty piece. -/
def splitNl : Str → List Str
  | [] => [[]]
  | c :: r =>
    if c = '\n' then [] :: splitNl r
    else
      match splitNl r with
      | [] => [[c]]
      | h :: t => (c :: h) :: t

/-- Python newline-join of a list of lines. -/
def joinNl : List Str → Str
  | [] => []
  | [l] => l
  | l :: ls => l ++ '\n' :: joinNl ls

/-- Python `s.startswith(p)`. -/
def begins : Str → Str → Bool
  | [], _ => true
  | _ :: _, [] => false
  | p :: ps, c :: cs => p == c && begins ps cs

/-- Python `line.split(':', 1)` restricted to the case where a colon is
present: the part before the first colon and the part after it. -/
def colonSplit (l : Str) : Str × Str :=
  (l.takeWhile (fun c => c ≠ ':'), (l.dropWhile (fun c => c ≠ ':')).drop 1)

/-- The literal section marker `[Term]` from obo_parser.py. -/
def mTermS : Str := "[Term]".data

/-- The literal section marker `[Typedef]` from obo_parser.py. -/
def mTypedefS : Str := "[Typedef]".data

theorem begins_le_length {p s : Str} (h : begins p s = true) : p.length ≤ s.length := by
  induction p generalizing s with
  | nil => exact Nat.zero_le _
  | cons c cs ih =>
    cases s with
    | nil => simp [begins] at h
    | cons d ds =>
      simp only [begins, Bool.and_eq_true] at h
      exact Nat.succ_le_succ (ih h.2)

/-- Fuel-driven scanner for the section markers; the fuel only serves to
make the recursion structural (each step consumes at least one character,
so fuel at least the string length never runs out — `splitMarkersGo_fuel`
makes this precise). -/
def splitMarkersGo : Nat → Str → Str × List (Bool × Str)
  | _, [] => ([], [])
  | 0, _ :: _ => ([], [])
  | f + 1, c :: rest =>
    if begins mTermS (c :: rest) then
      let r := splitMarkersGo f ((c :: rest).drop 6)
      ([], (true, r.1) :: r.2)
    else if begins mTypedefS (c :: rest) then
      let r := splitMarkersGo f ((c :: rest).drop 9)
      ([], (false, r.1) :: r.2)
    else
      let r := splitMarkersGo f rest
      (c :: r.1, r.2)

/-- Model of `re.split(r'\[(?:Term|Typedef)\]', content)` zipped with
`re.findall` of the same pattern: the text before the first marker, and for
each marker occurrence (scanned left to right, `[Term]` reported as `true`)
the text running up to the next marker or the end of input. -/
def splitMarkers (s : Str) : Str × List (Bool × Str) := splitMarkersGo s.length s

theorem splitMarkersGo_fuel :
    ∀ (f g : Nat) (s : Str), s.length ≤ f → s.length ≤ g →
      splitMarkersGo f s = splitMarkersGo g s := by
  intro f
  induction f with
  | zero =>
    intro g s hf hg
    have : s = [] := List.length_eq_zero.mp (Nat.le_zero.mp hf)
    subst this
    cases g <;> rfl
  | succ f ih =>
    intro g s hf hg
    cases s with
    | nil => cases g <;> rfl
    | cons c rest =>
      simp only [List.length_cons] at hf hg
      cases g with
      | zero => omega
      | succ g2 =>
        simp only [splitMarkersGo]
        by_cases h1 : begins mTermS (c :: rest) = true
        · have h6 : 6 ≤ rest.length + 1 := by
            have := begins_le_length h1
            rw [show mTermS.length = 6 from rfl] at this
            simpa using this
          rw [if_pos h1, if_pos h1, ih g2 ((c :: rest).drop 6)
            (by simp only [List.length_drop, List.length_cons]; omega)
            (by simp only [List.length_drop, List.length_cons]; omega)]
        · by_cases h2 : begins mTypedefS (c :: rest) = true
          · have h9 : 9 ≤ rest.length + 1 := by
              have := begins_le_length h2
              rw [show mTypedefS.length = 9 from rfl] at this
              simpa using this
            rw [if_neg h1, if_neg h1, if_pos h2, if_pos h2, ih g2 ((c :: rest).drop 9)
              (by simp only [List.length_drop, List.length_cons]; omega)
              (by simp only [List.length_drop, List.length_cons]; omega)]
          · rw [if_neg h1, if_neg h1, if_neg h2, if_neg h2,
              ih g2 rest (by omega) (by omega)]

theorem splitMarkers_nil : splitMarkers [] = ([], []) := rfl

theorem splitMarkers_term {s : Str} (h : begins mTermS s = true) :
    splitMarkers s
      = ([], (true, (splitMarkers (s.drop 6)).1) :: (splitMarkers (s.drop 6)).2) := by
  have hlen : 6 ≤ s.length := begins_le_length h
  cases s with
  | nil => simp at hlen
  | cons c rest =>
    show splitMarkersGo (c :: rest).length (c :: rest) = _
    simp only [List.length_cons, splitMarkersGo, if_pos h]
    rw [splitMarkersGo_fuel rest.length ((c :: rest).drop 6).length ((c :: rest).drop 6)
      (by simp only [List.length_drop, List.length_cons]; omega)
      (le_refl _)]
    rfl

theorem splitMarkers_typedef {s : Str} (h1 : begins mTermS s = false)
    (h2 : begins mTypedefS s = true) :
    splitMarkers s
      = ([], (false, (splitMarkers (s.drop 9)).1) :: (splitMarkers (s.drop 9)).2) := by
  have hlen : 9 ≤ s.length := begins_le_length h2
  cases s with
  | nil => simp at hlen
  | cons c rest =>
    show splitMarkersGo (c :: rest).length (c :: rest) = _
    simp only [List.length_cons, splitMarkersGo, h1, Bool.false_eq_true,
      if_false, if_pos h2]
    rw [splitMarkersGo_fuel rest.length ((c :: rest).drop 9).length ((c :: rest).drop 9)
      (by simp only [List.length_drop, List.length_cons]; omega)
      (le_refl _)]
    rfl

theorem splitMarkers_cons_char {c : Char} {rest : Str}
    (h1 : begins mTermS (c :: rest) = false)
    (h2 : begins mTypedefS (c :: rest) = false) :
    splitMarkers (c :: rest)
      = (c :: (splitMarkers rest).1, (splitMarkers rest).2) := by
  show splitMarkersGo (c :: rest).length (c :: rest) = _
  simp only [List.length_cons, splitMarkersGo, h1, h2, Bool.false_eq_true,
    if_false]
  rfl

/-- One entry of a list-valued record field: a plain string, or an
`is_a` reference pair parsed from `"SBO:NNN ! label"`. -/
inductive Entry where
  | estr (s : Str)
  | eref (rid rname : Str)
deriving DecidableEq, Repr

/-- A record field value: a scalar string, or a list built up by repeated
occurrences of the field (obo_parser.py stores Python `str` or `list`). -/
inductive RecVal where
  | scalar (s : Str)
  | vlist (es : List Entry)
deriving DecidableEq, Repr

/-- A term or typedef record: a Python dict from field name to value,
modelled as an association list in insertion order. -/
abbrev Rec := List (Str × RecVal)

/-- The parsed header: a Python dict from key to value in insertion order. -/
abbrev Header := List (Str × Str)

/-- A parsed OBO document as built by `OBOFileParser.parse_obo_file`:
`typedefs` is `none` exactly when the `'typedefs'` key is absent. -/
structure Document where
  header : Header
  terms : List Rec
  typedefs : Option (List Rec)
deriving DecidableEq, Repr

/-- Python dict lookup `m[k]` / `m.get(k)` (first matching key). -/
def getV {α : Type} (m : List (Str × α)) (k : Str) : Option α :=
  match m with
  | [] => none
  | (k0, v) :: r => if k0 = k then some v else getV r k

/-- Python dict assignment `m[k] = v`: replaces the value in place when the
key is present, appends a new entry otherwise. -/
def updIns {α : Type} (m : List (Str × α)) (k : Str) (v : α) : List (Str × α) :=
  match m with
  | [] => [(k, v)]
  | (k0, v0) :: r => if k0 = k then (k0, v) :: r else (k0, v0) :: updIns r k v

/-- Model of `re.match(r'(SBO:\d+)\s*!\s*(.*)', value)` from
`OBOFileParser._handle_is_a_field`: anchored at the start, a literal
`SBO:` followed by one or more digits (group 1 is `SBO:` plus the digits),
optional whitespace, `!`, optional whitespace, and group 2 is the rest of
the value up to a newline. -/
def isaMatch (v : Str) : Option (Str × Str) :=
  if begins ("SBO:".data) v then
    let r0 := v.drop 4
    let ds := r0.takeWhile Char.isDigit
    if ds.isEmpty then none
    else
      let r1 := r0.drop ds.length
      let r2 := r1.dropWhile isWs
      match r2 with
      | '!' :: r3 => some ("SBO:".data ++ ds, (r3.dropWhile isWs).takeWhile (fun c => c ≠ '\n'))
      | _ => none
  else none

/-- `OBOFileParser._handle_is_a_field`: appends the parsed entry to the
`is_a` list, creating the list on first occurrence.  (In the parser the
`is_a` key only ever holds a list; the scalar case below is unreachable and
kept only to make the function total.) -/
def handleIsAField (r : Rec) (v : Str) : Rec :=
  let e := match isaMatch v with
    | some (i, n) => Entry.eref i n
    | none => Entry.estr v
  match getV r ("is_a".data) with
  | none => updIns r ("is_a".data) (RecVal.vlist [e])
  | some (RecVal.vlist es) => updIns r ("is_a".data) (RecVal.vlist (es ++ [e]))
  | some (RecVal.scalar _) => r

/-- `OBOFileParser._handle_regular_field`: first occurrence stores a scalar,
a second occurrence promotes it to a two-element list, later occurrences
append to the list. -/
def handleRegularField (r : Rec) (k : Str) (v : Str) : Rec :=
  match getV r k with
  | none => updIns r k (RecVal.scalar v)
  | some (RecVal.scalar s) => updIns r k (RecVal.vlist [Entry.estr s, Entry.estr v])
  | some (RecVal.vlist es) => updIns r k (RecVal.vlist (es ++ [Entry.estr v]))

/-- One line of `OBOFileParser._parse_header`: right-strip the line, skip it
if blank or without a colon, otherwise split at the first colon, strip the
key and left-strip the value, and store into the header dict. -/
def parseHeaderLineStep (m : Header) (l : Str) : Header :=
  let l1 := rstrip l
  if strip l1 ≠ [] ∧ ':' ∈ l1 then
    let p := colonSplit l1
    updIns m (strip p.1) (lstrip p.2)
  else m

/-- `OBOFileParser._parse_header`. -/
def parseHeader (s : Str) : Header :=
  (splitNl s).foldl parseHeaderLineStep []

/-- The marker-line test from the first loop of `OBOFileParser._parse_section`:
the stripped line starts with `[` and equals `[Term]` or `[Typedef]`. -/
def isMarkerLine (l : Str) : Bool :=
  begins ("[".data) (strip l) && (strip l == mTermS || strip l == mTypedefS)

/-- The first loop of `OBOFileParser._parse_section`: split into lines,
right-strip newlines, and keep lines up to (not including) the next section
marker line. -/
def sectionLinesOf (s : Str) : List Str :=
  ((splitNl s).map rstripNl).takeWhile (fun l => !isMarkerLine l)

/-- One line of the second loop of `OBOFileParser._parse_section`: skip blank
or colon-free lines; otherwise split at the first colon, strip the key,
left-strip the value (trailing whitespace kept), and dispatch on `is_a`. -/
def parseSectionLineStep (r : Rec) (l : Str) : Rec :=
  let l1 := rstripNl l
  if strip l1 ≠ [] ∧ ':' ∈ l1 then
    let p := colonSplit l1
    let k := strip p.1
    let v := lstrip p.2
    if k = "is_a".data then handleIsAField r v else handleRegularField r k v
  else r

/-- `OBOFileParser._parse_section`. -/
def parseSection (s : Str) : Rec :=
  (sectionLinesOf s).foldl parseSectionLineStep []

/-- `OBOFileParser.parse_obo_file` on the file content: split at the section
markers, parse the stripped text before the first marker as the header,
parse each section, keep non-empty records under their marker kind, and add
the `typedefs` key only when at least one typedef record is non-empty. -/
def parseOboFile (content : Str) : Document :=
  let sp := splitMarkers content
  let secs := sp.2.map (fun p => (p.1, parseSection p.2))
  let terms := (secs.filter (fun p => p.1 && !p.2.isEmpty)).map (fun p => p.2)
  let tds := (secs.filter (fun p => !p.1 && !p.2.isEmpty)).map (fun p => p.2)
  { header := parseHeader (strip sp.1)
    terms := terms
    typedefs := if tds.isEmpty then none else some tds }

/-- Python `repr` of the dict `{'id': i, 'name': n}` as interpolated by the
f-string in `FileConverter._write_field` when a reference pair appears under
a field other than `is_a`.  (Quote-escaping subtleties of Python `repr` are
not reproduced; this branch is unreachable for parser-produced documents,
where reference pairs occur only under `is_a`, and no claim depends on it.) -/
def reprRef (i n : Str) : Str :=
  "\x7b\x27id\x27: \x27".data ++ i ++ "\x27, \x27name\x27: \x27".data ++ n ++ "\x27\x7d".data

/-- `FileConverter._write_field`: one `key: value` line per element for a
list value, reconstructing `is_a: <id> ! <name>` for reference pairs, and a
single line for a scalar. -/
def writeFieldLines (f : Str) (val : RecVal) : List Str :=
  match val with
  | RecVal.scalar s => [f ++ ": ".data ++ s]
  | RecVal.vlist es =>
    es.map (fun e =>
      match e with
      | Entry.estr s => f ++ ": ".data ++ s
      | Entry.eref i n =>
        if f = "is_a".data then f ++ ": ".data ++ i ++ " ! ".data ++ n
        else f ++ ": ".data ++ reprRef i n)

/-- `FileConverter._write_fields_in_order`: fields listed in the order
configuration first (those present in the record), then the record's
remaining fields in its own order. -/
def writeFieldsInOrder (r : Rec) (order : List Str) : List Str :=
  ((order.filter (fun f => (getV r f).isSome)).map
      (fun f => match getV r f with
        | some v => writeFieldLines f v
        | none => [])).flatten
    ++ ((r.filter (fun kv => kv.1 ∉ order)).map (fun kv => writeFieldLines kv.1 kv.2)).flatten

/-- `FileConverter._write_header`: one `key: value` line per header entry,
followed by one blank line when the header is non-empty. -/
def writeHeaderLines (h : Header) : List Str :=
  h.map (fun kv => kv.1 ++ ": ".data ++ kv.2) ++ (if h.isEmpty then [] else [[]])

/-- `FileConverter._write_terms`: a `[Term]` line, the record's fields, and a
blank line, for each term. -/
def writeTermLines (terms : List Rec) (order : List Str) : List Str :=
  (terms.map (fun t => mTermS :: (writeFieldsInOrder t order ++ [[]]))).flatten

/-- `FileConverter._write_typedefs`. -/
def writeTypedefLines (tds : List Rec) (order : List Str) : List Str :=
  (tds.map (fun t => mTypedefS :: (writeFieldsInOrder t order ++ [[]]))).flatten

/-- `FileConverter._write_to_file`: join the lines with newlines, append one
trailing newline unless the last line is already blank, and write a single
newline for an empty line list. -/
def writeToFile (lines : List Str) : Str :=
  match lines with
  | [] => ['\n']
  | _ :: _ => joinNl lines ++ (if lines.getLastD [] ≠ [] then ['\n'] else [])

/-- `FileConverter.convert_json_to_obo` on an in-memory document: header,
then terms with the term field order, then typedefs (absent key read as the
empty list) with the typedef field order. -/
def convertJsonToObo (fo td : List Str) (d : Document) : Str :=
  writeToFile
    (writeHeaderLines d.header
      ++ writeTermLines d.terms fo
      ++ writeTypedefLines (d.typedefs.getD []) td)

/-! ## JSON values (for file_comparator.py and file_validator.py)

`FileComparator` and `FileValidator.validate_json_structure` operate on data
produced by `json.load`, so they are modelled over a JSON value type.
Floating point numbers are outside the scope of the embedding; numeric
values are modelled as integers. -/

/-- A JSON value as loaded by Python `json.load`: objects are insertion
ordered dicts with string keys. -/
inductive JVal where
  | jstr (s : Str)
  | jnum (n : Int)
  | jbool (b : Bool)
  | jnull
  | jarr (xs : List JVal)
  | jobj (kvs : List (Str × JVal))

/-- A JSON object (a Python dict with string keys). -/
abbrev Obj := List (Str × JVal)

mutual
/-- A computable structural size for JSON values, used as the fuel bound of
the Python-equality function below. -/
def jsize : JVal → Nat
  | JVal.jstr _ => 1
  | JVal.jnum _ => 1
  | JVal.jbool _ => 1
  | JVal.jnull => 1
  | JVal.jarr xs => 1 + jsizeL xs
  | JVal.jobj kvs => 1 + jsizeO kvs

/-- Structural size of a JSON list. -/
def jsizeL : List JVal → Nat
  | [] => 1
  | x :: xs => 1 + jsize x + jsizeL xs

/-- Structural size of a JSON object. -/
def jsizeO : List (Str × JVal) → Nat
  | [] => 1
  | (_, v) :: r => 1 + jsize v + jsizeO r
end

mutual
/-- Fuel-driven Python `==` on JSON values: numbers and booleans compare
across types (`True == 1`, `False == 0`), lists compare pointwise, dicts
compare by length and key lookup (order-insensitive).  The fuel only makes
the nested recursion structural; `pyEqF_fuel` below shows the result does
not depend on the fuel once it is at least the combined size of the two
values, which the wrapper `pyEq` always supplies. -/
def pyEqF : Nat → JVal → JVal → Bool
  | 0, _, _ => false
  | f + 1, a, b =>
    match a, b with
    | JVal.jstr x, JVal.jstr y => x == y
    | JVal.jnum x, JVal.jnum y => x == y
    | JVal.jbool x, JVal.jbool y => x == y
    | JVal.jbool x, JVal.jnum y => (if x then (1 : Int) else 0) == y
    | JVal.jnum x, JVal.jbool y => x == (if y then (1 : Int) else 0)
    | JVal.jnull, JVal.jnull => true
    | JVal.jarr xs, JVal.jarr ys => pyEqListF f xs ys
    | JVal.jobj x, JVal.jobj y =>
      x.length == y.length && pyObjAllF f x y && pyObjAllF f y x
    | _, _ => false

/-- Pointwise Python `==` on JSON lists (fuel-driven). -/
def pyEqListF : Nat → List JVal → List JVal → Bool
  | 0, _, _ => false
  | _ + 1, [], [] => true
  | f + 1, x :: xs, y :: ys => pyEqF f x y && pyEqListF f xs ys
  | _ + 1, _, _ => false

/-- Every entry of the first dict has a matching entry in the second
(fuel-driven). -/
def pyObjAllF : Nat → Obj → Obj → Bool
  | 0, _, _ => false
  | _ + 1, [], _ => true
  | f + 1, (k, v) :: r, b => pyMemEntryF f k v b && pyObjAllF f r b

/-- The dict has an entry with the given key whose value is `==` to `v`
(fuel-driven). -/
def pyMemEntryF : Nat → Str → JVal → Obj → Bool
  | 0, _, _, _ => false
  | _ + 1, _, _, [] => false
  | f + 1, k, v, (k2, w) :: b =>
    (if k2 = k then pyEqF f v w else false) || pyMemEntryF f k v b
end

/-- Python `==` on JSON values. -/
def pyEq (a b : JVal) : Bool := pyEqF (jsize a + jsize b) a b

theorem jsize_pos (a : JVal) : 0 < jsize a := by
  cases a <;> simp [jsize]

theorem jsizeL_pos (xs : List JVal) : 0 < jsizeL xs := by
  cases xs <;> simp [jsizeL]

theorem jsizeO_pos (x : Obj) : 0 < jsizeO x := by
  rcases x with _ | ⟨⟨k, v⟩, r⟩ <;> simp [jsizeO]

/-- The fuel-driven equality is fuel-independent once the fuel is at least
the combined structural size of the two values, so `pyEq` computes the
fuel-free Python `==`. -/
theorem pyEqF_fuel (f : Nat) :
    (∀ (g : Nat) (a b : JVal), jsize a + jsize b ≤ f → jsize a + jsize b ≤ g →
      pyEqF f a b = pyEqF g a b)
    ∧ (∀ (g : Nat) (xs ys : List JVal),
        jsizeL xs + jsizeL ys ≤ f → jsizeL xs + jsizeL ys ≤ g →
      pyEqListF f xs ys = pyEqListF g xs ys)
    ∧ (∀ (g : Nat) (x y : Obj), jsizeO x + jsizeO y ≤ f → jsizeO x + jsizeO y ≤ g →
      pyObjAllF f x y = pyObjAllF g x y)
    ∧ (∀ (g : Nat) (k : Str) (v : JVal) (b : Obj),
        jsize v + jsizeO b ≤ f → jsize v + jsizeO b ≤ g →
      pyMemEntryF f k v b = pyMemEntryF g k v b) := by
  induction f with
  | zero =>
    refine ⟨fun g a b hf _ => ?_, fun g xs ys hf _ => ?_,
      fun g x y hf _ => ?_, fun g k v b hf _ => ?_⟩
    · have := jsize_pos a; have := jsize_pos b; omega
    · have := jsizeL_pos xs; have := jsizeL_pos ys; omega
    · have := jsizeO_pos x; have := jsizeO_pos y; omega
    · have := jsize_pos v; have := jsizeO_pos b; omega
  | succ f ih =>
    obtain ⟨ihA, ihL, ihO, ihM⟩ := ih
    refine ⟨?_, ?_, ?_, ?_⟩
    · intro g a b hf hg
      have ha := jsize_pos a
      have hb := jsize_pos b
      cases g with
      | zero => omega
      | succ g2 =>
        cases a <;> cases b <;> simp only [pyEqF]
        case jarr.jarr xs ys =>
          simp only [jsize] at hf hg
          have := jsizeL_pos xs
          have := jsizeL_pos ys
          exact ihL g2 xs ys (by omega) (by omega)
        case jobj.jobj x y =>
          simp only [jsize] at hf hg
          have := jsizeO_pos x
          have := jsizeO_pos y
          rw [ihO g2 x y (by omega) (by omega), ihO g2 y x (by omega) (by omega)]
    · intro g xs ys hf hg
      have hx := jsizeL_pos xs
      have hy := jsizeL_pos ys
      cases g with
      | zero => omega
      | succ g2 =>
        cases xs with
        | nil => cases ys <;> rfl
        | cons x xs =>
          cases ys with
          | nil => rfl
          | cons y ys =>
            simp only [pyEqListF]
            simp only [jsizeL] at hf hg
            have := jsize_pos x
            have := jsize_pos y
            have := jsizeL_pos xs
            have := jsizeL_pos ys
            rw [ihA g2 x y (by omega) (by omega), ihL g2 xs ys (by omega) (by omega)]
    · intro g x y hf hg
      have hx := jsizeO_pos x
      have hy := jsizeO_pos y
      cases g with
      | zero => omega
      | succ g2 =>
        rcases x with _ | ⟨⟨k, v⟩, r⟩
        · rfl
        · simp only [pyObjAllF]
          simp only [jsizeO] at hf hg
          have := jsize_pos v
          have := jsizeO_pos r
          rw [ihM g2 k v y (by omega) (by omega), ihO g2 r y (by omega) (by omega)]
    · intro g k v b hf hg
      have hv := jsize_pos v
      have hb := jsizeO_pos b
      cases g with
      | zero => omega
      | succ g2 =>
        rcases b with _ | ⟨⟨k2, w⟩, b⟩
        · rfl
        · simp only [pyMemEntryF]
          simp only [jsizeO] at hf hg
          have := jsize_pos w
          have := jsizeO_pos b
          rw [ihA g2 v w (by omega) (by omega), ihM g2 k v b (by omega) (by omega)]

/-- Any sufficient fuel computes `pyEq`. -/
theorem pyEqF_eq_pyEq {f : Nat} {a b : JVal} (hf : jsize a + jsize b ≤ f) :
    pyEqF f a b = pyEq a b :=
  (pyEqF_fuel f).1 (jsize a + jsize b) a b hf (le_refl _)

/-- Python hashability of a JSON value: lists and dicts are unhashable and
raise `TypeError` when used as dict keys. -/
def hashableJ : JVal → Bool
  | JVal.jarr _ => false
  | JVal.jobj _ => false
  | _ => true

/-- Dict lookup keyed by a JSON value, using Python `==` on keys. -/
def kGet (m : List (JVal × Obj)) (k : JVal) : Option Obj :=
  match m with
  | [] => none
  | (k0, v) :: r => if pyEq k0 k then some v else kGet r k

/-- Dict assignment keyed by a JSON value: replaces in place (keeping the
original key and its position) or appends. -/
def kUpdIns (m : List (JVal × Obj)) (k : JVal) (v : Obj) : List (JVal × Obj) :=
  match m with
  | [] => [(k, v)]
  | (k0, v0) :: r => if pyEq k0 k then (k0, v) :: r else (k0, v0) :: kUpdIns r k v

/-- Python `k in m` for a JSON-keyed dict. -/
def kHasKey (m : List (JVal × Obj)) (k : JVal) : Bool := (kGet m k).isSome

/-- One step of the dict comprehension from `FileComparator._compare_terms`
/ `_compare_typedefs`: skip a record without an `id` field, key the rest by
their `id` value (later entries overwrite earlier ones); an unhashable
`id` value raises `TypeError` in Python, modelled as `none`. -/
def buildIdStep (acc : Option (List (JVal × Obj))) (t : Obj) :
    Option (List (JVal × Obj)) :=
  match acc with
  | none => none
  | some m =>
    match getV t ("id".data) with
    | none => some m
    | some idv => if hashableJ idv then some (kUpdIns m idv t) else none

/-- The id-to-record index of `FileComparator._compare_terms` /
`_compare_typedefs`. -/
def buildIdDict (ts : List Obj) : Option (List (JVal × Obj)) :=
  ts.foldl buildIdStep (some [])

/-- One field-level change entry from `FileComparator._compare_term_fields`. -/
inductive FieldChange where
  | fAdded (newV : JVal)
  | fDeleted (oldV : JVal)
  | fUpdated (oldV newV : JVal)

/-- One `updated` entry of the change report: the id, both full records and
the field-level changes.  (The Python twins `_compare_terms` and
`_compare_typedefs` differ only in the dict key names used for the two
records; the structure is the same.) -/
structure UpdEntry where
  uid : JVal
  oldR : Obj
  newR : Obj
  fieldChanges : List (Str × FieldChange)

/-- The `added` / `deleted` / `updated` lists returned by
`FileComparator._compare_terms` and `_compare_typedefs`. -/
structure CollChanges where
  added : List Obj
  deleted : List Obj
  updated : List UpdEntry

/-- The union of the two records' key sets, in a deterministic order (the
Python source iterates a `set`, whose order is unspecified; no claim
depends on the order of this union). -/
def keyUnion (o n : Obj) : List Str :=
  ((o.map Prod.fst) ++ (n.map Prod.fst)).foldl
    (fun acc k => if acc.contains k then acc else acc ++ [k]) []

/-- The per-field classification of `FileComparator._compare_term_fields`:
`get` returns `None` for a missing field, and JSON `null` is also `None`,
so a missing field and an explicit `null` compare equal. -/
def fieldChangeAt (o n : Obj) (f : Str) : Option (Str × FieldChange) :=
  let ov := getV o f
  let nv := getV n f
  if pyEq (ov.getD JVal.jnull) (nv.getD JVal.jnull) then none
  else
    match ov, nv with
    | none, _ => some (f, FieldChange.fAdded (nv.getD JVal.jnull))
    | some a, none => some (f, FieldChange.fDeleted a)
    | some a, some b => some (f, FieldChange.fUpdated a b)

/-- `FileComparator._compare_term_fields`. -/
def compareTermFields (o n : Obj) : List (Str × FieldChange) :=
  (keyUnion o n).filterMap (fieldChangeAt o n)

/-- The common body of `_compare_terms` / `_compare_typedefs` after the two
id dicts are built: `added` are the new-dict entries whose id is not in the
old dict, `deleted` the old-dict entries whose id is not in the new dict,
and `updated` the shared ids whose records differ with a non-empty field
diff.  (Python iterates a key-set intersection for `updated`, in
unspecified order; the model iterates old-dict order.) -/
def compareCore (od nd : List (JVal × Obj)) : CollChanges :=
  { added := (nd.filter (fun p => !kHasKey od p.1)).map Prod.snd
    deleted := (od.filter (fun p => !kHasKey nd p.1)).map Prod.snd
    updated :=
      (od.filter (fun p => kHasKey nd p.1)).filterMap (fun p =>
        match kGet nd p.1 with
        | none => none
        | some nt =>
          if pyEq (JVal.jobj p.2) (JVal.jobj nt) then none
          else
            let fc := compareTermFields p.2 nt
            if fc.isEmpty then none else some ⟨p.1, p.2, nt, fc⟩) }

/-- `FileComparator._compare_terms`: `none` models the `TypeError` raised on
an unhashable `id` value. -/
def compareTerms (oldTs newTs : List Obj) : Option CollChanges :=
  match buildIdDict oldTs with
  | none => none
  | some od =>
    match buildIdDict newTs with
    | none => none
    | some nd => some (compareCore od nd)

/-- `FileComparator._compare_typedefs` (same computation as
`_compare_terms`; the Python twin differs only in the presentational key
names of `updated` entries). -/
def compareTypedefs (oldTds newTds : List Obj) : Option CollChanges :=
  match buildIdDict oldTds with
  | none => none
  | some od =>
    match buildIdDict newTds with
    | none => none
    | some nd => some (compareCore od nd)

/-! ## file_validator.py -/

/-- `utils.ValidationResult`: validation status, human-readable message and
the statistics payload (`data or {}`, so the empty dict on failure). -/
structure ValidationResult where
  success : Bool
  message : Str
  vdata : Obj

/-- A failure result with the empty statistics dict. -/
def mkFail (m : Str) : ValidationResult := ⟨false, m, []⟩

/-- Python `len` on a JSON value: strings, lists and dicts are sized;
numbers, booleans and `None` raise `TypeError`, modelled as `none`. -/
def pyLen : JVal → Option Nat
  | JVal.jstr s => some s.length
  | JVal.jarr xs => some xs.length
  | JVal.jobj kvs => some kvs.length
  | _ => none

/-- The per-term loop of `FileValidator.validate_json_structure`
(`for i, term in enumerate(data['terms'])`, reporting positions as `i+1`):
the first term that is not an object or lacks `id` or `name` produces a
failure. -/
def firstTermFailure : Nat → List JVal → Option ValidationResult
  | _, [] => none
  | i, JVal.jobj kv :: ts =>
    if (getV kv ("id".data)).isSome = false then
      some (mkFail ("Term ".data ++ (Nat.repr (i + 1)).data ++ " missing id field".data))
    else if (getV kv ("name".data)).isSome = false then
      some (mkFail ("Term ".data ++ (Nat.repr (i + 1)).data ++ " missing name field".data))
    else firstTermFailure (i + 1) ts
  | i, _ :: _ =>
    some (mkFail ("Term ".data ++ (Nat.repr (i + 1)).data ++ " is not an object".data))

/-- The statistics dict built on success by
`FileValidator.validate_json_structure`. -/
def statsObj (headerFields totalTerms : Nat) (hasTds : Bool) (tdCount : Nat) : Obj :=
  [("header_fields".data, JVal.jnum headerFields),
   ("total_terms".data, JVal.jnum totalTerms),
   ("has_typedefs".data, JVal.jbool hasTds),
   ("typedef_count".data, JVal.jnum tdCount)]

/-- The statistics step of `FileValidator.validate_json_structure`:
`len(data.get('typedefs', []))` raises `TypeError` when a present
`typedefs` value is unsized; the surrounding `try` turns that into a
failure result (the model abbreviates the interpolated exception text). -/
def statsOrFail (data : Obj) (hkv : Obj) (ts : List JVal) : ValidationResult :=
  match
    (match getV data ("typedefs".data) with
     | none => some 0
     | some tdv => pyLen tdv) with
  | some n =>
    ⟨true, "JSON structure validation passed".data,
      statsObj hkv.length ts.length (getV data ("typedefs".data)).isSome n⟩
  | none => mkFail ("Error during validation: object has no len()".data)

/-- `FileValidator.validate_json_structure`: required keys `header` and
`terms` (checked in that order), `header` must be a dict, `terms` a list,
every term an object with `id` and `name`; on success the statistics dict
is returned. -/
def validateJsonStructure (data : Obj) : ValidationResult :=
  match getV data ("header".data), getV data ("terms".data) with
  | none, _ => mkFail ("Missing required field: header".data)
  | some _, none => mkFail ("Missing required field: terms".data)
  | some (JVal.jobj hkv), some (JVal.jarr ts) =>
    (match firstTermFailure 0 ts with
     | some f => f
     | none => statsOrFail data hkv ts)
  | some (JVal.jobj _), some _ => mkFail ("Terms field must be an array".data)
  | some _, some _ => mkFail ("Header field must be an object".data)

/-! ## Semantic content comparison (file_validator.py) -/

theorem length_dropWhile_le {p : Char → Bool} (l : Str) :
    (l.dropWhile p).length ≤ l.length := by
  induction l with
  | nil => simp [List.dropWhile]
  | cons c r ih =>
    by_cases h : p c = true
    · simp only [List.dropWhile, h]
      exact Nat.le_trans ih (Nat.le_succ _)
    · simp only [List.dropWhile, h]
      simp

/-- Fuel-driven word splitter; each step consumes at least one character,
so fuel at least the string length never runs out (`pyWordsGo_fuel`). -/
def pyWordsGo : Nat → Str → List Str
  | 0, _ => []
  | f + 1, s =>
    match s.dropWhile isWs with
    | [] => []
    | c :: r =>
      ((c :: r).takeWhile (fun d => !isWs d))
        :: pyWordsGo f ((c :: r).dropWhile (fun d => !isWs d))

/-- Python `s.split()` (no argument): maximal runs of non-whitespace,
dropping all whitespace and producing no empty pieces. -/
def pyWords (s : Str) : List Str := pyWordsGo s.length s

theorem dropWhile_head_not {p : Char → Bool} {s : Str} {c : Char} {r : Str}
    (h : s.dropWhile p = c :: r) : p c = false := by
  induction s with
  | nil => simp at h
  | cons d t ih =>
    by_cases hd : p d = true
    · rw [List.dropWhile_cons_of_pos hd] at h
      exact ih h
    · rw [List.dropWhile_cons_of_neg (by simp [hd])] at h
      cases h
      cases hpc : p c with
      | false => rfl
      | true => exact absurd hpc hd

theorem pyWordsGo_fuel :
    ∀ (f g : Nat) (s : Str), s.length ≤ f → s.length ≤ g →
      pyWordsGo f s = pyWordsGo g s := by
  intro f
  induction f with
  | zero =>
    intro g s hf hg
    have : s = [] := List.length_eq_zero.mp (Nat.le_zero.mp hf)
    subst this
    cases g with
    | zero => rfl
    | succ g2 => rfl
  | succ f ih =>
    intro g s hf hg
    cases hdw : s.dropWhile isWs with
    | nil =>
      cases g with
      | zero =>
        have : s = [] := List.length_eq_zero.mp (Nat.le_zero.mp hg)
        subst this
        rfl
      | succ g2 => simp only [pyWordsGo, hdw]
    | cons c r =>
      have hlen1 : (c :: r).length ≤ s.length := by
        rw [← hdw]; exact length_dropWhile_le s
      simp only [List.length_cons] at hlen1
      cases g with
      | zero => omega
      | succ g2 =>
        simp only [pyWordsGo, hdw]
        have hc : isWs c = false := dropWhile_head_not hdw
        have hnext : ((c :: r).dropWhile (fun d => !isWs d)).length ≤ r.length := by
          rw [List.dropWhile_cons_of_pos (by simp [hc])]
          exact length_dropWhile_le r
        rw [ih g2 ((c :: r).dropWhile (fun d => !isWs d)) (by omega) (by omega)]

/-- Python single-space join of a list of words. -/
def joinSpace : List Str → Str
  | [] => []
  | [l] => l
  | l :: ls => l ++ ' ' :: joinSpace ls

/-- The per-line normalization `' '.join(line.split())` from
`FileValidator._extract_semantic_content`: internal whitespace runs collapse
to single spaces. -/
def wsNorm (l : Str) : Str := joinSpace (pyWords l)

/-- `FileValidator._extract_semantic_content` on file content: strip each
line, keep the non-empty ones not starting with `!`, normalize whitespace.
The Python function returns this as a `set`; the model keeps the list and
treats it with membership semantics. -/
def semLines (content : Str) : List Str :=
  (((splitNl content).map strip).filter
      (fun l => !l.isEmpty && !(begins ("!".data) l))).map wsNorm

/-- `FileValidator.validate_semantic_content` on the two file contents:
both set differences of the extracted semantic content must be empty. -/
def validateSemanticContent (t1 t2 : Str) : Bool :=
  let c1 := semLines t1
  let c2 := semLines t2
  let missingIn2 := c1.filter (fun l => !c2.contains l)
  let extraIn2 := c2.filter (fun l => !c1.contains l)
  missingIn2.isEmpty && extraIn2.isEmpty

/-! ## Basic lemmas about the string primitives -/

theorem dropWhile_dropWhile_of_imp {p q : Char → Bool}
    (h : ∀ a, q a = true → p a = true) (l : Str) :
    (l.dropWhile q).dropWhile p = l.dropWhile p := by
  induction l with
  | nil => rfl
  | cons c r ih =>
    by_cases hq : q c = true
    · rw [List.dropWhile_cons_of_pos hq, ih, List.dropWhile_cons_of_pos (h c hq)]
    · rw [List.dropWhile_cons_of_neg (by simpa using hq)]

theorem rstrip_rstrip (l : Str) : rstrip (rstrip l) = rstrip l := by
  simp only [rstrip, List.reverse_reverse]
  rw [dropWhile_dropWhile_of_imp (fun a ha => ha)]

theorem strip_rstrip (l : Str) : strip (rstrip l) = strip l := by
  simp only [strip, rstrip_rstrip]

theorem rstrip_rstripNl (l : Str) : rstrip (rstripNl l) = rstrip l := by
  simp only [rstrip, rstripNl, List.reverse_reverse]
  rw [dropWhile_dropWhile_of_imp (p := isWs) (q := fun c => c = '\n')]
  intro a ha
  simp only [decide_eq_true_eq] at ha
  subst ha
  rfl

theorem strip_rstripNl (l : Str) : strip (rstripNl l) = strip l := by
  simp only [strip, rstrip_rstripNl]

theorem mem_of_mem_dropWhile {p : Char → Bool} {a : Char} {l : Str}
    (h : a ∈ l.dropWhile p) : a ∈ l :=
  (List.dropWhile_sublist p).mem h

theorem mem_of_mem_rstrip {a : Char} {l : Str} (h : a ∈ rstrip l) : a ∈ l := by
  simp only [rstrip, List.mem_reverse] at h
  exact List.mem_reverse.mp (mem_of_mem_dropWhile h)

theorem mem_of_mem_rstripNl {a : Char} {l : Str} (h : a ∈ rstripNl l) : a ∈ l := by
  simp only [rstripNl, List.mem_reverse] at h
  exact List.mem_reverse.mp (mem_of_mem_dropWhile h)

theorem mem_dropWhile_of_not {p : Char → Bool} {a : Char} {l : Str}
    (ha : p a = false) (h : a ∈ l) : a ∈ l.dropWhile p := by
  induction l with
  | nil => simp at h
  | cons c r ih =>
    by_cases hc : p c = true
    · simp only [List.dropWhile_cons, hc, if_true]
      rcases List.mem_cons.mp h with h1 | h1
      · subst h1; rw [hc] at ha; simp at ha
      · exact ih h1
    · simp only [List.dropWhile_cons, hc, if_false]
      exact h

theorem mem_rstrip_of_not_ws {a : Char} {l : Str} (ha : isWs a = false)
    (h : a ∈ l) : a ∈ rstrip l := by
  simp only [rstrip, List.mem_reverse]
  exact mem_dropWhile_of_not ha (List.mem_reverse.mpr h)

theorem dropWhile_eq_self_of_not {p : Char → Bool} {m : Str}
    (h : ∀ c ∈ m, p c = false) : m.dropWhile p = m := by
  cases m with
  | nil => rfl
  | cons c r =>
    rw [List.dropWhile_cons_of_neg (by simp [h c (List.mem_cons_self c r)])]

theorem rstripNl_eq_self {l : Str} (h : '\n' ∉ l) : rstripNl l = l := by
  simp only [rstripNl]
  rw [dropWhile_eq_self_of_not, List.reverse_reverse]
  intro c hc
  simp only [decide_eq_false_iff_not]
  intro he
  subst he
  exact h (List.mem_reverse.mp hc)

theorem takeWhile_append_cons {k rest : Str} (hk : ':' ∉ k) :
    (k ++ ':' :: rest).takeWhile (fun c => c ≠ ':') = k := by
  induction k with
  | nil => rw [List.nil_append, List.takeWhile_cons_of_neg (by simp)]
  | cons c r ih =>
    have hc : c ≠ ':' := fun he => hk (he ▸ List.mem_cons_self c r)
    rw [List.cons_append, List.takeWhile_cons_of_pos (by simp [hc]),
      ih (fun hm => hk (List.mem_cons_of_mem c hm))]

theorem dropWhile_append_cons {k rest : Str} (hk : ':' ∉ k) :
    (k ++ ':' :: rest).dropWhile (fun c => c ≠ ':') = ':' :: rest := by
  induction k with
  | nil => rw [List.nil_append, List.dropWhile_cons_of_neg (by simp)]
  | cons c r ih =>
    have hc : c ≠ ':' := fun he => hk (he ▸ List.mem_cons_self c r)
    rw [List.cons_append, List.dropWhile_cons_of_pos (by simp [hc]),
      ih (fun hm => hk (List.mem_cons_of_mem c hm))]

theorem colonSplit_append {k rest : Str} (hk : ':' ∉ k) :
    colonSplit (k ++ ':' :: rest) = (k, rest) := by
  simp only [colonSplit, takeWhile_append_cons hk, dropWhile_append_cons hk,
    List.drop_succ_cons, List.drop_zero]

theorem dropWhile_eq_self_of_append {p : Char → Bool} {x y : Str}
    (h : List.dropWhile p (x ++ y) = x ++ y) : List.dropWhile p x = x := by
  cases x with
  | nil => rfl
  | cons c r =>
    have hc : p c = false := by
      by_contra hpc
      have hpc' : p c = true := by
        cases hpc2 : p c with
        | false => exact absurd hpc2 hpc
        | true => rfl
      rw [List.cons_append, List.dropWhile_cons_of_pos hpc'] at h
      have := congrArg List.length h
      have hle := length_dropWhile_le (p := p) (r ++ y)
      simp only [List.length_cons] at this
      omega
    rw [List.dropWhile_cons_of_neg (by simp [hc])]

/-- A string is a fixed point of `rstrip` exactly when it has no trailing
whitespace; this transfers to every suffix. -/
theorem rstrip_eq_self_of_suffix {s l : Str} (hs : ∃ a, a ++ s = l)
    (h : rstrip l = l) : rstrip s = s := by
  obtain ⟨a, rfl⟩ := hs
  simp only [rstrip] at h ⊢
  have h2 : List.dropWhile isWs ((a ++ s).reverse) = (a ++ s).reverse := by
    have := congrArg List.reverse h
    rwa [List.reverse_reverse] at this
  rw [List.reverse_append] at h2
  have h3 := dropWhile_eq_self_of_append h2
  rw [h3, List.reverse_reverse]

theorem lstrip_eq_self_of_append {x y : Str} (h : lstrip (x ++ y) = x ++ y) :
    lstrip x = x :=
  dropWhile_eq_self_of_append h

/-- `rstrip` leaves an explicit prefix of its input. -/
theorem rstrip_append_eq (v : Str) :
    rstrip v ++ (v.reverse.takeWhile isWs).reverse = v := by
  have := List.takeWhile_append_dropWhile (p := isWs) (l := v.reverse)
  have h2 := congrArg List.reverse this
  rw [List.reverse_append, List.reverse_reverse] at h2
  exact h2

theorem dropWhile_append_of_ne_nil {p : Char → Bool} {x : Str} (y : Str)
    (h : List.dropWhile p x ≠ []) :
    List.dropWhile p (x ++ y) = List.dropWhile p x ++ y := by
  induction x with
  | nil => simp at h
  | cons c r ih =>
    by_cases hc : p c = true
    · have h2 : List.dropWhile p r ≠ [] := by
        rwa [List.dropWhile_cons_of_pos hc] at h
      rw [List.cons_append, List.dropWhile_cons_of_pos hc,
        List.dropWhile_cons_of_pos hc, ih h2]
    · rw [List.cons_append, List.dropWhile_cons_of_neg (by simp [hc]),
        List.dropWhile_cons_of_neg (by simp [hc]), List.cons_append]

theorem rstrip_append_of_ne_nil {a b : Str} (h : rstrip b ≠ []) :
    rstrip (a ++ b) = a ++ rstrip b := by
  simp only [rstrip, List.reverse_append]
  have hb : List.dropWhile isWs b.reverse ≠ [] := by
    intro he
    apply h
    simp only [rstrip, he, List.reverse_nil]
  rw [dropWhile_append_of_ne_nil a.reverse hb, List.reverse_append,
    List.reverse_reverse]

/-! ## C2: totality and silent skipping of unparseable lines -/

/-- C2: the parser is total — the embedding `parseOboFile : Str → Document`
is a total Lean function translated operation by operation from
`OBOFileParser.parse_obo_file`, so every input yields a Document — and a
line that is blank (after stripping) or contains no colon leaves the
header-parsing state and the section-parsing state unchanged: it is
silently skipped, not reported. -/
theorem parse_skips_unparseable_lines (l : Str)
    (h : strip l = [] ∨ ':' ∉ l) :
    (∀ m : Header, parseHeaderLineStep m l = m)
    ∧ (∀ r : Rec, parseSectionLineStep r l = r) := by
  constructor
  · intro m
    unfold parseHeaderLineStep
    rw [if_neg]
    intro hcond
    rcases h with h1 | h1
    · exact hcond.1 (by rw [strip_rstrip, h1])
    · exact h1 (mem_of_mem_rstrip hcond.2)
  · intro r
    unfold parseSectionLineStep
    rw [if_neg]
    intro hcond
    rcases h with h1 | h1
    · exact hcond.1 (by rw [strip_rstripNl, h1])
    · exact h1 (mem_of_mem_rstripNl hcond.2)

/-- Witness for C2 at a concrete colon-free line and a concrete blank line. -/
theorem parse_skips_unparseable_lines_witness :
    parseHeaderLineStep [] ("no colon here".data) = []
    ∧ parseSectionLineStep [] ("   ".data) = [] :=
  ⟨(parse_skips_unparseable_lines ("no colon here".data)
      (Or.inr (by decide))).1 [],
   (parse_skips_unparseable_lines ("   ".data)
      (Or.inl (by decide))).2 []⟩

/-! ## C3 / C9: trailing whitespace on header versus section values -/

theorem mem_strip_of_not_ws {a : Char} {l : Str} (ha : isWs a = false)
    (h : a ∈ l) : a ∈ strip l :=
  mem_dropWhile_of_not ha (mem_rstrip_of_not_ws ha h)

theorem strip_ne_nil_of_colon {l : Str} (h : ':' ∈ l) : strip l ≠ [] := by
  intro he
  have := mem_strip_of_not_ws (a := ':') (by decide) h
  rw [he] at this
  simp at this

/-- C3 counterexample: the header line `a: b ` (with a trailing space)
parses to the value `b`, not `b ` — the trailing whitespace is removed by
the `line.rstrip()` in `_parse_header`, so it is not preserved verbatim as
the claim states. -/
theorem header_trailing_ws_counterexample :
    parseHeader ("a: b ".data) = [("a".data, "b".data)]
    ∧ "b".data ≠ "b ".data := by
  constructor
  · rfl
  · decide

/-- C3 amended: for every header line that is not blank and contains a
colon, the parsed value is the remainder after the first colon of the
right-stripped line, with leading whitespace trimmed; consequently the
stored value never carries trailing whitespace (second conjunct). -/
theorem header_value_right_stripped (m : Header) (l : Str)
    (h1 : strip l ≠ []) (h2 : ':' ∈ l) :
    parseHeaderLineStep m l
      = updIns m (strip (colonSplit (rstrip l)).1) (lstrip (colonSplit (rstrip l)).2)
    ∧ rstrip (lstrip (colonSplit (rstrip l)).2) = lstrip (colonSplit (rstrip l)).2 := by
  constructor
  · unfold parseHeaderLineStep
    rw [if_pos]
    constructor
    · rwa [strip_rstrip]
    · exact mem_rstrip_of_not_ws (by decide) h2
  · have key : ∀ s : Str, rstrip s = s →
        rstrip (lstrip ((s.dropWhile (fun c => c ≠ ':')).drop 1))
          = lstrip ((s.dropWhile (fun c => c ≠ ':')).drop 1) := by
      intro s hs
      have h3 : rstrip ((s.dropWhile (fun c => c ≠ ':')).drop 1)
          = (s.dropWhile (fun c => c ≠ ':')).drop 1 := by
        apply rstrip_eq_self_of_suffix _ hs
        refine ⟨s.takeWhile (fun c => c ≠ ':')
          ++ (s.dropWhile (fun c => c ≠ ':')).take 1, ?_⟩
        rw [List.append_assoc, List.take_append_drop,
          List.takeWhile_append_dropWhile]
      apply rstrip_eq_self_of_suffix _ h3
      refine ⟨(((s.dropWhile (fun c => c ≠ ':')).drop 1)).takeWhile isWs, ?_⟩
      simp only [lstrip]
      exact List.takeWhile_append_dropWhile _ _
    simpa only [colonSplit] using key (rstrip l) (rstrip_rstrip l)

/-- Witness for the amended C3 at the concrete line `a: b `. -/
theorem header_value_right_stripped_witness :
    parseHeaderLineStep [] ("a: b ".data)
      = updIns [] (strip (colonSplit (rstrip ("a: b ".data))).1)
          (lstrip (colonSplit (rstrip ("a: b ".data))).2)
    ∧ rstrip (lstrip (colonSplit (rstrip ("a: b ".data))).2)
        = lstrip (colonSplit (rstrip ("a: b ".data))).2 :=
  header_value_right_stripped [] ("a: b ".data) (by decide) (by decide)

theorem lstrip_eq_nil_and_rstrip_eq_nil {v : Str} (hv : lstrip v = v)
    (hr : rstrip v = []) : v = [] := by
  cases v with
  | nil => rfl
  | cons c r =>
    have hws : ∀ a ∈ (c :: r).reverse, isWs a = true := by
      have : (c :: r).reverse.dropWhile isWs = [] := by
        have := congrArg List.reverse hr
        simpa [rstrip] using this
      exact fun a ha => List.dropWhile_eq_nil_iff.mp this a ha
    have hcws : isWs c = true := hws c (by simp)
    rw [show lstrip (c :: r) = List.dropWhile isWs (c :: r) from rfl,
      List.dropWhile_cons_of_pos hcws] at hv
    have := congrArg List.length hv
    have hle := length_dropWhile_le (p := isWs) r
    simp only [List.length_cons] at this
    omega

/-- C9: contrast between section lines and header lines on a line
`k: v` (with `v` free of leading whitespace): the section parser keeps the
value `v` verbatim, including any trailing spaces or tabs (the line is only
stripped of trailing newlines before the split), while the header parser
right-strips the whole line first, so the stored header value is
`rstrip v`. -/
theorem section_value_keeps_trailing_ws (k v : Str)
    (hk : ':' ∉ k) (hnl : '\n' ∉ k) (hka : strip k ≠ "is_a".data)
    (hv : lstrip v = v) (hvnl : '\n' ∉ v) :
    parseSectionLineStep [] (k ++ ':' :: ' ' :: v) = [(strip k, RecVal.scalar v)]
    ∧ parseHeaderLineStep [] (k ++ ':' :: ' ' :: v) = [(strip k, rstrip v)] := by
  have hlineNl : '\n' ∉ (k ++ ':' :: ' ' :: v) := by
    intro hm
    rcases List.mem_append.mp hm with h | h
    · exact hnl h
    · rcases List.mem_cons.mp h with h | h
      · exact absurd h (by decide)
      · rcases List.mem_cons.mp h with h | h
        · exact absurd h (by decide)
        · exact hvnl h
  have hcolon : ':' ∈ (k ++ ':' :: ' ' :: v) :=
    List.mem_append.mpr (Or.inr (List.mem_cons_self _ _))
  constructor
  · unfold parseSectionLineStep
    rw [rstripNl_eq_self hlineNl, if_pos ⟨strip_ne_nil_of_colon hcolon, hcolon⟩,
      colonSplit_append hk]
    have hval : lstrip (' ' :: v) = v := by
      rw [show lstrip (' ' :: v) = List.dropWhile isWs (' ' :: v) from rfl,
        List.dropWhile_cons_of_pos (by decide)]
      exact hv
    simp only [hval]
    rw [if_neg hka]
    rfl
  · unfold parseHeaderLineStep
    by_cases hre : rstrip v = []
    · have hvnil : v = [] := lstrip_eq_nil_and_rstrip_eq_nil hv hre
      subst hvnil
      have hr1 : rstrip (k ++ ':' :: ' ' :: ([] : Str)) = k ++ [':'] := by
        simp only [rstrip, List.reverse_append]
        rw [show (':' :: ' ' :: ([] : Str)).reverse = ' ' :: [':'] from rfl]
        rw [show List.dropWhile isWs (' ' :: [':'] ++ k.reverse)
            = List.dropWhile isWs ([':'] ++ k.reverse) from by
          rw [List.cons_append, List.dropWhile_cons_of_pos (by decide)]]
        rw [List.singleton_append, List.dropWhile_cons_of_neg (by decide),
          List.reverse_cons, List.reverse_reverse]
      rw [hr1, show (k ++ [':'] : Str) = k ++ ':' :: ([] : Str) from rfl,
        if_pos ⟨strip_ne_nil_of_colon (List.mem_append.mpr (Or.inr (by simp))),
          List.mem_append.mpr (Or.inr (by simp))⟩,
        colonSplit_append hk]
      rw [hre]
      rfl
    · have hr1 : rstrip (k ++ ':' :: ' ' :: v) = k ++ ':' :: ' ' :: rstrip v := by
        rw [show k ++ ':' :: ' ' :: v = (k ++ [':', ' ']) ++ v from by
          simp [List.append_assoc]]
        rw [rstrip_append_of_ne_nil hre]
        simp [List.append_assoc]
      rw [hr1]
      have hcolon2 : ':' ∈ (k ++ ':' :: ' ' :: rstrip v) :=
        List.mem_append.mpr (Or.inr (List.mem_cons_self _ _))
      rw [if_pos ⟨strip_ne_nil_of_colon hcolon2, hcolon2⟩, colonSplit_append hk]
      have hval : lstrip (' ' :: rstrip v) = rstrip v := by
        rw [show lstrip (' ' :: rstrip v) = List.dropWhile isWs (' ' :: rstrip v) from rfl,
          List.dropWhile_cons_of_pos (by decide)]
        have : lstrip (rstrip v ++ (v.reverse.takeWhile isWs).reverse) = v := by
          rw [rstrip_append_eq v]; exact hv
        exact lstrip_eq_self_of_append (by rw [rstrip_append_eq v]; exact hv)
      simp only [hval]
      rfl

/-- Witness for C9 at the concrete line `name: b ` (trailing space). -/
theorem section_value_keeps_trailing_ws_witness :
    parseSectionLineStep [] ("name".data ++ ':' :: ' ' :: "b ".data)
      = [(strip ("name".data), RecVal.scalar ("b ".data))]
    ∧ parseHeaderLineStep [] ("name".data ++ ':' :: ' ' :: "b ".data)
      = [(strip ("name".data), rstrip ("b ".data))] :=
  section_value_keeps_trailing_ws ("name".data) ("b ".data)
    (by decide) (by decide) (by decide) (by decide) (by decide)

/-! ## C4: presence of the typedefs key -/

theorem parseOboFile_typedefs_eq (T : Str) :
    (parseOboFile T).typedefs =
      (if ((((splitMarkers T).2.map (fun p => (p.1, parseSection p.2))).filter
            (fun p => !p.1 && !p.2.isEmpty)).map (fun p => p.2)).isEmpty then none
       else some ((((splitMarkers T).2.map (fun p => (p.1, parseSection p.2))).filter
            (fun p => !p.1 && !p.2.isEmpty)).map (fun p => p.2))) := rfl

/-- C4: for every input text, the parsed document carries a `typedefs` key
(modelled as `typedefs ≠ none`) exactly when some `[Typedef]` section
parses to a non-empty record; and the key is never present as an empty
list. -/
theorem typedefs_key_absent_iff (T : Str) :
    ((parseOboFile T).typedefs ≠ none ↔
      ∃ p ∈ (splitMarkers T).2, p.1 = false ∧ parseSection p.2 ≠ [])
    ∧ (∀ l, (parseOboFile T).typedefs = some l → l ≠ []) := by
  have hrepr := parseOboFile_typedefs_eq T
  have hiff : ((((splitMarkers T).2.map (fun p => (p.1, parseSection p.2))).filter
        (fun p => !p.1 && !p.2.isEmpty)).map (fun p => p.2)) ≠ []
      ↔ ∃ p ∈ (splitMarkers T).2, p.1 = false ∧ parseSection p.2 ≠ [] := by
    constructor
    · intro hne
      rcases hx : (((splitMarkers T).2.map (fun p => (p.1, parseSection p.2))).filter
          (fun p => !p.1 && !p.2.isEmpty)) with _ | ⟨a, rest⟩
      · rw [hx] at hne; simp at hne
      · have ha : a ∈ (((splitMarkers T).2.map (fun p => (p.1, parseSection p.2))).filter
            (fun p => !p.1 && !p.2.isEmpty)) := by rw [hx]; simp
        have ham := List.mem_of_mem_filter ha
        have hap := List.of_mem_filter ha
        obtain ⟨q, hq, hfa⟩ := List.mem_map.mp ham
        refine ⟨q, hq, ?_, ?_⟩
        · have := (Bool.and_eq_true _ _).mp hap |>.1
          rw [← hfa] at this
          simp only [Bool.not_eq_true'] at this
          exact this
        · have := (Bool.and_eq_true _ _).mp hap |>.2
          rw [← hfa] at this
          rw [Bool.not_eq_true'] at this
          exact List.isEmpty_eq_false.mp this
    · rintro ⟨q, hq, hq1, hq2⟩
      intro hnil
      have hmem : (q.1, parseSection q.2) ∈
          ((splitMarkers T).2.map (fun p => (p.1, parseSection p.2))) :=
        List.mem_map.mpr ⟨q, hq, rfl⟩
      have hpred : (!(q.1, parseSection q.2).1
          && !(q.1, parseSection q.2).2.isEmpty) = true := by
        simp only [hq1, Bool.not_false, Bool.true_and, Bool.not_eq_true']
        exact List.isEmpty_eq_false.mpr hq2
      have hfm : (q.1, parseSection q.2).2 ∈
          ((((splitMarkers T).2.map (fun p => (p.1, parseSection p.2))).filter
            (fun p => !p.1 && !p.2.isEmpty)).map (fun p => p.2)) :=
        List.mem_map.mpr ⟨_, List.mem_filter.mpr ⟨hmem, hpred⟩, rfl⟩
      rw [hnil] at hfm
      simp at hfm
  constructor
  · rw [hrepr]
    by_cases he : ((((splitMarkers T).2.map (fun p => (p.1, parseSection p.2))).filter
        (fun p => !p.1 && !p.2.isEmpty)).map (fun p => p.2)).isEmpty
    · rw [if_pos he]
      rw [List.isEmpty_iff] at he
      simp only [ne_eq, not_true_eq_false, false_iff]
      rw [← hiff]
      simp [he]
    · rw [if_neg he]
      rw [Bool.not_eq_true, List.isEmpty_eq_false] at he
      simp only [ne_eq, reduceCtorEq, not_false_eq_true, true_iff]
      exact hiff.mp he
  · intro l hl
    rw [hrepr] at hl
    by_cases he : ((((splitMarkers T).2.map (fun p => (p.1, parseSection p.2))).filter
        (fun p => !p.1 && !p.2.isEmpty)).map (fun p => p.2)).isEmpty
    · rw [if_pos he] at hl; exact absurd hl (by simp)
    · rw [if_neg he] at hl
      have := Option.some.inj hl
      subst this
      intro hln
      rw [hln] at he
      simp at he

/-- Witness for C4 at a concrete one-typedef text. -/
theorem typedefs_key_absent_iff_witness :
    (parseOboFile ("[Typedef]\nid: x\n".data)).typedefs ≠ none :=
  (typedefs_key_absent_iff ("[Typedef]\nid: x\n".data)).1.mpr
    ⟨(false, "\nid: x\n".data), by decide, by decide, by decide⟩

/-! ## C5: symmetry of the added and deleted lists -/

theorem compareTerms_eq_some {A B : List Obj} {r : CollChanges}
    (h : compareTerms A B = some r) :
    ∃ da db, buildIdDict A = some da ∧ buildIdDict B = some db
      ∧ r = compareCore da db := by
  unfold compareTerms at h
  cases hA : buildIdDict A with
  | none => rw [hA] at h; simp at h
  | some da =>
    rw [hA] at h
    cases hB : buildIdDict B with
    | none => rw [hB] at h; simp at h
    | some db =>
      rw [hB] at h
      exact ⟨da, db, rfl, rfl, (Option.some.inj h).symm⟩

/-- The two Python twins compute the same function (they differ only in the
presentational key names of `updated` entries, which the shared structure
`UpdEntry` represents once). -/
theorem compareTypedefs_eq_compareTerms : compareTypedefs = compareTerms := rfl

/-- C5: for every pair of term lists and every pair of typedef lists on
which the comparison succeeds, the `added` records of `diff(A, B)` are
exactly the `deleted` records of `diff(B, A)` and vice versa, for both the
terms and the typedefs collection.  (This record-list equality is stronger
than the claimed equality of id sets: equal record lists have equal id
sets.) -/
theorem diff_added_deleted_symmetry (tA tB dA dB : List Obj)
    (rT sT rD sD : CollChanges)
    (h1 : compareTerms tA tB = some rT) (h2 : compareTerms tB tA = some sT)
    (h3 : compareTypedefs dA dB = some rD) (h4 : compareTypedefs dB dA = some sD) :
    (rT.added = sT.deleted ∧ rT.deleted = sT.added)
    ∧ (rD.added = sD.deleted ∧ rD.deleted = sD.added) := by
  rw [compareTypedefs_eq_compareTerms] at h3 h4
  obtain ⟨da, db, hA, hB, hr⟩ := compareTerms_eq_some h1
  obtain ⟨da2, db2, hA2, hB2, hs⟩ := compareTerms_eq_some h2
  obtain ⟨ea, eb, hA3, hB3, hrd⟩ := compareTerms_eq_some h3
  obtain ⟨ea2, eb2, hA4, hB4, hsd⟩ := compareTerms_eq_some h4
  have e1 : da2 = db := by rw [hA2] at hB; exact Option.some.inj hB
  have e2 : db2 = da := by rw [hB2] at hA; exact Option.some.inj hA
  have e3 : ea2 = eb := by rw [hA4] at hB3; exact Option.some.inj hB3
  have e4 : eb2 = ea := by rw [hB4] at hA3; exact Option.some.inj hA3
  subst hr hs hrd hsd e1 e2 e3 e4
  exact ⟨⟨rfl, rfl⟩, ⟨rfl, rfl⟩⟩

/-- A one-record object used by concrete witnesses. -/
def wObjA : Obj := [("id".data, JVal.jstr ("A".data))]

/-- Witness for C5: one record on one side, none on the other. -/
theorem diff_added_deleted_symmetry_witness :
    (((⟨[], [wObjA], []⟩ : CollChanges).added
        = (⟨[wObjA], [], []⟩ : CollChanges).deleted)
      ∧ ((⟨[], [wObjA], []⟩ : CollChanges).deleted
        = (⟨[wObjA], [], []⟩ : CollChanges).added))
    ∧ (((⟨[], [], []⟩ : CollChanges).added = (⟨[], [], []⟩ : CollChanges).deleted)
      ∧ ((⟨[], [], []⟩ : CollChanges).deleted = (⟨[], [], []⟩ : CollChanges).added)) :=
  diff_added_deleted_symmetry [wObjA] [] [] []
    ⟨[], [wObjA], []⟩ ⟨[wObjA], [], []⟩ ⟨[], [], []⟩ ⟨[], [], []⟩
    rfl rfl rfl rfl

/-! ## C6: semantic-set comparison -/

/-- C6: the semantic comparison succeeds exactly when the two texts have
the same set of normalized semantic lines (each line stripped, non-empty,
not starting with `!`, internal whitespace collapsed); membership-based
equality makes the comparison order-independent and
duplicate-count-independent. -/
theorem semantic_comparison_iff (t1 t2 : Str) :
    validateSemanticContent t1 t2 = true
      ↔ (∀ l, l ∈ semLines t1 ↔ l ∈ semLines t2) := by
  unfold validateSemanticContent
  simp only [Bool.and_eq_true, List.isEmpty_iff]
  constructor
  · rintro ⟨hm, he⟩ l
    constructor
    · intro hl
      by_contra hnl
      have hmem : l ∈ (semLines t1).filter (fun x => !(semLines t2).contains x) :=
        List.mem_filter.mpr ⟨hl, by
          cases hc : (semLines t2).contains l with
          | false => rfl
          | true => exact absurd (List.elem_iff.mp hc) hnl⟩
      rw [hm] at hmem
      simp at hmem
    · intro hl
      by_contra hnl
      have hmem : l ∈ (semLines t2).filter (fun x => !(semLines t1).contains x) :=
        List.mem_filter.mpr ⟨hl, by
          cases hc : (semLines t1).contains l with
          | false => rfl
          | true => exact absurd (List.elem_iff.mp hc) hnl⟩
      rw [he] at hmem
      simp at hmem
  · intro hiff
    constructor
    · rw [List.filter_eq_nil_iff]
      intro a ha hcontra
      rw [Bool.not_eq_true'] at hcontra
      have h1 := List.elem_iff.mpr ((hiff a).mp ha)
      have h2 : List.elem a (semLines t2) = false := hcontra
      rw [h2] at h1
      exact Bool.false_ne_true h1
    · rw [List.filter_eq_nil_iff]
      intro a ha hcontra
      rw [Bool.not_eq_true'] at hcontra
      have h1 := List.elem_iff.mpr ((hiff a).mpr ha)
      have h2 : List.elem a (semLines t1) = false := hcontra
      rw [h2] at h1
      exact Bool.false_ne_true h1

/-- Witness for C6: two texts differing only in formatting and comments
compare equal, instantiated at a concrete normalized line. -/
theorem semantic_comparison_iff_witness :
    ("a: b".data ∈ semLines ("a: b\n\nc: d\n".data)
      ↔ "a: b".data ∈ semLines ("c:   d\n! note\n  a: b\n".data)) :=
  (semantic_comparison_iff ("a: b\n\nc: d\n".data)
    ("c:   d\n! note\n  a: b\n".data)).mp (by decide) ("a: b".data)

/-! ## C7 / C10: structural validation -/

theorem firstTermFailure_some_success :
    ∀ (i : Nat) (ts : List JVal) (f : ValidationResult),
      firstTermFailure i ts = some f → f.success = false := by
  intro i ts
  induction ts generalizing i with
  | nil => intro f h; simp [firstTermFailure] at h
  | cons t0 rest ih =>
    intro f h
    cases t0 with
    | jobj kv =>
      unfold firstTermFailure at h
      by_cases hid : (getV kv ("id".data)).isSome = false
      · rw [if_pos hid] at h
        cases h; rfl
      · rw [if_neg hid] at h
        by_cases hname : (getV kv ("name".data)).isSome = false
        · rw [if_pos hname] at h
          cases h; rfl
        · rw [if_neg hname] at h
          exact ih (i + 1) f h
    | jstr s => cases h; rfl
    | jnum n => cases h; rfl
    | jbool b => cases h; rfl
    | jnull => cases h; rfl
    | jarr xs => cases h; rfl

theorem firstTermFailure_none :
    ∀ (i : Nat) (ts : List JVal), firstTermFailure i ts = none →
      ∀ t ∈ ts, ∃ kv, t = JVal.jobj kv
        ∧ (getV kv ("id".data)).isSome = true
        ∧ (getV kv ("name".data)).isSome = true := by
  intro i ts
  induction ts generalizing i with
  | nil => intro h t ht; simp at ht
  | cons t0 rest ih =>
    intro h t ht
    cases t0 with
    | jobj kv =>
      unfold firstTermFailure at h
      by_cases hid : (getV kv ("id".data)).isSome = false
      · rw [if_pos hid] at h; cases h
      · rw [if_neg hid] at h
        by_cases hname : (getV kv ("name".data)).isSome = false
        · rw [if_pos hname] at h; cases h
        · rw [if_neg hname] at h
          rcases List.mem_cons.mp ht with rfl | hmem
          · exact ⟨kv, rfl, Bool.of_not_eq_false hid, Bool.of_not_eq_false hname⟩
          · exact ih (i + 1) h t hmem
    | jstr s => cases h
    | jnum n => cases h
    | jbool b => cases h
    | jnull => cases h
    | jarr xs => cases h

theorem firstTermFailure_none_of_ok :
    ∀ (i : Nat) (ts : List JVal),
      (∀ t ∈ ts, ∃ kv, t = JVal.jobj kv
        ∧ (getV kv ("id".data)).isSome = true
        ∧ (getV kv ("name".data)).isSome = true) →
      firstTermFailure i ts = none := by
  intro i ts
  induction ts generalizing i with
  | nil => intro _; rfl
  | cons t0 rest ih =>
    intro h
    obtain ⟨kv, rfl, hid, hname⟩ := h t0 (List.mem_cons_self _ _)
    unfold firstTermFailure
    rw [if_neg (by simp [hid]), if_neg (by simp [hname])]
    exact ih (i + 1) (fun t ht => h t (List.mem_cons_of_mem _ ht))

theorem validate_header_missing {data : Obj}
    (h : getV data ("header".data) = none) :
    validateJsonStructure data = mkFail ("Missing required field: header".data) := by
  unfold validateJsonStructure
  rw [h]

theorem validate_terms_missing {data : Obj} {hv : JVal}
    (hh : getV data ("header".data) = some hv)
    (ht : getV data ("terms".data) = none) :
    validateJsonStructure data = mkFail ("Missing required field: terms".data) := by
  unfold validateJsonStructure
  rw [hh, ht]
  cases hv <;> rfl

theorem validate_main {data : Obj} {hkv : Obj} {ts : List JVal}
    (hh : getV data ("header".data) = some (JVal.jobj hkv))
    (ht : getV data ("terms".data) = some (JVal.jarr ts)) :
    validateJsonStructure data
      = (match firstTermFailure 0 ts with
         | some f => f
         | none => statsOrFail data hkv ts) := by
  unfold validateJsonStructure
  rw [hh, ht]

/-- C7: structural validation of a document missing `terms` fails (and,
when `header` is present, fails with the message naming `terms`) and never
raises (the embedding is a total function); success requires `header` to
be an object, `terms` a list, and every term an object containing `id` and
`name`; on success the result carries the statistics payload with the
header-field and term counts. -/
theorem structural_validation_gate (data : Obj) :
    (getV data ("terms".data) = none → (validateJsonStructure data).success = false)
    ∧ (getV data ("header".data) ≠ none → getV data ("terms".data) = none →
        validateJsonStructure data = mkFail ("Missing required field: terms".data))
    ∧ ((validateJsonStructure data).success = true →
        ∃ hkv ts, getV data ("header".data) = some (JVal.jobj hkv)
          ∧ getV data ("terms".data) = some (JVal.jarr ts)
          ∧ (∀ t ∈ ts, ∃ kv, t = JVal.jobj kv
              ∧ (getV kv ("id".data)).isSome = true
              ∧ (getV kv ("name".data)).isSome = true)
          ∧ ∃ n, (validateJsonStructure data).vdata
              = statsObj hkv.length ts.length (getV data ("typedefs".data)).isSome n) := by
  refine ⟨?_, ?_, ?_⟩
  · intro ht
    cases hh : getV data ("header".data) with
    | none => rw [validate_header_missing hh]; rfl
    | some hv => rw [validate_terms_missing hh ht]; rfl
  · intro hh2 ht
    cases hh : getV data ("header".data) with
    | none => exact absurd hh hh2
    | some hv => exact validate_terms_missing hh ht
  · intro hs
    cases hh : getV data ("header".data) with
    | none => rw [validate_header_missing hh] at hs; simp [mkFail] at hs
    | some hv =>
      cases ht : getV data ("terms".data) with
      | none => rw [validate_terms_missing hh ht] at hs; simp [mkFail] at hs
      | some tv =>
        cases hv with
        | jobj hkv =>
          cases tv with
          | jarr ts =>
            rw [validate_main hh ht] at hs
            cases hF : firstTermFailure 0 ts with
            | some f =>
              rw [hF] at hs
              have hred : (match some f with
                  | some f0 => f0
                  | none => statsOrFail data hkv ts) = f := rfl
              rw [hred, firstTermFailure_some_success 0 ts f hF] at hs
              cases hs
            | none =>
              rw [hF] at hs
              have hred : (match (none : Option ValidationResult) with
                  | some f0 => f0
                  | none => statsOrFail data hkv ts) = statsOrFail data hkv ts := rfl
              rw [hred] at hs
              refine ⟨hkv, ts, rfl, rfl, firstTermFailure_none 0 ts hF, ?_⟩
              rw [validate_main hh ht, hF, hred]
              unfold statsOrFail at hs ⊢
              cases hlen : (match getV data ("typedefs".data) with
                  | none => some 0
                  | some tdv => pyLen tdv) with
              | none => rw [hlen] at hs; simp [mkFail] at hs
              | some n => exact ⟨n, rfl⟩
          | jstr s =>
            have hred : validateJsonStructure data
                = mkFail ("Terms field must be an array".data) := by
              unfold validateJsonStructure; rw [hh, ht]
            rw [hred] at hs; simp [mkFail] at hs
          | jnum n =>
            have hred : validateJsonStructure data
                = mkFail ("Terms field must be an array".data) := by
              unfold validateJsonStructure; rw [hh, ht]
            rw [hred] at hs; simp [mkFail] at hs
          | jbool b =>
            have hred : validateJsonStructure data
                = mkFail ("Terms field must be an array".data) := by
              unfold validateJsonStructure; rw [hh, ht]
            rw [hred] at hs; simp [mkFail] at hs
          | jnull =>
            have hred : validateJsonStructure data
                = mkFail ("Terms field must be an array".data) := by
              unfold validateJsonStructure; rw [hh, ht]
            rw [hred] at hs; simp [mkFail] at hs
          | jobj kv2 =>
            have hred : validateJsonStructure data
                = mkFail ("Terms field must be an array".data) := by
              unfold validateJsonStructure; rw [hh, ht]
            rw [hred] at hs; simp [mkFail] at hs
        | jstr s =>
          have hred : validateJsonStructure data
              = mkFail ("Header field must be an object".data) := by
            unfold validateJsonStructure; rw [hh, ht]
          rw [hred] at hs; simp [mkFail] at hs
        | jnum n =>
          have hred : validateJsonStructure data
              = mkFail ("Header field must be an object".data) := by
            unfold validateJsonStructure; rw [hh, ht]
          rw [hred] at hs; simp [mkFail] at hs
        | jbool b =>
          have hred : validateJsonStructure data
              = mkFail ("Header field must be an object".data) := by
            unfold validateJsonStructure; rw [hh, ht]
          rw [hred] at hs; simp [mkFail] at hs
        | jnull =>
          have hred : validateJsonStructure data
              = mkFail ("Header field must be an object".data) := by
            unfold validateJsonStructure; rw [hh, ht]
          rw [hred] at hs; simp [mkFail] at hs
        | jarr xs =>
          have hred : validateJsonStructure data
              = mkFail ("Header field must be an object".data) := by
            unfold validateJsonStructure; rw [hh, ht]
          rw [hred] at hs; simp [mkFail] at hs

/-- Witness for C7: a document with a header but no terms key. -/
theorem structural_validation_gate_witness :
    validateJsonStructure [("header".data, JVal.jobj [])]
      = mkFail ("Missing required field: terms".data) :=
  (structural_validation_gate [("header".data, JVal.jobj [])]).2.1
    (by
      intro h
      rw [show getV [("header".data, JVal.jobj [])] ("header".data)
          = some (JVal.jobj []) from rfl] at h
      cases h)
    rfl

/-- C10: structural validation never inspects the contents of `typedefs`:
once the header and terms checks pass, any list value — whatever its
elements — yields a success whose statistics carry only the list length. -/
theorem typedefs_contents_not_inspected (data : Obj) (hkv : Obj)
    (ts tds : List JVal)
    (hh : getV data ("header".data) = some (JVal.jobj hkv))
    (ht : getV data ("terms".data) = some (JVal.jarr ts))
    (htd : getV data ("typedefs".data) = some (JVal.jarr tds))
    (hok : ∀ t ∈ ts, ∃ kv, t = JVal.jobj kv
        ∧ (getV kv ("id".data)).isSome = true
        ∧ (getV kv ("name".data)).isSome = true) :
    validateJsonStructure data
      = ⟨true, "JSON structure validation passed".data,
          statsObj hkv.length ts.length true tds.length⟩ := by
  rw [validate_main hh ht, firstTermFailure_none_of_ok 0 ts hok]
  show statsOrFail data hkv ts = _
  unfold statsOrFail
  rw [htd]
  rfl

/-- Witness for C10: the typedefs list holds a non-object string and an
empty object lacking `id` and `name` — validation still succeeds and
reports only the length 2. -/
theorem typedefs_contents_not_inspected_witness :
    validateJsonStructure
        [("header".data, JVal.jobj []), ("terms".data, JVal.jarr []),
         ("typedefs".data, JVal.jarr [JVal.jstr ("junk".data), JVal.jobj []])]
      = ⟨true, "JSON structure validation passed".data,
          statsObj 0 0 true 2⟩ :=
  typedefs_contents_not_inspected
    [("header".data, JVal.jobj []), ("terms".data, JVal.jarr []),
     ("typedefs".data, JVal.jarr [JVal.jstr ("junk".data), JVal.jobj []])]
    [] [] [JVal.jstr ("junk".data), JVal.jobj []]
    rfl rfl rfl (fun t ht => absurd ht (by simp))

/-! ## C8: duplicate-id tie-break in the diff -/

/-- Canonical form of a hashable key: Python `True`/`False` hash and
compare equal to `1`/`0`. -/
def keyNorm : JVal → JVal
  | JVal.jbool x => JVal.jnum (if x then 1 else 0)
  | v => v

theorem pyEq_hashable_iff :
    ∀ (a b : JVal), hashableJ a = true → hashableJ b = true →
      (pyEq a b = true ↔ keyNorm a = keyNorm b) := by
  intro a b ha hb
  cases a with
  | jarr xs => simp [hashableJ] at ha
  | jobj kvs => simp [hashableJ] at ha
  | jstr x =>
    cases b with
    | jarr ys => simp [hashableJ] at hb
    | jobj ys => simp [hashableJ] at hb
    | jstr y =>
      rw [show pyEq (JVal.jstr x) (JVal.jstr y) = (x == y) from rfl]
      simp [keyNorm]
    | jnum y =>
      rw [show pyEq (JVal.jstr x) (JVal.jnum y) = false from rfl]
      simp [keyNorm]
    | jbool y =>
      rw [show pyEq (JVal.jstr x) (JVal.jbool y) = false from rfl]
      simp [keyNorm]
    | jnull =>
      rw [show pyEq (JVal.jstr x) JVal.jnull = false from rfl]
      simp [keyNorm]
  | jnum x =>
    cases b with
    | jarr ys => simp [hashableJ] at hb
    | jobj ys => simp [hashableJ] at hb
    | jstr y =>
      rw [show pyEq (JVal.jnum x) (JVal.jstr y) = false from rfl]
      simp [keyNorm]
    | jnum y =>
      rw [show pyEq (JVal.jnum x) (JVal.jnum y) = (x == y) from rfl]
      simp [keyNorm]
    | jbool y =>
      rw [show pyEq (JVal.jnum x) (JVal.jbool y)
          = (x == (if y then (1 : Int) else 0)) from rfl]
      simp [keyNorm]
    | jnull =>
      rw [show pyEq (JVal.jnum x) JVal.jnull = false from rfl]
      simp [keyNorm]
  | jbool x =>
    cases b with
    | jarr ys => simp [hashableJ] at hb
    | jobj ys => simp [hashableJ] at hb
    | jstr y =>
      rw [show pyEq (JVal.jbool x) (JVal.jstr y) = false from rfl]
      simp [keyNorm]
    | jnum y =>
      rw [show pyEq (JVal.jbool x) (JVal.jnum y)
          = ((if x then (1 : Int) else 0) == y) from rfl]
      simp [keyNorm]
    | jbool y =>
      rw [show pyEq (JVal.jbool x) (JVal.jbool y) = (x == y) from rfl]
      simp only [keyNorm, JVal.jnum.injEq, beq_iff_eq]
      cases x <;> cases y <;> simp
    | jnull =>
      rw [show pyEq (JVal.jbool x) JVal.jnull = false from rfl]
      simp [keyNorm]
  | jnull =>
    cases b with
    | jarr ys => simp [hashableJ] at hb
    | jobj ys => simp [hashableJ] at hb
    | jstr y =>
      rw [show pyEq JVal.jnull (JVal.jstr y) = false from rfl]
      simp [keyNorm]
    | jnum y =>
      rw [show pyEq JVal.jnull (JVal.jnum y) = false from rfl]
      simp [keyNorm]
    | jbool y =>
      rw [show pyEq JVal.jnull (JVal.jbool y) = false from rfl]
      simp [keyNorm]
    | jnull => simp [keyNorm, show pyEq JVal.jnull JVal.jnull = true from rfl]

/-- A hashable value never compares equal to an unhashable one. -/
theorem pyEq_unhash_right :
    ∀ (a k : JVal), hashableJ a = true → hashableJ k = false →
      pyEq a k = false := by
  intro a k ha hk
  cases a with
  | jarr xs => simp [hashableJ] at ha
  | jobj kvs => simp [hashableJ] at ha
  | jstr x =>
    cases k with
    | jarr ys =>
      show pyEqF (jsize (JVal.jstr x) + jsize (JVal.jarr ys)) _ _ = false
      rw [show jsize (JVal.jstr x) + jsize (JVal.jarr ys)
          = (jsizeL ys) + 2 from by simp [jsize]; omega]
      rfl
    | jobj ys =>
      show pyEqF (jsize (JVal.jstr x) + jsize (JVal.jobj ys)) _ _ = false
      rw [show jsize (JVal.jstr x) + jsize (JVal.jobj ys)
          = (jsizeO ys) + 2 from by simp [jsize]; omega]
      rfl
    | jstr y => simp [hashableJ] at hk
    | jnum y => simp [hashableJ] at hk
    | jbool y => simp [hashableJ] at hk
    | jnull => simp [hashableJ] at hk
  | jnum x =>
    cases k with
    | jarr ys =>
      show pyEqF (jsize (JVal.jnum x) + jsize (JVal.jarr ys)) _ _ = false
      rw [show jsize (JVal.jnum x) + jsize (JVal.jarr ys)
          = (jsizeL ys) + 2 from by simp [jsize]; omega]
      rfl
    | jobj ys =>
      show pyEqF (jsize (JVal.jnum x) + jsize (JVal.jobj ys)) _ _ = false
      rw [show jsize (JVal.jnum x) + jsize (JVal.jobj ys)
          = (jsizeO ys) + 2 from by simp [jsize]; omega]
      rfl
    | jstr y => simp [hashableJ] at hk
    | jnum y => simp [hashableJ] at hk
    | jbool y => simp [hashableJ] at hk
    | jnull => simp [hashableJ] at hk
  | jbool x =>
    cases k with
    | jarr ys =>
      show pyEqF (jsize (JVal.jbool x) + jsize (JVal.jarr ys)) _ _ = false
      rw [show jsize (JVal.jbool x) + jsize (JVal.jarr ys)
          = (jsizeL ys) + 2 from by simp [jsize]; omega]
      rfl
    | jobj ys =>
      show pyEqF (jsize (JVal.jbool x) + jsize (JVal.jobj ys)) _ _ = false
      rw [show jsize (JVal.jbool x) + jsize (JVal.jobj ys)
          = (jsizeO ys) + 2 from by simp [jsize]; omega]
      rfl
    | jstr y => simp [hashableJ] at hk
    | jnum y => simp [hashableJ] at hk
    | jbool y => simp [hashableJ] at hk
    | jnull => simp [hashableJ] at hk
  | jnull =>
    cases k with
    | jarr ys =>
      show pyEqF (jsize JVal.jnull + jsize (JVal.jarr ys)) _ _ = false
      rw [show jsize JVal.jnull + jsize (JVal.jarr ys)
          = (jsizeL ys) + 2 from by simp [jsize]; omega]
      rfl
    | jobj ys =>
      show pyEqF (jsize JVal.jnull + jsize (JVal.jobj ys)) _ _ = false
      rw [show jsize JVal.jnull + jsize (JVal.jobj ys)
          = (jsizeO ys) + 2 from by simp [jsize]; omega]
      rfl
    | jstr y => simp [hashableJ] at hk
    | jnum y => simp [hashableJ] at hk
    | jbool y => simp [hashableJ] at hk
    | jnull => simp [hashableJ] at hk

theorem hashable_of_pyEq {a k : JVal} (ha : hashableJ a = true)
    (h : pyEq a k = true) : hashableJ k = true := by
  cases hk : hashableJ k with
  | true => rfl
  | false => rw [pyEq_unhash_right a k ha hk] at h; cases h

theorem pyEq_refl_hashable {a : JVal} (ha : hashableJ a = true) :
    pyEq a a = true :=
  (pyEq_hashable_iff a a ha ha).mpr rfl

theorem pyEq_symm_hashable {a b : JVal} (ha : hashableJ a = true)
    (hb : hashableJ b = true) (h : pyEq a b = true) : pyEq b a = true :=
  (pyEq_hashable_iff b a hb ha).mpr ((pyEq_hashable_iff a b ha hb).mp h).symm

/-- Key transfer: values comparing equal as keys match exactly the same
queries. -/
theorem pyEq_key_transfer {a b : JVal} (ha : hashableJ a = true)
    (hb : hashableJ b = true) (hab : pyEq a b = true) (k : JVal) :
    pyEq a k = pyEq b k := by
  cases hk : hashableJ k with
  | false => rw [pyEq_unhash_right a k ha hk, pyEq_unhash_right b k hb hk]
  | true =>
    have hn := (pyEq_hashable_iff a b ha hb).mp hab
    cases hx : pyEq b k with
    | true =>
      exact (pyEq_hashable_iff a k ha hk).mpr
        (hn.trans ((pyEq_hashable_iff b k hb hk).mp hx))
    | false =>
      cases hy : pyEq a k with
      | false => rfl
      | true =>
        have h1 := (pyEq_hashable_iff a k ha hk).mp hy
        have h2 : pyEq b k = true :=
          (pyEq_hashable_iff b k hb hk).mpr (hn.symm.trans h1)
        rw [h2] at hx
        cases hx

/-- The last record in the list whose `id` value compares Python-equal to
`k` (records without an `id` do not participate). -/
def lastIdMatch (ts : List Obj) (k : JVal) : Option Obj :=
  (ts.filter (fun t =>
    match getV t ("id".data) with
    | some v => pyEq v k
    | none => false)).getLast?

/-- Well-formedness of an id dict: all keys hashable, pairwise distinct
under Python equality. -/
def wfKeys (m : List (JVal × Obj)) : Prop :=
  (∀ p ∈ m, hashableJ p.1 = true)
  ∧ m.Pairwise (fun p q => pyEq p.1 q.1 = false)

theorem kGet_kUpdIns (m : List (JVal × Obj)) (a : JVal) (t : Obj) (k : JVal)
    (hm : ∀ p ∈ m, hashableJ p.1 = true) (ha : hashableJ a = true) :
    kGet (kUpdIns m a t) k = if pyEq a k then some t else kGet m k := by
  induction m with
  | nil => simp [kUpdIns, kGet]
  | cons p r ih =>
    obtain ⟨k0, v0⟩ := p
    have hk0 : hashableJ k0 = true := hm _ (List.mem_cons_self _ _)
    by_cases h0 : pyEq k0 a = true
    · have htr : pyEq k0 k = pyEq a k := pyEq_key_transfer hk0 ha h0 k
      simp only [kUpdIns, if_pos h0, kGet, htr]
      by_cases hak : pyEq a k = true
      · rw [if_pos hak, if_pos hak]
      · rw [if_neg hak, if_neg hak, if_neg hak]
    · simp only [kUpdIns, if_neg h0, kGet]
      rw [ih (fun q hq => hm q (List.mem_cons_of_mem _ hq))]
      by_cases hk0k : pyEq k0 k = true
      · have hkh : hashableJ k = true := hashable_of_pyEq hk0 hk0k
        have haf : pyEq a k = false := by
          cases hx : pyEq a k with
          | false => rfl
          | true =>
            have h1 := pyEq_key_transfer hk0 hkh hk0k a
            rw [pyEq_symm_hashable ha hkh hx] at h1
            exact absurd h1 h0
        rw [if_pos hk0k, if_neg (by simp [haf]), if_pos hk0k]
      · rw [if_neg hk0k]
        by_cases hak : pyEq a k = true
        · rw [if_pos hak, if_pos hak]
        · rw [if_neg hak, if_neg hak, if_neg hk0k]

theorem pyEq_all_kUpdIns {c : JVal} {m : List (JVal × Obj)} {a : JVal} {t : Obj}
    (hca : pyEq c a = false) (hcm : ∀ p ∈ m, pyEq c p.1 = false) :
    ∀ q ∈ kUpdIns m a t, pyEq c q.1 = false := by
  induction m with
  | nil =>
    intro q hq
    rcases List.mem_singleton.mp hq with rfl
    exact hca
  | cons p r ih =>
    obtain ⟨k0, v0⟩ := p
    intro q hq
    by_cases h0 : pyEq k0 a = true
    · rw [show kUpdIns ((k0, v0) :: r) a t = (k0, t) :: r from by
        simp [kUpdIns, h0]] at hq
      rcases List.mem_cons.mp hq with rfl | hq2
      · exact hcm (k0, v0) (List.mem_cons_self _ _)
      · exact hcm q (List.mem_cons_of_mem _ hq2)
    · rw [show kUpdIns ((k0, v0) :: r) a t = (k0, v0) :: kUpdIns r a t from by
        simp [kUpdIns, h0]] at hq
      rcases List.mem_cons.mp hq with rfl | hq2
      · exact hcm (k0, v0) (List.mem_cons_self _ _)
      · exact ih (fun p hp => hcm p (List.mem_cons_of_mem _ hp)) q hq2

theorem kUpdIns_wf {m : List (JVal × Obj)} {a : JVal} {t : Obj}
    (hw : wfKeys m) (ha : hashableJ a = true) : wfKeys (kUpdIns m a t) := by
  induction m with
  | nil =>
    exact ⟨fun p hp => by rcases List.mem_singleton.mp hp with rfl; exact ha,
      List.pairwise_singleton _ _⟩
  | cons p r ih =>
    obtain ⟨k0, v0⟩ := p
    obtain ⟨hhash, hpw⟩ := hw
    rw [List.pairwise_cons] at hpw
    by_cases h0 : pyEq k0 a = true
    · rw [show kUpdIns ((k0, v0) :: r) a t = (k0, t) :: r from by
        simp [kUpdIns, h0]]
      refine ⟨fun q hq => ?_, List.pairwise_cons.mpr ⟨fun q hq => hpw.1 q hq, hpw.2⟩⟩
      rcases List.mem_cons.mp hq with rfl | hq2
      · exact hhash (k0, v0) (List.mem_cons_self _ _)
      · exact hhash q (List.mem_cons_of_mem _ hq2)
    · rw [show kUpdIns ((k0, v0) :: r) a t = (k0, v0) :: kUpdIns r a t from by
        simp [kUpdIns, h0]]
      have hwr : wfKeys r := ⟨fun q hq => hhash q (List.mem_cons_of_mem _ hq), hpw.2⟩
      obtain ⟨ih1, ih2⟩ := ih hwr
      refine ⟨fun q hq => ?_, List.pairwise_cons.mpr ⟨?_, ih2⟩⟩
      · rcases List.mem_cons.mp hq with rfl | hq2
        · exact hhash (k0, v0) (List.mem_cons_self _ _)
        · exact ih1 q hq2
      · exact pyEq_all_kUpdIns (by rw [Bool.not_eq_true] at h0; exact h0) hpw.1

theorem getLast?_cons_of_ne_nil {α : Type} {l : List α} (x : α) (h : l ≠ []) :
    (x :: l).getLast? = l.getLast? := by
  cases l with
  | nil => exact absurd rfl h
  | cons y ys => exact List.getLast?_cons_cons

theorem getLast?_cons_ne_none {α : Type} :
    ∀ (y : α) (ys : List α), (y :: ys).getLast? ≠ none := by
  intro y ys
  induction ys generalizing y with
  | nil => simp
  | cons z zs ih => rw [List.getLast?_cons_cons]; exact ih z

theorem buildFold_charact :
    ∀ (ts : List Obj) (acc d : List (JVal × Obj)),
      ts.foldl buildIdStep (some acc) = some d → wfKeys acc →
      (wfKeys d ∧ ∀ k, kGet d k =
        (match lastIdMatch ts k with
         | some u => some u
         | none => kGet acc k)) := by
  intro ts
  induction ts with
  | nil =>
    intro acc d h hw
    rw [List.foldl_nil] at h
    obtain rfl := Option.some.inj h
    exact ⟨hw, fun k => by simp [lastIdMatch]⟩
  | cons t ts ih =>
    intro acc d h hw
    rw [List.foldl_cons] at h
    cases hid : getV t ("id".data) with
    | none =>
      rw [show buildIdStep (some acc) t = some acc from by
        simp [buildIdStep, hid]] at h
      obtain ⟨hwd, hkk⟩ := ih acc d h hw
      refine ⟨hwd, fun k => ?_⟩
      rw [hkk k, show lastIdMatch (t :: ts) k = lastIdMatch ts k from by
        unfold lastIdMatch
        rw [List.filter_cons_of_neg (by simp [hid])]]
    | some idv =>
      by_cases hh : hashableJ idv = true
      · rw [show buildIdStep (some acc) t = some (kUpdIns acc idv t) from by
          simp [buildIdStep, hid, hh]] at h
        obtain ⟨hwd, hkk⟩ := ih _ d h (kUpdIns_wf hw hh)
        refine ⟨hwd, fun k => ?_⟩
        rw [hkk k]
        cases hLM : lastIdMatch ts k with
        | some u =>
          have hcons : lastIdMatch (t :: ts) k = some u := by
            have hne : ts.filter (fun t =>
                match getV t ("id".data) with
                | some v => pyEq v k
                | none => false) ≠ [] := by
              intro he
              unfold lastIdMatch at hLM
              rw [he] at hLM
              cases hLM
            unfold lastIdMatch at hLM ⊢
            rw [List.filter_cons]
            by_cases hp : (match getV t ("id".data) with
                | some v => pyEq v k
                | none => false) = true
            · rw [if_pos hp, getLast?_cons_of_ne_nil t hne]
              exact hLM
            · rw [if_neg hp]
              exact hLM
          rw [hcons]
        | none =>
          have hfil : ts.filter (fun t =>
              match getV t ("id".data) with
              | some v => pyEq v k
              | none => false) = [] := by
            unfold lastIdMatch at hLM
            cases hx : ts.filter (fun t =>
                match getV t ("id".data) with
                | some v => pyEq v k
                | none => false) with
            | nil => rfl
            | cons y ys =>
              rw [hx] at hLM
              exact absurd hLM (getLast?_cons_ne_none y ys)
          have hcons : lastIdMatch (t :: ts) k
              = (if pyEq idv k then some t else none) := by
            unfold lastIdMatch
            rw [List.filter_cons, hfil]
            by_cases hp : pyEq idv k = true
            · rw [if_pos (by simp [hid, hp]), if_pos hp]
              rfl
            · rw [if_neg (by simp [hid, hp]), if_neg hp]
              rfl
          rw [hcons, kGet_kUpdIns acc idv t k hw.1 hh]
          by_cases hp : pyEq idv k = true
          · rw [if_pos hp, if_pos hp]
          · rw [if_neg hp, if_neg hp]
      · rw [show buildIdStep (some acc) t = none from by
          simp [buildIdStep, hid, hh]] at h
        have : ∀ (l : List Obj), l.foldl buildIdStep none = none := by
          intro l
          induction l with
          | nil => rfl
          | cons x xs ihx => rw [List.foldl_cons]; exact ihx
        rw [this ts] at h
        cases h

theorem kGet_of_mem {d : List (JVal × Obj)} {k : JVal} {t : Obj}
    (hw : wfKeys d) (hm : (k, t) ∈ d) : kGet d k = some t := by
  induction d with
  | nil => simp at hm
  | cons p r ih =>
    obtain ⟨k0, v0⟩ := p
    obtain ⟨hhash, hpw⟩ := hw
    rw [List.pairwise_cons] at hpw
    rcases List.mem_cons.mp hm with heq | hmem
    · cases heq
      have hk := hhash (k, t) (List.mem_cons_self _ _)
      simp [kGet, pyEq_refl_hashable hk]
    · have hne : pyEq k0 k = false := hpw.1 (k, t) hmem
      rw [show kGet ((k0, v0) :: r) k = kGet r k from by
        simp [kGet, hne]]
      exact ih ⟨fun q hq => hhash q (List.mem_cons_of_mem _ hq), hpw.2⟩ hmem

theorem buildIdDict_charact {ts : List Obj} {d : List (JVal × Obj)}
    (h : buildIdDict ts = some d) :
    wfKeys d ∧ ∀ k, kGet d k = lastIdMatch ts k := by
  obtain ⟨hw, hk⟩ := buildFold_charact ts [] d h ⟨by simp, List.Pairwise.nil⟩
  refine ⟨hw, fun k => ?_⟩
  rw [hk k]
  cases lastIdMatch ts k with
  | none => rfl
  | some u => rfl

theorem compareTerms_last_only {A B : List Obj} {r : CollChanges}
    (h : compareTerms A B = some r) :
    (∀ t ∈ r.added, ∃ k, lastIdMatch B k = some t)
    ∧ (∀ t ∈ r.deleted, ∃ k, lastIdMatch A k = some t)
    ∧ (∀ u ∈ r.updated, lastIdMatch A u.uid = some u.oldR
        ∧ lastIdMatch B u.uid = some u.newR) := by
  obtain ⟨da, db, hA, hB, hr⟩ := compareTerms_eq_some h
  subst hr
  obtain ⟨hwA, hkA⟩ := buildIdDict_charact hA
  obtain ⟨hwB, hkB⟩ := buildIdDict_charact hB
  refine ⟨?_, ?_, ?_⟩
  · intro t ht
    have ht2 : t ∈ (db.filter (fun p => !kHasKey da p.1)).map Prod.snd := ht
    obtain ⟨p, hpf, hps⟩ := List.mem_map.mp ht2
    refine ⟨p.1, ?_⟩
    rw [← hkB p.1, ← hps]
    exact kGet_of_mem hwB (by rw [Prod.mk.eta]; exact List.mem_of_mem_filter hpf)
  · intro t ht
    have ht2 : t ∈ (da.filter (fun p => !kHasKey db p.1)).map Prod.snd := ht
    obtain ⟨p, hpf, hps⟩ := List.mem_map.mp ht2
    refine ⟨p.1, ?_⟩
    rw [← hkA p.1, ← hps]
    exact kGet_of_mem hwA (by rw [Prod.mk.eta]; exact List.mem_of_mem_filter hpf)
  · intro u hu
    have hu2 : u ∈ (da.filter (fun p => kHasKey db p.1)).filterMap (fun p =>
        match kGet db p.1 with
        | none => none
        | some nt =>
          if pyEq (JVal.jobj p.2) (JVal.jobj nt) then none
          else
            if (compareTermFields p.2 nt).isEmpty then none
            else some (⟨p.1, p.2, nt, compareTermFields p.2 nt⟩ : UpdEntry)) := hu
    obtain ⟨p, hpf, hfu⟩ := List.mem_filterMap.mp hu2
    cases hnt : kGet db p.1 with
    | none => rw [hnt] at hfu; cases hfu
    | some nt =>
      rw [hnt] at hfu
      have hfu2 : (if pyEq (JVal.jobj p.2) (JVal.jobj nt) then none
          else if (compareTermFields p.2 nt).isEmpty then none
          else some (⟨p.1, p.2, nt, compareTermFields p.2 nt⟩ : UpdEntry))
          = some u := hfu
      by_cases hpe : pyEq (JVal.jobj p.2) (JVal.jobj nt) = true
      · rw [if_pos hpe] at hfu2; cases hfu2
      · rw [if_neg hpe] at hfu2
        by_cases hfc : (compareTermFields p.2 nt).isEmpty = true
        · rw [if_pos hfc] at hfu2; cases hfu2
        · rw [if_neg hfc] at hfu2
          obtain rfl := (Option.some.inj hfu2)
          constructor
          · rw [← hkA p.1]
            exact kGet_of_mem hwA
              (by rw [Prod.mk.eta]; exact List.mem_of_mem_filter hpf)
          · rw [← hkB p.1]
            exact hnt

/-- C8: in `_compare_terms` and `_compare_typedefs`, when several records
share an `id`, only the record occurring last in list order participates:
the id-to-record index maps every key to the last record whose `id`
compares equal to it (later entries overwrite earlier ones), and every
record reported as added or deleted, and the old/new records of every
updated entry, are such last occurrences — shadowed earlier records are
never reported. -/
theorem diff_duplicate_id_last_wins :
    (∀ (ts : List Obj) (d : List (JVal × Obj)), buildIdDict ts = some d →
      ∀ k, kGet d k = lastIdMatch ts k)
    ∧ (∀ (A B : List Obj) (r : CollChanges), compareTerms A B = some r →
        (∀ t ∈ r.added, ∃ k, lastIdMatch B k = some t)
        ∧ (∀ t ∈ r.deleted, ∃ k, lastIdMatch A k = some t)
        ∧ (∀ u ∈ r.updated, lastIdMatch A u.uid = some u.oldR
            ∧ lastIdMatch B u.uid = some u.newR))
    ∧ (∀ (A B : List Obj) (r : CollChanges), compareTypedefs A B = some r →
        (∀ t ∈ r.added, ∃ k, lastIdMatch B k = some t)
        ∧ (∀ t ∈ r.deleted, ∃ k, lastIdMatch A k = some t)
        ∧ (∀ u ∈ r.updated, lastIdMatch A u.uid = some u.oldR
            ∧ lastIdMatch B u.uid = some u.newR)) :=
  ⟨fun _ _ h k => (buildIdDict_charact h).2 k,
   fun _ _ _ h => compareTerms_last_only h,
   fun _ _ _ h => compareTerms_last_only
     (by rw [compareTypedefs_eq_compareTerms] at h; exact h)⟩

/-- Witness for C8: two records share the id `A`; the index maps `A` to
the second (last) record. -/
theorem diff_duplicate_id_last_wins_witness :
    kGet [(JVal.jstr ("A".data),
        [("id".data, JVal.jstr ("A".data)), ("v".data, JVal.jnum 2)])]
      (JVal.jstr ("A".data))
    = lastIdMatch
        [[("id".data, JVal.jstr ("A".data)), ("v".data, JVal.jnum 1)],
         [("id".data, JVal.jstr ("A".data)), ("v".data, JVal.jnum 2)]]
        (JVal.jstr ("A".data)) :=
  diff_duplicate_id_last_wins.1
    [[("id".data, JVal.jstr ("A".data)), ("v".data, JVal.jnum 1)],
     [("id".data, JVal.jstr ("A".data)), ("v".data, JVal.jnum 2)]]
    [(JVal.jstr ("A".data),
        [("id".data, JVal.jstr ("A".data)), ("v".data, JVal.jnum 2)])]
    rfl (JVal.jstr ("A".data))

/-! ## C1: round-trip.  Occurrence and line algebra. -/

/-- The pattern occurs as a contiguous substring. -/
def Occurs (p s : Str) : Prop := ∃ a b, a ++ p ++ b = s

/-- No section marker occurs in the string. -/
def NoMarker (s : Str) : Prop := ¬ Occurs mTermS s ∧ ¬ Occurs mTypedefS s

theorem begins_iff {p s : Str} : begins p s = true ↔ ∃ t, p ++ t = s := by
  induction p generalizing s with
  | nil => simp [begins]
  | cons c cs ih =>
    cases s with
    | nil => simp [begins]
    | cons d ds =>
      simp only [begins, Bool.and_eq_true, beq_iff_eq, ih, List.cons_append,
        List.cons.injEq]
      constructor
      · rintro ⟨rfl, t, rfl⟩; exact ⟨t, rfl, rfl⟩
      · rintro ⟨t, rfl, rfl⟩; exact ⟨rfl, t, rfl⟩

theorem occurs_length {p s : Str} (h : Occurs p s) : p.length ≤ s.length := by
  obtain ⟨a, b, rfl⟩ := h
  simp only [List.length_append]
  omega

theorem occurs_mem {p s : Str} (h : Occurs p s) {c : Char} (hc : c ∈ p) : c ∈ s := by
  obtain ⟨a, b, rfl⟩ := h
  exact List.mem_append.mpr (Or.inl (List.mem_append.mpr (Or.inr hc)))

theorem occurs_trans {p x y : Str} (h1 : Occurs p x) (h2 : Occurs x y) :
    Occurs p y := by
  obtain ⟨a, b, rfl⟩ := h1
  obtain ⟨a2, b2, rfl⟩ := h2
  exact ⟨a2 ++ a, b ++ b2, by simp [List.append_assoc]⟩

theorem noMarker_of_occurs {x y : Str} (h : Occurs x y) (hy : NoMarker y) :
    NoMarker x :=
  ⟨fun hc => hy.1 (occurs_trans hc h), fun hc => hy.2 (occurs_trans hc h)⟩

theorem occurs_cons_elim {p : Str} {c : Char} {t : Str}
    (h : Occurs p (c :: t)) : begins p (c :: t) = true ∨ Occurs p t := by
  obtain ⟨a, b, hab⟩ := h
  cases a with
  | nil =>
    left
    rw [List.nil_append] at hab
    exact begins_iff.mpr ⟨b, hab⟩
  | cons a0 a1 =>
    right
    rw [List.cons_append] at hab
    exact ⟨a1, b, (List.cons.inj hab).2⟩

/-- A pattern avoiding `c` that starts at the front of `x ++ c :: y` is a
front part of `x`. -/
theorem begins_append_sep {p x y : Str} {c : Char} (hc : c ∉ p)
    (h : begins p (x ++ c :: y) = true) : ∃ t, p ++ t = x := by
  induction p generalizing x with
  | nil => exact ⟨x, rfl⟩
  | cons p0 ps ih =>
    cases x with
    | nil =>
      rw [List.nil_append] at h
      obtain ⟨t, ht⟩ := begins_iff.mp h
      rw [List.cons_append] at ht
      obtain rfl := (List.cons.inj ht).1
      exact absurd (List.mem_cons_self _ _) hc
    | cons x0 xs =>
      obtain ⟨t, ht⟩ := begins_iff.mp h
      rw [List.cons_append] at ht
      obtain ⟨rfl, hrest⟩ := List.cons.inj ht
      obtain ⟨t2, ht2⟩ := ih (fun hm => hc (List.mem_cons_of_mem _ hm))
        (begins_iff.mpr ⟨t, hrest⟩)
      exact ⟨t2, by rw [List.cons_append, ht2]⟩

/-- An occurrence in `x ++ c :: y` with `c` not in the pattern lies
entirely in `x` or entirely in `y`. -/
theorem occurs_append_sep {p x y : Str} {c : Char} (hc : c ∉ p)
    (h : Occurs p (x ++ c :: y)) : Occurs p x ∨ Occurs p y := by
  induction x with
  | nil =>
    rw [List.nil_append] at h
    rcases occurs_cons_elim h with hb | ho
    · obtain ⟨t, ht⟩ := begins_iff.mp hb
      cases p with
      | nil => exact Or.inl ⟨[], [], rfl⟩
      | cons p0 ps =>
        rw [List.cons_append] at ht
        obtain rfl := (List.cons.inj ht).1
        exact absurd (List.mem_cons_self _ _) hc
    · exact Or.inr ho
  | cons x0 xs ih =>
    rw [List.cons_append] at h
    rcases occurs_cons_elim h with hb | ho
    · rw [← List.cons_append] at hb
      obtain ⟨t, ht⟩ := begins_append_sep hc hb
      exact Or.inl ⟨[], t, by rw [List.nil_append, ht]⟩
    · rcases ih ho with h1 | h1
      · obtain ⟨a, b, hab⟩ := h1
        exact Or.inl ⟨x0 :: a, b, by
          simp only [List.cons_append, List.append_assoc] at hab ⊢
          rw [hab]⟩
      · exact Or.inr h1

theorem occurs_refl (s : Str) : Occurs s s := ⟨[], [], by simp⟩

theorem occurs_lstrip (s : Str) : Occurs (lstrip s) s :=
  ⟨s.takeWhile isWs, [], by
    rw [List.append_nil]
    exact List.takeWhile_append_dropWhile _ _⟩

theorem occurs_rstrip (s : Str) : Occurs (rstrip s) s :=
  ⟨[], (s.reverse.takeWhile isWs).reverse, by
    rw [List.nil_append]
    exact rstrip_append_eq s⟩

theorem occurs_strip (s : Str) : Occurs (strip s) s :=
  occurs_trans (occurs_lstrip (rstrip s)) (occurs_rstrip s)

theorem occurs_takeWhile (p : Char → Bool) (s : Str) :
    Occurs (s.takeWhile p) s :=
  ⟨[], s.dropWhile p, by
    rw [List.nil_append]
    exact List.takeWhile_append_dropWhile _ _⟩

theorem occurs_dropWhile (p : Char → Bool) (s : Str) :
    Occurs (s.dropWhile p) s :=
  ⟨s.takeWhile p, [], by
    rw [List.append_nil]
    exact List.takeWhile_append_dropWhile _ _⟩

theorem occurs_drop (n : Nat) (s : Str) : Occurs (s.drop n) s :=
  ⟨s.take n, [], by
    rw [List.append_nil]
    exact List.take_append_drop _ _⟩

theorem occurs_rstripNl (s : Str) : Occurs (rstripNl s) s :=
  ⟨[], (s.reverse.takeWhile (fun c => c = '\n')).reverse, by
    rw [List.nil_append]
    have := List.takeWhile_append_dropWhile (p := fun c => c = '\n') (l := s.reverse)
    have h2 := congrArg List.reverse this
    rw [List.reverse_append, List.reverse_reverse] at h2
    exact h2⟩

/-! Line structure of `splitNl` and `joinNl`. -/

theorem splitNl_nlfree {s : Str} (h : '\n' ∉ s) : splitNl s = [s] := by
  induction s with
  | nil => rfl
  | cons c r ih =>
    have hc : c ≠ '\n' := fun he => h (he ▸ List.mem_cons_self _ _)
    have hr : '\n' ∉ r := fun hm => h (List.mem_cons_of_mem _ hm)
    simp only [splitNl, hc, if_false, ih hr]

theorem splitNl_append_nl {l : Str} (t : Str) (h : '\n' ∉ l) :
    splitNl (l ++ '\n' :: t) = l :: splitNl t := by
  induction l with
  | nil => simp [splitNl]
  | cons c r ih =>
    have hc : c ≠ '\n' := fun he => h (he ▸ List.mem_cons_self _ _)
    have hr : '\n' ∉ r := fun hm => h (List.mem_cons_of_mem _ hm)
    rw [List.cons_append]
    simp only [splitNl, hc, if_false, ih hr]

theorem splitNl_joinNl : ∀ (ls : List Str), ls ≠ [] →
    (∀ l ∈ ls, '\n' ∉ l) → splitNl (joinNl ls) = ls := by
  intro ls
  induction ls with
  | nil => intro h; exact absurd rfl h
  | cons l rest ih =>
    intro _ hnl
    cases rest with
    | nil => exact splitNl_nlfree (hnl l (List.mem_cons_self _ _))
    | cons l2 r2 =>
      rw [show joinNl (l :: l2 :: r2) = l ++ '\n' :: joinNl (l2 :: r2) from rfl,
        splitNl_append_nl _ (hnl l (List.mem_cons_self _ _)),
        ih (by simp) (fun x hx => hnl x (List.mem_cons_of_mem _ hx))]

theorem joinNl_append : ∀ (xs ys : List Str), xs ≠ [] → ys ≠ [] →
    joinNl (xs ++ ys) = joinNl xs ++ '\n' :: joinNl ys := by
  intro xs
  induction xs with
  | nil => intro ys h; exact absurd rfl h
  | cons x r ih =>
    intro ys _ hys
    cases r with
    | nil =>
      cases ys with
      | nil => exact absurd rfl hys
      | cons y r2 => rfl
    | cons x2 r2 =>
      rw [show (x :: x2 :: r2) ++ ys = x :: ((x2 :: r2) ++ ys) from rfl]
      rw [show joinNl (x :: (x2 :: r2 ++ ys)) = x ++ '\n' :: joinNl (x2 :: r2 ++ ys) from by
        cases r2 <;> cases ys <;> rfl]
      rw [ih ys (by simp) hys,
        show joinNl (x :: x2 :: r2) = x ++ '\n' :: joinNl (x2 :: r2) from rfl,
        List.append_assoc, List.cons_append]

theorem mem_splitNl_no_nl : ∀ (s : Str), ∀ l ∈ splitNl s, '\n' ∉ l := by
  intro s
  induction s with
  | nil =>
    intro l hl
    rw [show splitNl [] = [[]] from rfl] at hl
    rcases List.mem_singleton.mp hl with rfl
    simp
  | cons c r ih =>
    intro l hl
    by_cases hc : c = '\n'
    · subst hc
      rw [show splitNl ('\n' :: r) = [] :: splitNl r from by simp [splitNl]] at hl
      rcases List.mem_cons.mp hl with rfl | hl2
      · simp
      · exact ih l hl2
    · rw [show splitNl (c :: r) = (match splitNl r with
          | [] => [[c]]
          | h :: t => (c :: h) :: t) from by simp [splitNl, hc]] at hl
      cases hsp : splitNl r with
      | nil =>
        rw [hsp] at hl
        rcases List.mem_singleton.mp hl with rfl
        intro hm
        rcases List.mem_cons.mp hm with he | he
        · exact hc he.symm
        · simp at he
      | cons h t =>
        rw [hsp] at hl
        rcases List.mem_cons.mp hl with rfl | hl2
        · intro hm
          rcases List.mem_cons.mp hm with he | he
          · exact hc he.symm
          · exact ih h (hsp ▸ List.mem_cons_self _ _) he
        · exact ih l (hsp ▸ List.mem_cons_of_mem _ hl2)

theorem splitNl_head_front : ∀ (s : Str) (h : Str) (t : List Str),
    splitNl s = h :: t → ∃ rest, h ++ rest = s := by
  intro s
  induction s with
  | nil =>
    intro h t he
    rw [show splitNl [] = [[]] from rfl] at he
    obtain ⟨rfl, -⟩ := List.cons.inj he
    exact ⟨[], rfl⟩
  | cons c r ih =>
    intro h t he
    by_cases hc : c = '\n'
    · subst hc
      rw [show splitNl ('\n' :: r) = [] :: splitNl r from by simp [splitNl]] at he
      obtain ⟨rfl, -⟩ := List.cons.inj he
      exact ⟨'\n' :: r, rfl⟩
    · rw [show splitNl (c :: r) = (match splitNl r with
          | [] => [[c]]
          | h :: t => (c :: h) :: t) from by simp [splitNl, hc]] at he
      cases hsp : splitNl r with
      | nil =>
        rw [hsp] at he
        obtain ⟨rfl, -⟩ := List.cons.inj he
        exact ⟨r, rfl⟩
      | cons h2 t2 =>
        rw [hsp] at he
        obtain ⟨rfl, -⟩ := List.cons.inj he
        obtain ⟨rest, hrest⟩ := ih h2 t2 hsp
        exact ⟨rest, by rw [List.cons_append, hrest]⟩

theorem mem_splitNl_occurs : ∀ (s : Str), ∀ l ∈ splitNl s, Occurs l s := by
  intro s
  induction s with
  | nil =>
    intro l hl
    rw [show splitNl [] = [[]] from rfl] at hl
    rcases List.mem_singleton.mp hl with rfl
    exact occurs_refl []
  | cons c r ih =>
    intro l hl
    by_cases hc : c = '\n'
    · subst hc
      rw [show splitNl ('\n' :: r) = [] :: splitNl r from by simp [splitNl]] at hl
      rcases List.mem_cons.mp hl with rfl | hl2
      · exact ⟨[], '\n' :: r, rfl⟩
      · obtain ⟨a, b, hab⟩ := ih l hl2
        exact ⟨'\n' :: a, b, by
          simp only [List.cons_append, List.append_assoc] at hab ⊢
          rw [hab]⟩
    · rw [show splitNl (c :: r) = (match splitNl r with
          | [] => [[c]]
          | h :: t => (c :: h) :: t) from by simp [splitNl, hc]] at hl
      cases hsp : splitNl r with
      | nil =>
        rw [hsp] at hl
        rcases List.mem_singleton.mp hl with rfl
        exact ⟨[], r, rfl⟩
      | cons h t =>
        rw [hsp] at hl
        rcases List.mem_cons.mp hl with rfl | hl2
        · obtain ⟨rest, hrest⟩ := splitNl_head_front r h t hsp
          exact ⟨[], rest, by rw [List.nil_append, List.cons_append, hrest]⟩
        · obtain ⟨a, b, hab⟩ := ih l (hsp ▸ List.mem_cons_of_mem _ hl2)
          exact ⟨c :: a, b, by
            simp only [List.cons_append, List.append_assoc] at hab ⊢
            rw [hab]⟩

/-! Marker character facts and marker-freedom of built lines. -/

theorem noMarker_nil : NoMarker [] :=
  ⟨fun h => by have := occurs_length h; simp [mTermS] at this,
   fun h => by have := occurs_length h; simp [mTypedefS] at this⟩

theorem noMarker_sep {x y : Str} {c : Char}
    (hc1 : c ∉ mTermS) (hc2 : c ∉ mTypedefS)
    (hx : NoMarker x) (hy : NoMarker y) : NoMarker (x ++ c :: y) := by
  constructor
  · intro h
    rcases occurs_append_sep hc1 h with h1 | h1
    · exact hx.1 h1
    · exact hy.1 h1
  · intro h
    rcases occurs_append_sep hc2 h with h1 | h1
    · exact hx.2 h1
    · exact hy.2 h1

theorem noMarker_line {k v : Str} (hk : NoMarker k) (hv : NoMarker v) :
    NoMarker (k ++ ':' :: ' ' :: v) := by
  have h2 : NoMarker (' ' :: v) := by
    have := noMarker_sep (x := []) (y := v) (c := ' ')
      (by decide) (by decide) noMarker_nil hv
    simpa using this
  exact noMarker_sep (by decide) (by decide) hk h2

theorem noMarker_joinNl : ∀ (ls : List Str), (∀ l ∈ ls, NoMarker l) →
    NoMarker (joinNl ls) := by
  intro ls
  induction ls with
  | nil => intro _; exact noMarker_nil
  | cons l rest ih =>
    intro h
    cases rest with
    | nil => exact h l (List.mem_cons_self _ _)
    | cons l2 r2 =>
      rw [show joinNl (l :: l2 :: r2) = l ++ '\n' :: joinNl (l2 :: r2) from rfl]
      exact noMarker_sep (by decide) (by decide) (h l (List.mem_cons_self _ _))
        (ih (fun x hx => h x (List.mem_cons_of_mem _ hx)))

theorem noMarker_append_nl {x : Str} (hx : NoMarker x) :
    NoMarker (x ++ ['\n']) :=
  noMarker_sep (by decide) (by decide) hx noMarker_nil

theorem noMarker_cons_nl {x : Str} (hx : NoMarker x) :
    NoMarker ('\n' :: x) := by
  have := noMarker_sep (x := []) (y := x) (c := '\n')
    (by decide) (by decide) noMarker_nil hx
  simpa using this

/-! Marker-scanner structure. -/

theorem begins_of_append_le {p x y : Str} (h : begins p (x ++ y) = true)
    (hl : p.length ≤ x.length) : begins p x = true := by
  induction p generalizing x with
  | nil => rfl
  | cons p0 ps ih =>
    cases x with
    | nil => simp at hl
    | cons x0 xs =>
      rw [List.cons_append] at h
      simp only [begins, Bool.and_eq_true] at h ⊢
      simp only [List.length_cons] at hl
      exact ⟨h.1, ih h.2 (by omega)⟩

theorem begins_swap_of_le {p x y : Str} (h : begins p (x ++ y) = true)
    (hl : x.length ≤ p.length) : begins x p = true := by
  induction x generalizing p with
  | nil => rfl
  | cons x0 xs ih =>
    cases p with
    | nil => simp at hl
    | cons p0 ps =>
      rw [List.cons_append] at h
      simp only [begins, Bool.and_eq_true, beq_iff_eq] at h ⊢
      simp only [List.length_cons] at hl
      exact ⟨h.1.symm, ih h.2 (by omega)⟩

theorem begins_extend {p x t s : Str} (h : begins p x = true)
    (hx : x ++ t = s) : begins p s = true := by
  obtain ⟨u, hu⟩ := begins_iff.mp h
  exact begins_iff.mpr ⟨u ++ t, by rw [← List.append_assoc, hu, hx]⟩

theorem begins_mem {x p : Str} (h : begins x p = true) {a : Char}
    (ha : a ∈ x) : a ∈ p := by
  obtain ⟨t, ht⟩ := begins_iff.mp h
  rw [← ht]
  exact List.mem_append.mpr (Or.inl ha)

/-- The first piece returned by the scanner is a front of the input. -/
theorem splitMarkersGo_first_front :
    ∀ (f : Nat) (s : Str), ∃ tail, (splitMarkersGo f s).1 ++ tail = s := by
  intro f
  induction f with
  | zero =>
    intro s
    cases s with
    | nil => exact ⟨[], rfl⟩
    | cons c r => exact ⟨c :: r, rfl⟩
  | succ f ih =>
    intro s
    cases s with
    | nil => exact ⟨[], rfl⟩
    | cons c rest =>
      show ∃ tail, (splitMarkersGo (f + 1) (c :: rest)).1 ++ tail = c :: rest
      simp only [splitMarkersGo]
      by_cases h1 : begins mTermS (c :: rest) = true
      · rw [if_pos h1]; exact ⟨c :: rest, rfl⟩
      · rw [if_neg h1]
        by_cases h2 : begins mTypedefS (c :: rest) = true
        · rw [if_pos h2]; exact ⟨c :: rest, rfl⟩
        · rw [if_neg h2]
          obtain ⟨tail, ht⟩ := ih rest
          exact ⟨tail, by rw [List.cons_append, ht]⟩

/-- Every piece the scanner returns is marker-free. -/
theorem splitMarkersGo_noMarker :
    ∀ (f : Nat) (s : Str),
      NoMarker (splitMarkersGo f s).1
      ∧ ∀ p ∈ (splitMarkersGo f s).2, NoMarker p.2 := by
  intro f
  induction f with
  | zero =>
    intro s
    cases s with
    | nil => exact ⟨noMarker_nil, fun p hp => by simp [splitMarkersGo] at hp⟩
    | cons c r => exact ⟨noMarker_nil, fun p hp => by simp [splitMarkersGo] at hp⟩
  | succ f ih =>
    intro s
    cases s with
    | nil => exact ⟨noMarker_nil, by simp [splitMarkersGo]⟩
    | cons c rest =>
      show NoMarker (splitMarkersGo (f + 1) (c :: rest)).1 ∧ _
      simp only [splitMarkersGo]
      by_cases h1 : begins mTermS (c :: rest) = true
      · rw [if_pos h1]
        refine ⟨noMarker_nil, fun p hp => ?_⟩
        rcases List.mem_cons.mp hp with rfl | hp2
        · exact (ih ((c :: rest).drop 6)).1
        · exact (ih ((c :: rest).drop 6)).2 p hp2
      · rw [if_neg h1]
        by_cases h2 : begins mTypedefS (c :: rest) = true
        · rw [if_pos h2]
          refine ⟨noMarker_nil, fun p hp => ?_⟩
          rcases List.mem_cons.mp hp with rfl | hp2
          · exact (ih ((c :: rest).drop 9)).1
          · exact (ih ((c :: rest).drop 9)).2 p hp2
        · rw [if_neg h2]
          refine ⟨⟨?_, ?_⟩, (ih rest).2⟩
          · intro hocc
            rcases occurs_cons_elim hocc with hb | ho
            · obtain ⟨tail, ht⟩ := splitMarkersGo_first_front f rest
              exact h1 (begins_extend hb (by rw [List.cons_append, ht]))
            · exact ((ih rest).1).1 ho
          · intro hocc
            rcases occurs_cons_elim hocc with hb | ho
            · obtain ⟨tail, ht⟩ := splitMarkersGo_first_front f rest
              exact h2 (begins_extend hb (by rw [List.cons_append, ht]))
            · exact ((ih rest).1).2 ho

theorem splitMarkers_noMarker (s : Str) :
    NoMarker (splitMarkers s).1 ∧ ∀ p ∈ (splitMarkers s).2, NoMarker p.2 :=
  splitMarkersGo_noMarker s.length s

/-- The string ends with a newline. -/
def EndsNl (s : Str) : Prop := ∃ x, x ++ ['\n'] = s

theorem endsNl_mem {s : Str} (h : EndsNl s) : '\n' ∈ s := by
  obtain ⟨x, rfl⟩ := h
  simp

/-- Scanning a marker-free, newline-terminated front glues it onto the
first piece of the remainder. -/
theorem splitMarkers_prefix_glue :
    ∀ (h rest : Str), NoMarker h → (h = [] ∨ EndsNl h) →
      splitMarkers (h ++ rest)
        = (h ++ (splitMarkers rest).1, (splitMarkers rest).2) := by
  intro h
  induction h with
  | nil => intro rest _ _; simp
  | cons c h2 ih =>
    intro rest hnm hend
    have hend2 : EndsNl (c :: h2) := by
      rcases hend with h1 | h1
      · cases h1
      · exact h1
    have hb1 : begins mTermS ((c :: h2) ++ rest) = false := by
      cases hx : begins mTermS ((c :: h2) ++ rest) with
      | false => rfl
      | true =>
        exfalso
        by_cases hl : mTermS.length ≤ (c :: h2).length
        · obtain ⟨t, ht⟩ := begins_iff.mp (begins_of_append_le hx hl)
          exact hnm.1 ⟨[], t, by rw [List.nil_append]; exact ht⟩
        · have hsw : begins (c :: h2) mTermS = true :=
            begins_swap_of_le hx (by omega)
          have : '\n' ∈ mTermS := begins_mem hsw (endsNl_mem hend2)
          simp [mTermS] at this
    have hb2 : begins mTypedefS ((c :: h2) ++ rest) = false := by
      cases hx : begins mTypedefS ((c :: h2) ++ rest) with
      | false => rfl
      | true =>
        exfalso
        by_cases hl : mTypedefS.length ≤ (c :: h2).length
        · obtain ⟨t, ht⟩ := begins_iff.mp (begins_of_append_le hx hl)
          exact hnm.2 ⟨[], t, by rw [List.nil_append]; exact ht⟩
        · have hsw : begins (c :: h2) mTypedefS = true :=
            begins_swap_of_le hx (by omega)
          have : '\n' ∈ mTypedefS := begins_mem hsw (endsNl_mem hend2)
          simp [mTypedefS] at this
    rw [List.cons_append, splitMarkers_cons_char (by rw [← List.cons_append]; exact hb1)
      (by rw [← List.cons_append]; exact hb2)]
    have hh2 : h2 = [] ∨ EndsNl h2 := by
      obtain ⟨x, hx⟩ := hend2
      cases x with
      | nil =>
        left
        rw [List.nil_append] at hx
        exact (List.cons.inj hx).2.symm ▸ rfl
      | cons x0 x1 =>
        right
        rw [List.cons_append] at hx
        exact ⟨x1, (List.cons.inj hx).2⟩
    rw [ih rest (noMarker_of_occurs ⟨[c], [], by simp⟩ hnm) hh2]
    rw [List.cons_append]

/-! ## Round-trip: structure of the scanner on serialized text -/

/-- The marker line written for a block of the given kind. -/
def markerOf (m : Bool) : Str := if m then mTermS else mTypedefS

/-- The serialized lines of one section block: the marker line, the field
lines, and a trailing blank line. -/
def blockLines (m : Bool) (ls : List Str) : List Str := markerOf m :: (ls ++ [[]])

/-- The serialized lines of a list of section blocks. -/
def serLines (bs : List (Bool × List Str)) : List Str :=
  (bs.map (fun b => blockLines b.1 b.2)).flatten

/-- The text the scanner recovers for one serialized block: a leading
newline, the block lines joined, and one more newline before the next
marker (absent for the last block). -/
def pieceBody (ls : List Str) (lastQ : Bool) : Str :=
  '\n' :: joinNl (ls ++ [[]]) ++ (if lastQ then [] else ['\n'])

/-- The scanner output on a list of serialized blocks. -/
def pieces : List (Bool × List Str) → List (Bool × Str)
  | [] => []
  | [b] => [(b.1, pieceBody b.2 true)]
  | b :: b2 :: rest => (b.1, pieceBody b.2 false) :: pieces (b2 :: rest)

theorem begins_self_append (p t : Str) : begins p (p ++ t) = true :=
  begins_iff.mpr ⟨t, rfl⟩

theorem splitMarkers_of_noMarker : ∀ (s : Str), NoMarker s →
    splitMarkers s = (s, []) := by
  intro s
  induction s with
  | nil => intro _; rfl
  | cons c r ih =>
    intro h
    have h1 : begins mTermS (c :: r) = false := by
      cases hx : begins mTermS (c :: r) with
      | false => rfl
      | true =>
        obtain ⟨t, ht⟩ := begins_iff.mp hx
        exact absurd ⟨[], t, by rw [List.nil_append]; exact ht⟩ h.1
    have h2 : begins mTypedefS (c :: r) = false := by
      cases hx : begins mTypedefS (c :: r) with
      | false => rfl
      | true =>
        obtain ⟨t, ht⟩ := begins_iff.mp hx
        exact absurd ⟨[], t, by rw [List.nil_append]; exact ht⟩ h.2
    rw [splitMarkers_cons_char h1 h2,
      ih (noMarker_of_occurs ⟨[c], [], by simp⟩ h)]

theorem joinNl_cons_of_ne_nil {ys : List Str} (x : Str) (h : ys ≠ []) :
    joinNl (x :: ys) = x ++ '\n' :: joinNl ys := by
  cases ys with
  | nil => exact absurd rfl h
  | cons y ys2 => rfl

theorem joinNl_snoc_nil {xs : List Str} (h : xs ≠ []) :
    joinNl (xs ++ [[]]) = joinNl xs ++ ['\n'] := by
  rw [joinNl_append xs [[]] h (by simp)]
  rfl

theorem serLines_cons (b : Bool × List Str) (bs : List (Bool × List Str)) :
    serLines (b :: bs) = blockLines b.1 b.2 ++ serLines bs := by
  simp [serLines]

theorem serLines_ne_nil {bs : List (Bool × List Str)} (h : bs ≠ []) :
    serLines bs ≠ [] := by
  cases bs with
  | nil => exact absurd rfl h
  | cons b rest => simp [serLines_cons, blockLines]

theorem serLines_snoc_blank : ∀ (bs : List (Bool × List Str)), bs ≠ [] →
    ∃ xs, serLines bs = xs ++ [[]] := by
  intro bs
  induction bs with
  | nil => intro h; exact absurd rfl h
  | cons b rest ih =>
    intro _
    cases rest with
    | nil =>
      refine ⟨markerOf b.1 :: b.2, ?_⟩
      simp [serLines, blockLines]
    | cons b2 rest2 =>
      obtain ⟨xs, hxs⟩ := ih (by simp)
      refine ⟨blockLines b.1 b.2 ++ xs, ?_⟩
      rw [serLines_cons, hxs, List.append_assoc]

theorem noMarker_markerLines {ls : List Str}
    (h : ∀ l ∈ ls, NoMarker l) : NoMarker (joinNl (ls ++ [[]])) := by
  refine noMarker_joinNl (ls ++ [[]]) ?_
  intro l hl
  rcases List.mem_append.mp hl with h1 | h1
  · exact h l h1
  · rcases List.mem_singleton.mp h1 with rfl
    exact noMarker_nil

theorem noMarker_pieceBody {ls : List Str} (lastQ : Bool)
    (h : ∀ l ∈ ls, NoMarker l) : NoMarker (pieceBody ls lastQ) := by
  cases lastQ with
  | true =>
    show NoMarker ('\n' :: (joinNl (ls ++ [[]]) ++ []))
    rw [List.append_nil]
    exact noMarker_cons_nl (noMarker_markerLines h)
  | false =>
    exact noMarker_cons_nl (noMarker_append_nl (noMarker_markerLines h))

theorem begins_term_typedef_append (z : Str) :
    begins mTermS (mTypedefS ++ z) = false := by
  cases hx : begins mTermS (mTypedefS ++ z) with
  | false => rfl
  | true =>
    have := begins_of_append_le hx (by decide)
    exact absurd this (by decide)

/-- Scanning the serialized block lines recovers exactly one piece per
block, with the expected flag and body text. -/
theorem splitMarkers_serLines : ∀ (bs : List (Bool × List Str)), bs ≠ [] →
    (∀ b ∈ bs, ∀ l ∈ b.2, '\n' ∉ l ∧ NoMarker l) →
    splitMarkers (joinNl (serLines bs)) = ([], pieces bs) := by
  intro bs
  induction bs with
  | nil => intro h; exact absurd rfl h
  | cons b rest ih =>
    intro _ hwf
    obtain ⟨m, ls⟩ := b
    have hbody : ∀ l ∈ ls, NoMarker l := fun l hl => (hwf (m, ls) (by simp) l hl).2
    cases rest with
    | nil =>
      have h1 : serLines [(m, ls)] = markerOf m :: (ls ++ [[]]) := by
        simp [serLines, blockLines]
      rw [h1, joinNl_cons_of_ne_nil _ (by simp)]
      have hnm : NoMarker ('\n' :: joinNl (ls ++ [[]])) :=
        noMarker_cons_nl (noMarker_markerLines hbody)
      cases m with
      | true =>
        rw [show markerOf true = mTermS from rfl,
          splitMarkers_term (begins_self_append _ _),
          show (mTermS ++ '\n' :: joinNl (ls ++ [[]])).drop 6
            = '\n' :: joinNl (ls ++ [[]]) from by
            rw [show (6 : Nat) = mTermS.length from rfl, List.drop_left],
          splitMarkers_of_noMarker _ hnm]
        show _ = ([], [(true, pieceBody ls true)])
        simp [pieceBody]
      | false =>
        rw [show markerOf false = mTypedefS from rfl,
          splitMarkers_typedef (begins_term_typedef_append _) (begins_self_append _ _),
          show (mTypedefS ++ '\n' :: joinNl (ls ++ [[]])).drop 9
            = '\n' :: joinNl (ls ++ [[]]) from by
            rw [show (9 : Nat) = mTypedefS.length from rfl, List.drop_left],
          splitMarkers_of_noMarker _ hnm]
        show _ = ([], [(false, pieceBody ls true)])
        simp [pieceBody]
    | cons b2 rest2 =>
      have hrest : splitMarkers (joinNl (serLines (b2 :: rest2))) = ([], pieces (b2 :: rest2)) :=
        ih (by simp) (fun bb hbb l hl => hwf bb (List.mem_cons_of_mem _ hbb) l hl)
      have htext : joinNl (serLines ((m, ls) :: b2 :: rest2))
          = markerOf m ++ (pieceBody ls false ++ joinNl (serLines (b2 :: rest2))) := by
        rw [serLines_cons,
          joinNl_append _ _ (by simp [blockLines]) (serLines_ne_nil (by simp)),
          show blockLines (m, ls).1 (m, ls).2 = markerOf m :: (ls ++ [[]]) from rfl,
          joinNl_cons_of_ne_nil _ (by simp)]
        simp [pieceBody, List.append_assoc]
      have hglue : splitMarkers (pieceBody ls false ++ joinNl (serLines (b2 :: rest2)))
          = (pieceBody ls false, pieces (b2 :: rest2)) := by
        rw [splitMarkers_prefix_glue _ _ (noMarker_pieceBody false hbody)
            (Or.inr ⟨'\n' :: joinNl (ls ++ [[]]), by simp [pieceBody]⟩),
          hrest]
        simp
      rw [htext]
      show _ = ([], (m, pieceBody ls false) :: pieces (b2 :: rest2))
      cases m with
      | true =>
        rw [show markerOf true = mTermS from rfl,
          splitMarkers_term (begins_self_append _ _),
          show (mTermS ++ (pieceBody ls false ++ joinNl (serLines (b2 :: rest2)))).drop 6
            = pieceBody ls false ++ joinNl (serLines (b2 :: rest2)) from by
            rw [show (6 : Nat) = mTermS.length from rfl, List.drop_left],
          hglue]
      | false =>
        rw [show markerOf false = mTypedefS from rfl,
          splitMarkers_typedef (begins_term_typedef_append _) (begins_self_append _ _),
          show (mTypedefS ++ (pieceBody ls false ++ joinNl (serLines (b2 :: rest2)))).drop 9
            = pieceBody ls false ++ joinNl (serLines (b2 :: rest2)) from by
            rw [show (9 : Nat) = mTypedefS.length from rfl, List.drop_left],
          hglue]

/-! ## Round-trip: parsing one serialized section piece -/

theorem parseSectionLineStep_blank (r : Rec) : parseSectionLineStep r [] = r := rfl

theorem isMarkerLine_eq_false_of_noMarker {l : Str} (h : NoMarker l) :
    isMarkerLine l = false := by
  have h1 : (strip l == mTermS) = false := by
    cases hx : strip l == mTermS with
    | false => rfl
    | true =>
      have : strip l = mTermS := by simpa using hx
      exact absurd (this ▸ occurs_strip l) h.1
  have h2 : (strip l == mTypedefS) = false := by
    cases hx : strip l == mTypedefS with
    | false => rfl
    | true =>
      have : strip l = mTypedefS := by simpa using hx
      exact absurd (this ▸ occurs_strip l) h.2
  simp [isMarkerLine, h1, h2]

theorem takeWhile_all {α : Type} {p : α → Bool} :
    ∀ (l : List α), (∀ x ∈ l, p x = true) → l.takeWhile p = l := by
  intro l
  induction l with
  | nil => intro _; rfl
  | cons a r ih =>
    intro h
    rw [List.takeWhile_cons_of_pos (h a (by simp)), ih (fun x hx => h x (by simp [hx]))]

theorem splitNl_cons_nl (x : Str) : splitNl ('\n' :: x) = [] :: splitNl x := by
  simp [splitNl]

theorem map_rstripNl_eq_self : ∀ (xs : List Str), (∀ l ∈ xs, '\n' ∉ l) →
    xs.map rstripNl = xs := by
  intro xs
  induction xs with
  | nil => intro _; rfl
  | cons a r ih =>
    intro h
    rw [List.map_cons, rstripNl_eq_self (h a (by simp)), ih (fun l hl => h l (by simp [hl]))]

theorem foldl_section_blanks : ∀ (pads : List Str) (r : Rec),
    (∀ p ∈ pads, p = []) → pads.foldl parseSectionLineStep r = r := by
  intro pads
  induction pads with
  | nil => intro r _; rfl
  | cons a t ih =>
    intro r h
    rw [List.foldl_cons, h a (by simp), parseSectionLineStep_blank]
    exact ih r (fun p hp => h p (by simp [hp]))

/-- Parsing the piece the scanner recovers for one serialized block is the
fold of the section line step over the block's field lines. -/
theorem parseSection_pieceBody (ls : List Str) (lastQ : Bool)
    (hnl : ∀ l ∈ ls, '\n' ∉ l) (hnm : ∀ l ∈ ls, NoMarker l) :
    parseSection (pieceBody ls lastQ) = ls.foldl parseSectionLineStep [] := by
  have hlines : ∀ (pads : List Str), (∀ p ∈ pads, p = []) →
      splitNl (joinNl (ls ++ pads)) = ls ++ pads →
      parseSection ('\n' :: joinNl (ls ++ pads)) = ls.foldl parseSectionLineStep [] := by
    intro pads hpads hsplit
    have hmem : ∀ l ∈ [] :: (ls ++ pads), '\n' ∉ l := by
      intro l hl
      rcases List.mem_cons.mp hl with rfl | hl2
      · simp
      · rcases List.mem_append.mp hl2 with h3 | h3
        · exact hnl l h3
        · rw [hpads l h3]; simp
    have hsec : sectionLinesOf ('\n' :: joinNl (ls ++ pads)) = [] :: (ls ++ pads) := by
      rw [sectionLinesOf, splitNl_cons_nl, hsplit, map_rstripNl_eq_self _ hmem]
      refine takeWhile_all _ ?_
      intro x hx
      rcases List.mem_cons.mp hx with rfl | h3
      · simp [isMarkerLine_eq_false_of_noMarker noMarker_nil]
      · rcases List.mem_append.mp h3 with h4 | h4
        · simp [isMarkerLine_eq_false_of_noMarker (hnm x h4)]
        · rw [hpads x h4]
          simp [isMarkerLine_eq_false_of_noMarker noMarker_nil]
    rw [parseSection, hsec, List.foldl_cons, parseSectionLineStep_blank,
      List.foldl_append, foldl_section_blanks pads _ hpads]
  cases lastQ with
  | true =>
    have hbody : pieceBody ls true = '\n' :: joinNl (ls ++ [[]]) := by
      simp [pieceBody]
    rw [hbody]
    refine hlines [[]] (by simp) ?_
    refine splitNl_joinNl _ (by simp) ?_
    intro l hl
    rcases List.mem_append.mp hl with h3 | h3
    · exact hnl l h3
    · rcases List.mem_singleton.mp h3 with rfl; simp
  | false =>
    have hbody : pieceBody ls false = '\n' :: joinNl (ls ++ [[], []]) := by
      show '\n' :: (joinNl (ls ++ [[]]) ++ ['\n']) = _
      rw [show ls ++ [[], []] = (ls ++ [[]]) ++ [[]] from by simp,
        joinNl_snoc_nil (by simp : ls ++ [[]] ≠ [])]
    rw [hbody]
    refine hlines [[], []] (by simp) ?_
    refine splitNl_joinNl _ (by simp) ?_
    intro l hl
    rcases List.mem_append.mp hl with h3 | h3
    · exact hnl l h3
    · rcases List.mem_cons.mp h3 with rfl | h4
      · simp
      · rcases List.mem_singleton.mp h4 with rfl; simp

/-! ## Round-trip: dictionary lemmas and parser-image invariants -/

/-- The key list of a Python dict modelled as an association list. -/
def keysOf {α : Type} (m : List (Str × α)) : List Str := m.map Prod.fst

theorem getV_eq_none_of_not_mem {α : Type} {m : List (Str × α)} {k : Str}
    (h : k ∉ keysOf m) : getV m k = none := by
  induction m with
  | nil => rfl
  | cons kv r ih =>
    simp only [keysOf, List.map_cons, List.mem_cons] at h
    push_neg at h
    show getV (kv :: r) k = none
    rw [show getV (kv :: r) k = if kv.1 = k then some kv.2 else getV r k from rfl,
      if_neg (fun he => h.1 he.symm), ih (fun hm => h.2 hm)]

theorem getV_append_right {α : Type} {a : List (Str × α)} (b : List (Str × α))
    {k : Str} (h : k ∉ keysOf a) : getV (a ++ b) k = getV b k := by
  induction a with
  | nil => rfl
  | cons kv r ih =>
    simp only [keysOf, List.map_cons, List.mem_cons] at h
    push_neg at h
    rw [List.cons_append,
      show getV (kv :: (r ++ b)) k = if kv.1 = k then some kv.2 else getV (r ++ b) k from rfl,
      if_neg (fun he => h.1 he.symm), ih (fun hm => h.2 hm)]

theorem getV_singleton {α : Type} (k : Str) (v : α) : getV [(k, v)] k = some v := by
  simp [getV]

theorem updIns_fresh {α : Type} {m : List (Str × α)} {k : Str} (v : α)
    (h : k ∉ keysOf m) : updIns m k v = m ++ [(k, v)] := by
  induction m with
  | nil => rfl
  | cons kv r ih =>
    simp only [keysOf, List.map_cons, List.mem_cons] at h
    push_neg at h
    show updIns (kv :: r) k v = _
    rw [show updIns (kv :: r) k v
        = if kv.1 = k then (kv.1, v) :: r else (kv.1, kv.2) :: updIns r k v from rfl,
      if_neg (fun he => h.1 he.symm), ih (fun hm => h.2 hm)]
    rfl

theorem updIns_found {α : Type} {a : List (Str × α)} {k : Str} (x v : α)
    (b : List (Str × α)) (h : k ∉ keysOf a) :
    updIns (a ++ (k, x) :: b) k v = a ++ (k, v) :: b := by
  induction a with
  | nil =>
    rw [List.nil_append, List.nil_append]
    show updIns ((k, x) :: b) k v = _
    rw [show updIns ((k, x) :: b) k v
        = if k = k then (k, v) :: b else (k, x) :: updIns b k v from rfl,
      if_pos rfl]
  | cons kv r ih =>
    simp only [keysOf, List.map_cons, List.mem_cons] at h
    push_neg at h
    rw [List.cons_append,
      show updIns (kv :: (r ++ (k, x) :: b)) k v
        = if kv.1 = k then (kv.1, v) :: (r ++ (k, x) :: b)
          else (kv.1, kv.2) :: updIns (r ++ (k, x) :: b) k v from rfl,
      if_neg (fun he => h.1 he.symm), ih (fun hm => h.2 hm)]
    rfl

theorem mem_updIns {α : Type} {m : List (Str × α)} {k : Str} {v : α}
    {kv : Str × α} (h : kv ∈ updIns m k v) : kv ∈ m ∨ kv = (k, v) := by
  induction m with
  | nil =>
    rcases List.mem_singleton.mp h with rfl
    exact Or.inr rfl
  | cons kv0 r ih =>
    by_cases he : kv0.1 = k
    · rw [show updIns (kv0 :: r) k v
          = if kv0.1 = k then (kv0.1, v) :: r else (kv0.1, kv0.2) :: updIns r k v from rfl,
        if_pos he] at h
      rcases List.mem_cons.mp h with rfl | h2
      · exact Or.inr (by rw [he])
      · exact Or.inl (List.mem_cons_of_mem _ h2)
    · rw [show updIns (kv0 :: r) k v
          = if kv0.1 = k then (kv0.1, v) :: r else (kv0.1, kv0.2) :: updIns r k v from rfl,
        if_neg he] at h
      rcases List.mem_cons.mp h with rfl | h2
      · exact Or.inl (by simp)
      · rcases ih h2 with h3 | h3
        · exact Or.inl (List.mem_cons_of_mem _ h3)
        · exact Or.inr h3

theorem keysOf_updIns_mem {α : Type} {m : List (Str × α)} {k : Str} (v : α)
    (h : k ∈ keysOf m) : keysOf (updIns m k v) = keysOf m := by
  induction m with
  | nil => simp [keysOf] at h
  | cons kv r ih =>
    by_cases he : kv.1 = k
    · rw [show updIns (kv :: r) k v
          = if kv.1 = k then (kv.1, v) :: r else (kv.1, kv.2) :: updIns r k v from rfl,
        if_pos he]
      rfl
    · simp only [keysOf, List.map_cons, List.mem_cons] at h
      rcases h with h1 | h1
      · exact absurd h1.symm he
      · rw [show updIns (kv :: r) k v
            = if kv.1 = k then (kv.1, v) :: r else (kv.1, kv.2) :: updIns r k v from rfl,
          if_neg he, show keysOf ((kv.1, kv.2) :: updIns r k v)
            = kv.1 :: keysOf (updIns r k v) from rfl, ih h1]
        rfl

theorem keysOf_updIns_fresh {α : Type} {m : List (Str × α)} {k : Str} (v : α)
    (h : k ∉ keysOf m) : keysOf (updIns m k v) = keysOf m ++ [k] := by
  rw [updIns_fresh v h, keysOf, List.map_append]
  rfl

theorem keysOf_append {α : Type} (a b : List (Str × α)) :
    keysOf (a ++ b) = keysOf a ++ keysOf b := by
  simp [keysOf]

theorem nodup_keysOf_updIns {α : Type} {m : List (Str × α)} {k : Str} (v : α)
    (h : (keysOf m).Nodup) : (keysOf (updIns m k v)).Nodup := by
  by_cases hk : k ∈ keysOf m
  · rw [keysOf_updIns_mem v hk]; exact h
  · rw [keysOf_updIns_fresh v hk]
    simp only [List.nodup_append, List.nodup_cons, List.nodup_nil]
    exact ⟨h, by simp, by
      intro a ha hb
      rcases List.mem_singleton.mp hb with rfl
      exact hk ha⟩

theorem getV_mem {α : Type} {m : List (Str × α)} {k : Str} {v : α}
    (h : getV m k = some v) : (k, v) ∈ m := by
  induction m with
  | nil => cases h
  | cons kv r ih =>
    obtain ⟨k0, v0⟩ := kv
    by_cases he : k0 = k
    · rw [show getV ((k0, v0) :: r) k = if k0 = k then some v0 else getV r k from rfl,
        if_pos he] at h
      cases h
      exact List.mem_cons.mpr (Or.inl (by rw [he]))
    · rw [show getV ((k0, v0) :: r) k = if k0 = k then some v0 else getV r k from rfl,
        if_neg he] at h
      exact List.mem_cons_of_mem _ (ih h)

theorem mem_getV_of_nodup {α : Type} {m : List (Str × α)}
    (hn : (keysOf m).Nodup) {k : Str} {v : α} (h : (k, v) ∈ m) :
    getV m k = some v := by
  induction m with
  | nil => cases h
  | cons kv r ih =>
    rw [show keysOf (kv :: r) = kv.1 :: keysOf r from rfl, List.nodup_cons] at hn
    rcases List.mem_cons.mp h with rfl | h2
    · rw [show getV ((k, v) :: r) k = if k = k then some v else getV r k from rfl,
        if_pos rfl]
    · have hne : kv.1 ≠ k := by
        intro he
        exact hn.1 (he ▸ (List.mem_map.mpr ⟨(k, v), h2, rfl⟩))
      rw [show getV (kv :: r) k = if kv.1 = k then some kv.2 else getV r k from rfl,
        if_neg hne]
      exact ih hn.2 h2

theorem getV_isSome_of_mem {α : Type} {m : List (Str × α)} {k : Str}
    (h : k ∈ keysOf m) : (getV m k).isSome = true := by
  induction m with
  | nil => simp [keysOf] at h
  | cons kv r ih =>
    by_cases he : kv.1 = k
    · rw [show getV (kv :: r) k = if kv.1 = k then some kv.2 else getV r k from rfl,
        if_pos he]
      rfl
    · simp only [keysOf, List.map_cons, List.mem_cons] at h
      rcases h with h1 | h1
      · exact absurd h1.symm he
      · rw [show getV (kv :: r) k = if kv.1 = k then some kv.2 else getV r k from rfl,
        if_neg he]
        exact ih h1

/-! Parser-image invariants: every document `parse_obo_file` returns
satisfies these, and they are exactly what makes serialization invert. -/

/-- A field or header key as the parser stores it: whitespace-stripped,
colon-free, newline-free, and containing no section marker. -/
def wfKeyName (k : Str) : Prop := strip k = k ∧ ':' ∉ k ∧ '\n' ∉ k ∧ NoMarker k

/-- A section field value as the parser stores it: left-stripped (trailing
whitespace is kept), newline-free, marker-free. -/
def wfSVal (v : Str) : Prop := lstrip v = v ∧ '\n' ∉ v ∧ NoMarker v

/-- A header value as the parser stores it: stripped on both sides,
newline-free, marker-free. -/
def wfHVal (v : Str) : Prop :=
  lstrip v = v ∧ rstrip v = v ∧ '\n' ∉ v ∧ NoMarker v

/-- An `is_a` list entry as the parser stores it: either a plain string on
which the reference pattern fails, or a reference pair that the pattern
reconstructs exactly from its serialized `id ! name` form. -/
def wfIsaEntry : Entry → Prop
  | Entry.estr s => wfSVal s ∧ isaMatch s = none
  | Entry.eref i n => isaMatch (i ++ " ! ".data ++ n) = some (i, n)
      ∧ i ≠ [] ∧ lstrip i = i ∧ '\n' ∉ i ∧ '\n' ∉ n ∧ NoMarker i ∧ NoMarker n

/-- A field value as stored under its key: `is_a` always holds a non-empty
list of well-formed entries; any other key holds a well-formed scalar or a
list of at least two plain strings. -/
def wfVal (k : Str) (v : RecVal) : Prop :=
  if k = "is_a".data then
    match v with
    | RecVal.scalar _ => False
    | RecVal.vlist es => es ≠ [] ∧ ∀ e ∈ es, wfIsaEntry e
  else
    match v with
    | RecVal.scalar s => wfSVal s
    | RecVal.vlist es => 2 ≤ es.length ∧ ∀ e ∈ es, ∃ s, e = Entry.estr s ∧ wfSVal s

def wfField (k : Str) (v : RecVal) : Prop := wfKeyName k ∧ wfVal k v

/-- The fold invariant for a record under construction: unique keys and
well-formed fields. -/
def wfRecCore (r : Rec) : Prop := (keysOf r).Nodup ∧ ∀ kv ∈ r, wfField kv.1 kv.2

/-- A record as kept in a parsed document (non-empty records only). -/
def wfRec (r : Rec) : Prop := r ≠ [] ∧ wfRecCore r

def wfHeader (h : Header) : Prop :=
  (keysOf h).Nodup ∧ ∀ kv ∈ h, wfKeyName kv.1 ∧ wfHVal kv.2

def wfDoc (d : Document) : Prop :=
  wfHeader d.header ∧ (∀ r ∈ d.terms, wfRec r) ∧
  match d.typedefs with
  | none => True
  | some l => l ≠ [] ∧ ∀ r ∈ l, wfRec r

/-! ## Round-trip: the section line step on serialized field lines -/

/-- The line written for one list entry (the lambda of `_write_field`). -/
def renderEntry (f : Str) (e : Entry) : Str :=
  match e with
  | Entry.estr s => f ++ ": ".data ++ s
  | Entry.eref i n =>
    if f = "is_a".data then f ++ ": ".data ++ i ++ " ! ".data ++ n
    else f ++ ": ".data ++ reprRef i n

theorem writeFieldLines_vlist (f : Str) (es : List Entry) :
    writeFieldLines f (RecVal.vlist es) = es.map (renderEntry f) := rfl

/-- The entry `_handle_is_a_field` builds from a value. -/
def isaEntryOf (v : Str) : Entry :=
  match isaMatch v with
  | some (i, n) => Entry.eref i n
  | none => Entry.estr v

theorem isaEntryOf_estr {s : Str} (h : isaMatch s = none) :
    isaEntryOf s = Entry.estr s := by
  simp [isaEntryOf, h]

theorem isaEntryOf_eref {i n : Str} (h : isaMatch (i ++ " ! ".data ++ n) = some (i, n)) :
    isaEntryOf (i ++ " ! ".data ++ n) = Entry.eref i n := by
  have h2 : isaMatch (i ++ ' ' :: '!' :: ' ' :: n) = some (i, n) := by
    rw [show i ++ ' ' :: '!' :: ' ' :: n = i ++ " ! ".data ++ n from by simp]
    exact h
  simp [isaEntryOf, h2]

theorem head_not_ws_of_lstrip_self {c : Char} {t : Str}
    (h : lstrip (c :: t) = c :: t) : isWs c = false := by
  by_cases hws : isWs c
  · rw [lstrip, List.dropWhile_cons_of_pos hws] at h
    have := length_dropWhile_le (p := isWs) t
    rw [h] at this
    simp at this
  · exact Bool.of_not_eq_true hws

theorem lstrip_append_left {x : Str} (y : Str) (hx : lstrip x = x) (hne : x ≠ []) :
    lstrip (x ++ y) = x ++ y := by
  cases x with
  | nil => exact absurd rfl hne
  | cons c t =>
    rw [List.cons_append, lstrip,
      List.dropWhile_cons_of_neg (by rw [head_not_ws_of_lstrip_self hx]; simp)]

theorem lstrip_cons_space (v : Str) : lstrip (' ' :: v) = lstrip v := by
  rw [lstrip, List.dropWhile_cons_of_pos (by decide)]
  rfl

/-- The section line step on a serialized `key: value` line recovers the key
and the value exactly and dispatches on `is_a`. -/
theorem parseSectionLineStep_field (r : Rec) (k v : Str)
    (hk : strip k = k) (hkc : ':' ∉ k) (hknl : '\n' ∉ k)
    (hvnl : '\n' ∉ v) (hlv : lstrip v = v) :
    parseSectionLineStep r (k ++ ": ".data ++ v)
      = if k = "is_a".data then handleIsAField r v else handleRegularField r k v := by
  have hshape : k ++ ": ".data ++ v = k ++ ':' :: ' ' :: v := by simp
  rw [hshape]
  have hnl : '\n' ∉ k ++ ':' :: ' ' :: v := by
    intro hmem
    rcases List.mem_append.mp hmem with h1 | h1
    · exact hknl h1
    · rcases List.mem_cons.mp h1 with h2 | h2
      · cases h2
      · rcases List.mem_cons.mp h2 with h3 | h3
        · cases h3
        · exact hvnl h3
  have hcolon : ':' ∈ k ++ ':' :: ' ' :: v := by simp
  simp only [parseSectionLineStep]
  rw [rstripNl_eq_self hnl, if_pos ⟨strip_ne_nil_of_colon hcolon, hcolon⟩,
    colonSplit_append hkc]
  show (if strip k = "is_a".data then handleIsAField r (lstrip (' ' :: v))
      else handleRegularField r (strip k) (lstrip (' ' :: v))) = _
  rw [hk, lstrip_cons_space, hlv]

theorem handleRegularField_fresh {r : Rec} {k : Str} (v : Str)
    (h : k ∉ keysOf r) :
    handleRegularField r k v = r ++ [(k, RecVal.scalar v)] := by
  simp only [handleRegularField, getV_eq_none_of_not_mem h]
  exact updIns_fresh _ h

theorem handleRegularField_scalar {acc : Rec} {k : Str} (s v : Str)
    (h : k ∉ keysOf acc) :
    handleRegularField (acc ++ [(k, RecVal.scalar s)]) k v
      = acc ++ [(k, RecVal.vlist [Entry.estr s, Entry.estr v])] := by
  have hget : getV (acc ++ [(k, RecVal.scalar s)]) k = some (RecVal.scalar s) := by
    rw [getV_append_right _ h, getV_singleton]
  simp only [handleRegularField, hget]
  exact updIns_found _ _ [] h

theorem handleRegularField_vlist {acc : Rec} {k : Str} (es : List Entry) (v : Str)
    (h : k ∉ keysOf acc) :
    handleRegularField (acc ++ [(k, RecVal.vlist es)]) k v
      = acc ++ [(k, RecVal.vlist (es ++ [Entry.estr v]))] := by
  have hget : getV (acc ++ [(k, RecVal.vlist es)]) k = some (RecVal.vlist es) := by
    rw [getV_append_right _ h, getV_singleton]
  simp only [handleRegularField, hget]
  exact updIns_found _ _ [] h

theorem handleIsAField_fresh {r : Rec} (v : Str)
    (h : "is_a".data ∉ keysOf r) :
    handleIsAField r v = r ++ [("is_a".data, RecVal.vlist [isaEntryOf v])] := by
  simp only [handleIsAField, getV_eq_none_of_not_mem h]
  exact updIns_fresh _ h

theorem handleIsAField_cont {acc : Rec} (es : List Entry) (v : Str)
    (h : "is_a".data ∉ keysOf acc) :
    handleIsAField (acc ++ [("is_a".data, RecVal.vlist es)]) v
      = acc ++ [("is_a".data, RecVal.vlist (es ++ [isaEntryOf v]))] := by
  have hget : getV (acc ++ [("is_a".data, RecVal.vlist es)]) ("is_a".data)
      = some (RecVal.vlist es) := by
    rw [getV_append_right _ h, getV_singleton]
  simp only [handleIsAField, hget]
  exact updIns_found _ _ [] h

/-! ## Round-trip: folding the section step over a serialized record -/

theorem foldl_isa_group : ∀ (es es0 : List Entry) (acc : Rec),
    "is_a".data ∉ keysOf acc → (∀ e ∈ es, wfIsaEntry e) →
    (es.map (renderEntry ("is_a".data))).foldl parseSectionLineStep
        (acc ++ [("is_a".data, RecVal.vlist es0)])
      = acc ++ [("is_a".data, RecVal.vlist (es0 ++ es))] := by
  intro es
  induction es with
  | nil => intro es0 acc _ _; simp
  | cons e rest ih =>
    intro es0 acc hk hwf
    rw [List.map_cons, List.foldl_cons]
    have hstep : parseSectionLineStep (acc ++ [("is_a".data, RecVal.vlist es0)])
        (renderEntry ("is_a".data) e)
        = acc ++ [("is_a".data, RecVal.vlist (es0 ++ [e]))] := by
      cases e with
      | estr s =>
        obtain ⟨⟨hls, hnl, hnm⟩, hnone⟩ := hwf (Entry.estr s) (by simp)
        show parseSectionLineStep _ ("is_a".data ++ ": ".data ++ s) = _
        rw [parseSectionLineStep_field _ _ _ (by decide) (by decide) (by decide) hnl hls,
          if_pos rfl, handleIsAField_cont es0 s hk, isaEntryOf_estr hnone]
      | eref i n =>
        obtain ⟨hmatch, hne, hli, hnli, hnln, hnmi, hnmn⟩ := hwf (Entry.eref i n) (by simp)
        show parseSectionLineStep _
            (if "is_a".data = "is_a".data then
              "is_a".data ++ ": ".data ++ i ++ " ! ".data ++ n
            else "is_a".data ++ ": ".data ++ reprRef i n) = _
        rw [if_pos rfl,
          show "is_a".data ++ ": ".data ++ i ++ " ! ".data ++ n
            = "is_a".data ++ ": ".data ++ (i ++ " ! ".data ++ n) from by
            simp [List.append_assoc]]
        have hvnl : '\n' ∉ i ++ " ! ".data ++ n := by
          intro hmem
          rcases List.mem_append.mp hmem with h1 | h1
          · rcases List.mem_append.mp h1 with h2 | h2
            · exact hnli h2
            · simp at h2
          · exact hnln h1
        rw [parseSectionLineStep_field _ _ _ (by decide) (by decide) (by decide) hvnl
            (by
              rw [List.append_assoc]
              exact lstrip_append_left _ hli hne),
          if_pos rfl, handleIsAField_cont es0 _ hk, isaEntryOf_eref hmatch]
    rw [hstep, ih (es0 ++ [e]) acc hk (fun e2 he2 => hwf e2 (by simp [he2]))]
    simp [List.append_assoc]

theorem foldl_regular_more : ∀ (ss : List Str) (es0 : List Entry) (acc : Rec) (k : Str),
    k ∉ keysOf acc → k ≠ "is_a".data → wfKeyName k → (∀ s ∈ ss, wfSVal s) →
    (ss.map (fun s => k ++ ": ".data ++ s)).foldl parseSectionLineStep
        (acc ++ [(k, RecVal.vlist es0)])
      = acc ++ [(k, RecVal.vlist (es0 ++ ss.map Entry.estr))] := by
  intro ss
  induction ss with
  | nil => intro es0 acc k _ _ _ _; simp
  | cons s rest ih =>
    intro es0 acc k hk hne hwfk hwf
    obtain ⟨hstripk, hck, hnlk, hnmk⟩ := hwfk
    obtain ⟨hls, hnl, hnm⟩ := hwf s (by simp)
    rw [List.map_cons, List.foldl_cons,
      parseSectionLineStep_field _ _ _ hstripk hck hnlk hnl hls,
      if_neg hne, handleRegularField_vlist es0 s hk,
      ih (es0 ++ [Entry.estr s]) acc k hk hne ⟨hstripk, hck, hnlk, hnmk⟩
        (fun s2 hs2 => hwf s2 (by simp [hs2]))]
    simp [List.append_assoc]

theorem exists_strings : ∀ (es : List Entry),
    (∀ e ∈ es, ∃ s, e = Entry.estr s ∧ wfSVal s) →
    ∃ ss : List Str, es = ss.map Entry.estr ∧ ∀ s ∈ ss, wfSVal s := by
  intro es
  induction es with
  | nil => intro _; exact ⟨[], rfl, by simp⟩
  | cons e rest ih =>
    intro h
    obtain ⟨s, rfl, hs⟩ := h e (by simp)
    obtain ⟨ss, rfl, hss⟩ := ih (fun e2 he2 => h e2 (by simp [he2]))
    refine ⟨s :: ss, rfl, ?_⟩
    intro s2 hs2
    rcases List.mem_cons.mp hs2 with rfl | h2
    · exact hs
    · exact hss s2 h2

/-- Folding the section line step over the serialized lines of one
well-formed field appends exactly that field. -/
theorem foldl_field_group (k : Str) (val : RecVal) (acc : Rec)
    (hk : k ∉ keysOf acc) (hwfk : wfKeyName k) (hwfv : wfVal k val) :
    (writeFieldLines k val).foldl parseSectionLineStep acc = acc ++ [(k, val)] := by
  by_cases hisa : k = "is_a".data
  · subst hisa
    cases val with
    | scalar s => exact absurd hwfv (by simp [wfVal])
    | vlist es =>
      have hwfv2 : es ≠ [] ∧ ∀ e ∈ es, wfIsaEntry e := by
        simpa [wfVal] using hwfv
      cases es with
      | nil => exact absurd rfl hwfv2.1
      | cons e rest =>
        rw [writeFieldLines_vlist, List.map_cons, List.foldl_cons]
        have hstep : parseSectionLineStep acc (renderEntry ("is_a".data) e)
            = acc ++ [("is_a".data, RecVal.vlist [e])] := by
          cases e with
          | estr s =>
            obtain ⟨⟨hls, hnl, hnm⟩, hnone⟩ := hwfv2.2 (Entry.estr s) (by simp)
            show parseSectionLineStep _ ("is_a".data ++ ": ".data ++ s) = _
            rw [parseSectionLineStep_field _ _ _ (by decide) (by decide) (by decide) hnl hls,
              if_pos rfl, handleIsAField_fresh s hk, isaEntryOf_estr hnone]
          | eref i n =>
            obtain ⟨hmatch, hne, hli, hnli, hnln, hnmi, hnmn⟩ :=
              hwfv2.2 (Entry.eref i n) (by simp)
            show parseSectionLineStep _
                (if "is_a".data = "is_a".data then
                  "is_a".data ++ ": ".data ++ i ++ " ! ".data ++ n
                else "is_a".data ++ ": ".data ++ reprRef i n) = _
            rw [if_pos rfl,
              show "is_a".data ++ ": ".data ++ i ++ " ! ".data ++ n
                = "is_a".data ++ ": ".data ++ (i ++ " ! ".data ++ n) from by
                simp [List.append_assoc]]
            have hvnl : '\n' ∉ i ++ " ! ".data ++ n := by
              intro hmem
              rcases List.mem_append.mp hmem with h1 | h1
              · rcases List.mem_append.mp h1 with h2 | h2
                · exact hnli h2
                · simp at h2
              · exact hnln h1
            rw [parseSectionLineStep_field _ _ _ (by decide) (by decide) (by decide) hvnl
                (by
                  rw [List.append_assoc]
                  exact lstrip_append_left _ hli hne),
              if_pos rfl, handleIsAField_fresh _ hk, isaEntryOf_eref hmatch]
        rw [hstep, foldl_isa_group rest [e] acc hk
          (fun e2 he2 => hwfv2.2 e2 (by simp [he2]))]
        rfl
  · cases val with
    | scalar s =>
      have hwfs : wfSVal s := by simpa [wfVal, hisa] using hwfv
      show List.foldl parseSectionLineStep acc [k ++ ": ".data ++ s] = _
      rw [List.foldl_cons, List.foldl_nil,
        parseSectionLineStep_field _ _ _ hwfk.1 hwfk.2.1 hwfk.2.2.1 hwfs.2.1 hwfs.1,
        if_neg hisa, handleRegularField_fresh s hk]
    | vlist es =>
      have hwfv2 : 2 ≤ es.length ∧ ∀ e ∈ es, ∃ s, e = Entry.estr s ∧ wfSVal s := by
        simpa [wfVal, hisa] using hwfv
      obtain ⟨ss, rfl, hss⟩ := exists_strings es hwfv2.2
      have hlines : writeFieldLines k (RecVal.vlist (ss.map Entry.estr))
          = ss.map (fun s => k ++ ": ".data ++ s) := by
        rw [writeFieldLines_vlist, List.map_map]
        rfl
      rw [hlines]
      cases ss with
      | nil => simp at hwfv2
      | cons s1 ss2 =>
        cases ss2 with
        | nil => simp at hwfv2
        | cons s2 rest =>
          obtain ⟨hls1, hnl1, hnm1⟩ := hss s1 (by simp)
          obtain ⟨hls2, hnl2, hnm2⟩ := hss s2 (by simp)
          rw [List.map_cons, List.map_cons, List.foldl_cons, List.foldl_cons,
            parseSectionLineStep_field _ _ _ hwfk.1 hwfk.2.1 hwfk.2.2.1 hnl1 hls1,
            if_neg hisa, handleRegularField_fresh s1 hk,
            parseSectionLineStep_field _ _ _ hwfk.1 hwfk.2.1 hwfk.2.2.1 hnl2 hls2,
            if_neg hisa, handleRegularField_scalar s1 s2 hk,
            foldl_regular_more rest [Entry.estr s1, Entry.estr s2] acc k hk hisa hwfk
              (fun s3 hs3 => hss s3 (by simp [hs3]))]
          rfl

/-- Folding the section step over the serialized lines of a record with
unique well-formed fields rebuilds the record, appended to the
accumulator. -/
theorem foldl_fields : ∀ (ofs : Rec) (acc : Rec),
    (keysOf ofs).Nodup → (∀ kv ∈ ofs, wfField kv.1 kv.2) →
    (∀ k ∈ keysOf ofs, k ∉ keysOf acc) →
    ((ofs.map (fun kv => writeFieldLines kv.1 kv.2)).flatten).foldl
        parseSectionLineStep acc
      = acc ++ ofs := by
  intro ofs
  induction ofs with
  | nil => intro acc _ _ _; simp
  | cons kv rest ih =>
    intro acc hnodup hwf hfresh
    obtain ⟨k, val⟩ := kv
    rw [List.map_cons, List.flatten_cons, List.foldl_append,
      foldl_field_group k val acc
        (hfresh k (show k ∈ keysOf ((k, val) :: rest) from List.mem_cons.mpr (Or.inl rfl)))
        (hwf (k, val) (by simp)).1 (hwf (k, val) (by simp)).2]
    rw [show keysOf ((k, val) :: rest) = k :: keysOf rest from rfl,
      List.nodup_cons] at hnodup
    rw [ih (acc ++ [(k, val)]) hnodup.2
      (fun kv2 hkv2 => hwf kv2 (List.mem_cons_of_mem _ hkv2))
      (fun k2 hk2 => by
        rw [keysOf_append]
        intro hmem
        rcases List.mem_append.mp hmem with h1 | h1
        · exact hfresh k2
            (show k2 ∈ keysOf ((k, val) :: rest) from List.mem_cons_of_mem _ hk2) h1
        · rcases List.mem_singleton.mp h1 with rfl
          exact hnodup.1 hk2)]
    simp

/-! ## Round-trip: the field order produced by the serializer -/

/-- The record as reordered by `_write_fields_in_order`: configured fields
present in the record first, then the remaining fields in record order. -/
def orderedFields (r : Rec) (order : List Str) : Rec :=
  order.filterMap (fun f => (getV r f).map (fun v => (f, v)))
    ++ r.filter (fun kv => kv.1 ∉ order)

theorem writeFieldsInOrder_eq (r : Rec) (order : List Str) :
    writeFieldsInOrder r order
      = ((orderedFields r order).map (fun kv => writeFieldLines kv.1 kv.2)).flatten := by
  rw [orderedFields, List.map_append, List.flatten_append, writeFieldsInOrder]
  congr 1
  induction order with
  | nil => rfl
  | cons f rest ih =>
    cases hg : getV r f with
    | none =>
      rw [List.filter_cons_of_neg (by simp [hg]), List.filterMap_cons_none (by simp [hg])]
      exact ih
    | some v =>
      rw [List.filter_cons_of_pos (by simp [hg])]
      simp [List.filterMap_cons, hg, ih]

theorem mem_orderedFields {r : Rec} {order : List Str} {kv : Str × RecVal}
    (h : kv ∈ orderedFields r order) : kv ∈ r := by
  rcases List.mem_append.mp h with h1 | h1
  · obtain ⟨f, hf, hsome⟩ := List.mem_filterMap.mp h1
    cases hg : getV r f with
    | none => rw [hg] at hsome; cases hsome
    | some v =>
      rw [hg] at hsome
      cases hsome
      exact getV_mem hg
  · exact List.mem_of_mem_filter h1

theorem mem_orderedFields_of_mem {r : Rec} {order : List Str} {kv : Str × RecVal}
    (hn : (keysOf r).Nodup) (h : kv ∈ r) : kv ∈ orderedFields r order := by
  by_cases ho : kv.1 ∈ order
  · refine List.mem_append.mpr (Or.inl (List.mem_filterMap.mpr ⟨kv.1, ho, ?_⟩))
    rw [mem_getV_of_nodup hn (show (kv.1, kv.2) ∈ r from h)]
    rfl
  · exact List.mem_append.mpr (Or.inr (List.mem_filter.mpr ⟨h, by simpa using ho⟩))

theorem keysOf_filterMap_getV (r : Rec) : ∀ (order : List Str),
    keysOf (order.filterMap (fun f => (getV r f).map (fun v => (f, v))))
      = order.filter (fun f => (getV r f).isSome) := by
  intro order
  induction order with
  | nil => rfl
  | cons f rest ih =>
    cases hg : getV r f with
    | none =>
      rw [List.filterMap_cons_none (by simp [hg]), List.filter_cons_of_neg (by simp [hg])]
      exact ih
    | some v =>
      rw [List.filter_cons_of_pos (by simp [hg])]
      simp [List.filterMap_cons, hg, keysOf] at ih ⊢
      exact ih

theorem nodup_keysOf_orderedFields {r : Rec} {order : List Str}
    (hn : (keysOf r).Nodup) (ho : order.Nodup) :
    (keysOf (orderedFields r order)).Nodup := by
  rw [orderedFields, keysOf_append, List.nodup_append]
  refine ⟨?_, ?_, ?_⟩
  · rw [keysOf_filterMap_getV]
    exact ho.filter _
  · exact hn.sublist (List.Sublist.map Prod.fst (List.filter_sublist r))
  · intro k hk1 hk2
    rw [keysOf_filterMap_getV] at hk1
    have hk1o : k ∈ order := List.mem_of_mem_filter hk1
    obtain ⟨kv, hkv, rfl⟩ := List.mem_map.mp hk2
    have := (List.mem_filter.mp hkv).2
    simp at this
    exact this hk1o

theorem orderedFields_ne_nil {r : Rec} {order : List Str}
    (hn : (keysOf r).Nodup) (h : r ≠ []) : orderedFields r order ≠ [] := by
  cases r with
  | nil => exact absurd rfl h
  | cons kv rest =>
    exact List.ne_nil_of_mem (mem_orderedFields_of_mem hn (List.mem_cons.mpr (Or.inl rfl)))

/-! ## Round-trip: deep equality of documents (Python `==`) -/

/-- `m1 ⊆ m2` as Python dict comparison sees it: every entry of `m1` is
found under its key in `m2`. -/
def subDict {α : Type} [DecidableEq α] (m1 m2 : List (Str × α)) : Bool :=
  m1.all (fun kv => getV m2 kv.1 == some kv.2)

/-- Python `==` on two dicts: equal key sets with equal values (insertion
order is irrelevant to `==`). -/
def dictEq {α : Type} [DecidableEq α] (m1 m2 : List (Str × α)) : Bool :=
  subDict m1 m2 && subDict m2 m1

/-- Python `==` on two lists of records: pointwise dict equality. -/
def recListEq : List Rec → List Rec → Bool
  | [], [] => true
  | r1 :: t1, r2 :: t2 => dictEq r1 r2 && recListEq t1 t2
  | _, _ => false

/-- Python `==` on two parsed documents (deep equality: dicts compare
order-insensitively, lists pointwise, the `typedefs` key must be present
in both or absent in both). -/
def docEq (d1 d2 : Document) : Bool :=
  dictEq d1.header d2.header && recListEq d1.terms d2.terms &&
  (match d1.typedefs, d2.typedefs with
   | none, none => true
   | some a, some b => recListEq a b
   | _, _ => false)

theorem dictEq_of_same_mem {α : Type} [DecidableEq α] {m1 m2 : List (Str × α)}
    (h1 : (keysOf m1).Nodup) (h2 : (keysOf m2).Nodup)
    (hmem : ∀ kv, kv ∈ m1 ↔ kv ∈ m2) : dictEq m1 m2 = true := by
  have hsub : ∀ (a b : List (Str × α)), (keysOf b).Nodup → (∀ kv, kv ∈ a → kv ∈ b) →
      subDict a b = true := by
    intro a b hb hab
    rw [subDict, List.all_eq_true]
    intro kv hkv
    rw [mem_getV_of_nodup hb (hab ⟨kv.1, kv.2⟩ hkv)]
    exact beq_self_eq_true _
  rw [dictEq, Bool.and_eq_true]
  exact ⟨hsub m1 m2 h2 (fun kv h => (hmem kv).mp h),
    hsub m2 m1 h1 (fun kv h => (hmem kv).mpr h)⟩

theorem recListEq_map {f : Rec → Rec} : ∀ (ts : List Rec),
    (∀ r ∈ ts, dictEq (f r) r = true) → recListEq (ts.map f) ts = true := by
  intro ts
  induction ts with
  | nil => intro _; rfl
  | cons r rest ih =>
    intro h
    rw [List.map_cons,
      show recListEq (f r :: rest.map f) (r :: rest)
        = (dictEq (f r) r && recListEq (rest.map f) rest) from rfl,
      h r (by simp), ih (fun r2 h2 => h r2 (by simp [h2]))]
    rfl

theorem dictEq_orderedFields {r : Rec} (order : List Str)
    (hn : (keysOf r).Nodup) (ho : order.Nodup) :
    dictEq (orderedFields r order) r = true :=
  dictEq_of_same_mem (nodup_keysOf_orderedFields hn ho) hn
    (fun kv => ⟨mem_orderedFields, mem_orderedFields_of_mem hn⟩)

/-! ## Round-trip: parsing the serialized header segment -/

theorem lstrip_lstrip (x : Str) : lstrip (lstrip x) = lstrip x :=
  dropWhile_dropWhile_of_imp (fun a ha => ha) x

theorem length_rstrip_le (l : Str) : (rstrip l).length ≤ l.length := by
  rw [rstrip, List.length_reverse]
  calc (l.reverse.dropWhile isWs).length ≤ l.reverse.length := length_dropWhile_le _
  _ = l.length := List.length_reverse _

theorem lstrip_of_strip_self {k : Str} (h : strip k = k) : lstrip k = k := by
  conv_lhs => rw [← h]
  rw [strip, lstrip_lstrip, ← strip, h]

theorem rstrip_of_strip_self {k : Str} (h : strip k = k) : rstrip k = k := by
  have ha : (rstrip k).takeWhile isWs ++ k = rstrip k := by
    have h0 : (rstrip k).takeWhile isWs ++ lstrip (rstrip k) = rstrip k :=
      List.takeWhile_append_dropWhile _ _
    rw [show lstrip (rstrip k) = k from h] at h0
    exact h0
  generalize hA : (rstrip k).takeWhile isWs = a at ha
  have h1 : a.length + k.length = (rstrip k).length := by
    rw [← ha, List.length_append]
  have h2 := length_rstrip_le k
  have h3 : a = [] := by
    cases a with
    | nil => rfl
    | cons c t => simp [List.length_cons] at h1; omega
  rw [h3, List.nil_append] at ha
  exact ha.symm

theorem rstrip_snoc_ws {c : Char} (x : Str) (hc : isWs c = true) :
    rstrip (x ++ [c]) = rstrip x := by
  rw [rstrip, rstrip, List.reverse_append, List.reverse_singleton,
    List.singleton_append, List.dropWhile_cons_of_pos hc]

theorem rstrip_append_ws : ∀ (t : Str) (x : Str), (∀ c ∈ t, isWs c = true) →
    rstrip (x ++ t) = rstrip x := by
  intro t
  induction t with
  | nil => intro x _; rw [List.append_nil]
  | cons c t2 ih =>
    intro x h
    rw [show x ++ c :: t2 = (x ++ [c]) ++ t2 from by simp,
      ih (x ++ [c]) (fun a ha => h a (by simp [ha])),
      rstrip_snoc_ws x (h c (by simp))]

/-- The line written for one header entry. -/
def hline (kv : Str × Str) : Str := kv.1 ++ ": ".data ++ kv.2

theorem writeHeaderLines_eq (h : Header) :
    writeHeaderLines h = h.map hline ++ (if h.isEmpty then [] else [[]]) := rfl

theorem lstrip_hline {k : Str} (v : Str) (hk : strip k = k) :
    lstrip (k ++ ": ".data ++ v) = k ++ ": ".data ++ v := by
  cases k with
  | nil =>
    rw [List.nil_append]
    show lstrip (':' :: (' ' :: v)) = _
    rw [lstrip, List.dropWhile_cons_of_neg (by decide)]
    rfl
  | cons c k2 =>
    rw [List.cons_append, List.cons_append, lstrip,
      List.dropWhile_cons_of_neg (by
        rw [head_not_ws_of_lstrip_self (lstrip_of_strip_self hk)]
        simp)]

theorem hline_no_nl {k v : Str} (hk : '\n' ∉ k) (hv : '\n' ∉ v) :
    '\n' ∉ k ++ ": ".data ++ v := by
  intro hmem
  rcases List.mem_append.mp hmem with h1 | h1
  · rcases List.mem_append.mp h1 with h2 | h2
    · exact hk h2
    · simp at h2
  · exact hv h1

theorem rstrip_ne_nil_of_colon {l : Str} (h : ':' ∈ l) : rstrip l ≠ [] := by
  intro he
  have := mem_rstrip_of_not_ws (a := ':') (by decide) h
  rw [he] at this
  cases this

theorem lstrip_rstrip_eq_rstrip {y : Str} (hy : lstrip y = y)
    (hne : rstrip y ≠ []) : lstrip (rstrip y) = rstrip y := by
  have hdec := rstrip_append_eq y
  cases hr : rstrip y with
  | nil => exact absurd hr hne
  | cons c t =>
    rw [hr] at hdec
    have hhead : isWs c = false := by
      refine head_not_ws_of_lstrip_self (t := t ++ (y.reverse.takeWhile isWs).reverse) ?_
      rw [show c :: (t ++ (y.reverse.takeWhile isWs).reverse)
          = (c :: t) ++ (y.reverse.takeWhile isWs).reverse from rfl, hdec]
      exact hy
    rw [lstrip, List.dropWhile_cons_of_neg (by rw [hhead]; simp)]

theorem joinNl_cons_head (l : Str) (ls : List Str) :
    ∃ u, joinNl (l :: ls) = l ++ u := by
  cases ls with
  | nil => exact ⟨[], by simp [joinNl]⟩
  | cons l2 ls2 => exact ⟨'\n' :: joinNl (l2 :: ls2), rfl⟩

theorem splitNl_join_snoc : ∀ (A : List Str) (z : Str), A ≠ [] →
    (∀ l ∈ A, '\n' ∉ l) → '\n' ∉ z →
    splitNl (joinNl A ++ '\n' :: z) = A ++ [z] := by
  intro A
  induction A with
  | nil => intro z h; exact absurd rfl h
  | cons a A2 ih =>
    intro z _ hA hz
    cases A2 with
    | nil =>
      rw [show joinNl [a] = a from rfl, splitNl_append_nl _ (hA a (by simp)),
        splitNl_nlfree hz]
      rfl
    | cons a2 A3 =>
      rw [joinNl_cons_of_ne_nil _ (by simp), List.append_assoc, List.cons_append,
        splitNl_append_nl _ (hA a (by simp)),
        ih z (by simp) (fun l hl => hA l (by simp [hl])) hz]
      rfl

theorem parseHeaderLineStep_rstrip (m : Header) (l : Str) :
    parseHeaderLineStep m (rstrip l) = parseHeaderLineStep m l := by
  simp only [parseHeaderLineStep, rstrip_rstrip]

/-- The header line step on a serialized `key: value` line stores exactly
the key and the value. -/
theorem parseHeaderLineStep_line (acc : Header) (k v : Str)
    (hk : strip k = k) (hkc : ':' ∉ k) (hlv : lstrip v = v) (hrv : rstrip v = v) :
    parseHeaderLineStep acc (k ++ ": ".data ++ v) = updIns acc k v := by
  by_cases hv0 : v = []
  · subst hv0
    have hr : rstrip (k ++ ": ".data ++ []) = k ++ [':'] := by
      rw [List.append_nil,
        show k ++ ": ".data = (k ++ [':']) ++ [' '] from by simp,
        rstrip_snoc_ws _ (by decide),
        rstrip_append_of_ne_nil (show rstrip [':'] ≠ [] from by decide),
        show rstrip [':'] = [':'] from by decide]
    simp only [parseHeaderLineStep, hr]
    rw [if_pos ⟨strip_ne_nil_of_colon (by simp), by simp⟩,
      show k ++ [':'] = k ++ ':' :: [] from rfl, colonSplit_append hkc, hk]
    rfl
  · have hshape : k ++ ": ".data ++ v = (k ++ [':', ' ']) ++ v := by simp
    have hr : rstrip (k ++ ": ".data ++ v) = k ++ ':' :: ' ' :: v := by
      rw [hshape, rstrip_append_of_ne_nil (by rw [hrv]; exact hv0), hrv]
      simp
    simp only [parseHeaderLineStep, hr]
    rw [if_pos ⟨strip_ne_nil_of_colon (by simp), by simp⟩, colonSplit_append hkc, hk,
      lstrip_cons_space, hlv]

theorem foldl_header_lines : ∀ (h : Header) (acc : Header),
    (∀ kv ∈ h, wfKeyName kv.1 ∧ wfHVal kv.2) →
    (h.map hline).foldl parseHeaderLineStep acc
      = h.foldl (fun m kv => updIns m kv.1 kv.2) acc := by
  intro h
  induction h with
  | nil => intro acc _; rfl
  | cons kv rest ih =>
    intro acc hwf
    obtain ⟨hk, hv⟩ := hwf kv (by simp)
    rw [List.map_cons, List.foldl_cons, List.foldl_cons,
      show hline kv = kv.1 ++ ": ".data ++ kv.2 from rfl,
      parseHeaderLineStep_line acc kv.1 kv.2 hk.1 hk.2.1 hv.1 hv.2.1,
      ih _ (fun kv2 h2 => hwf kv2 (by simp [h2]))]

theorem foldl_updIns_fresh : ∀ (h : Header) (acc : Header),
    (keysOf h).Nodup → (∀ k ∈ keysOf h, k ∉ keysOf acc) →
    h.foldl (fun m kv => updIns m kv.1 kv.2) acc = acc ++ h := by
  intro h
  induction h with
  | nil => intro acc _ _; simp
  | cons kv rest ih =>
    intro acc hnodup hfresh
    obtain ⟨k, v⟩ := kv
    rw [List.foldl_cons]
    rw [show keysOf ((k, v) :: rest) = k :: keysOf rest from rfl,
      List.nodup_cons] at hnodup
    rw [show updIns acc (k, v).1 (k, v).2 = acc ++ [(k, v)] from
      updIns_fresh _ (hfresh k (List.mem_cons.mpr (Or.inl rfl)))]
    rw [ih (acc ++ [(k, v)]) hnodup.2
      (fun k2 hk2 => by
        rw [keysOf_append]
        intro hmem
        rcases List.mem_append.mp hmem with h1 | h1
        · exact hfresh k2
            (show k2 ∈ keysOf ((k, v) :: rest) from List.mem_cons_of_mem _ hk2) h1
        · rcases List.mem_singleton.mp h1 with rfl
          exact hnodup.1 hk2)]
    simp

/-- Parsing the stripped header segment (the serialized header lines plus
trailing whitespace) recovers the header exactly. -/
theorem parseHeader_hdrText (h : Header) (hwf : wfHeader h) (hne : h ≠ [])
    (t : Str) (ht : ∀ c ∈ t, isWs c = true) :
    parseHeader (strip (joinNl (h.map hline) ++ t)) = h := by
  have hstrip : strip (joinNl (h.map hline) ++ t) = lstrip (rstrip (joinNl (h.map hline))) := by
    rw [strip, rstrip_append_ws t _ ht]
  rw [hstrip]
  rcases List.eq_nil_or_concat h with rfl | ⟨h0, kvL, rfl⟩
  · exact absurd rfl hne
  · rw [List.concat_eq_append] at hwf hne ⊢
    have hwfL := hwf.2 kvL (by simp)
    have hnlL : '\n' ∉ hline kvL := hline_no_nl hwfL.1.2.2.1 hwfL.2.2.2.1
    have hcolonL : ':' ∈ hline kvL := by simp [hline]
    have hrL : rstrip (hline kvL) ≠ [] := rstrip_ne_nil_of_colon hcolonL
    have hstepL : ∀ m, parseHeaderLineStep m (rstrip (hline kvL))
        = parseHeaderLineStep m (hline kvL) := fun m => parseHeaderLineStep_rstrip m _
    cases h0 with
    | nil =>
      rw [List.nil_append, List.map_singleton,
        show joinNl [hline kvL] = hline kvL from rfl,
        lstrip_rstrip_eq_rstrip (show lstrip (hline kvL) = hline kvL from lstrip_hline kvL.2 hwfL.1.1) hrL,
        parseHeader, splitNl_nlfree (fun hm => hnlL (mem_of_mem_rstrip hm)),
        List.foldl_cons, List.foldl_nil, hstepL,
        show hline kvL = kvL.1 ++ ": ".data ++ kvL.2 from rfl,
        parseHeaderLineStep_line [] kvL.1 kvL.2 hwfL.1.1 hwfL.1.2.1 hwfL.2.1 hwfL.2.2.1]
      show updIns [] kvL.1 kvL.2 = [kvL]
      rw [show updIns ([] : Header) kvL.1 kvL.2 = [(kvL.1, kvL.2)] from rfl]
    | cons kv0 rest0 =>
      have hmapne : (kv0 :: rest0).map hline ≠ [] := by simp
      have hJ : joinNl (((kv0 :: rest0) ++ [kvL]).map hline)
          = (joinNl ((kv0 :: rest0).map hline) ++ ['\n']) ++ hline kvL := by
        rw [List.map_append, List.map_singleton,
          joinNl_append _ _ hmapne (by simp),
          show joinNl [hline kvL] = hline kvL from rfl]
        simp
      rw [hJ, rstrip_append_of_ne_nil hrL]
      have hwf0 := hwf.2 kv0 (by simp)
      obtain ⟨u, hu⟩ := joinNl_cons_head (hline kv0) (rest0.map hline)
      have hlfront : lstrip ((joinNl ((kv0 :: rest0).map hline) ++ ['\n']) ++ rstrip (hline kvL))
          = (joinNl ((kv0 :: rest0).map hline) ++ ['\n']) ++ rstrip (hline kvL) := by
        rw [List.map_cons, hu]
        rw [List.append_assoc, List.append_assoc]
        exact lstrip_append_left _ (lstrip_hline kv0.2 hwf0.1.1) (by simp [hline])
      rw [hlfront]
      have hsplit : splitNl ((joinNl ((kv0 :: rest0).map hline) ++ ['\n'])
            ++ rstrip (hline kvL))
          = (kv0 :: rest0).map hline ++ [rstrip (hline kvL)] := by
        rw [List.append_assoc, List.singleton_append]
        refine splitNl_join_snoc _ _ (by simp) ?_
          (fun hm => hnlL (mem_of_mem_rstrip hm))
        intro l hl
        obtain ⟨kv2, hkv2, rfl⟩ := List.mem_map.mp hl
        have hwf2 := hwf.2 kv2 (List.mem_append.mpr (Or.inl hkv2))
        exact hline_no_nl hwf2.1.2.2.1 hwf2.2.2.2.1
      rw [parseHeader, hsplit, List.foldl_append, List.foldl_cons, List.foldl_nil, hstepL,
        show parseHeaderLineStep
            (List.foldl parseHeaderLineStep [] ((kv0 :: rest0).map hline)) (hline kvL)
          = List.foldl parseHeaderLineStep []
              ((kv0 :: rest0).map hline ++ [hline kvL]) from by
          rw [List.foldl_append, List.foldl_cons, List.foldl_nil],
        ← List.map_singleton hline, ← List.map_append,
        foldl_header_lines _ [] hwf.2, foldl_updIns_fresh _ [] hwf.1 (by simp [keysOf]),
        List.nil_append]

/-! ## Round-trip: assembling the parse of a serialized document -/

theorem noMarker_short {s : Str} (h : s.length < 6) : NoMarker s :=
  ⟨fun hc => by
      have := occurs_length hc
      rw [show mTermS.length = 6 from rfl] at this
      omega,
   fun hc => by
      have := occurs_length hc
      rw [show mTypedefS.length = 9 from rfl] at this
      omega⟩

theorem noMarker_field_line {k v : Str} (hk : NoMarker k) (hv : NoMarker v) :
    NoMarker (k ++ ": ".data ++ v) := by
  rw [show k ++ ": ".data ++ v = k ++ ':' :: ' ' :: v from by simp]
  exact noMarker_line hk hv

theorem noMarker_isa_ref {i n : Str} (hi : NoMarker i) (hn : NoMarker n) :
    NoMarker (i ++ " ! ".data ++ n) := by
  rw [show i ++ " ! ".data ++ n = i ++ ' ' :: ('!' :: (' ' :: n)) from by simp]
  refine noMarker_sep (by decide) (by decide) hi ?_
  rw [show '!' :: (' ' :: n) = [] ++ '!' :: (' ' :: n) from rfl]
  refine noMarker_sep (by decide) (by decide) noMarker_nil ?_
  rw [show ' ' :: n = [] ++ ' ' :: n from rfl]
  exact noMarker_sep (by decide) (by decide) noMarker_nil hn

theorem writeFieldLines_wf {k : Str} {val : RecVal}
    (hk : wfKeyName k) (hv : wfVal k val) :
    ∀ l ∈ writeFieldLines k val, '\n' ∉ l ∧ NoMarker l := by
  by_cases hisa : k = "is_a".data
  · subst hisa
    cases val with
    | scalar s => exact absurd hv (by simp [wfVal])
    | vlist es =>
      have hv2 : es ≠ [] ∧ ∀ e ∈ es, wfIsaEntry e := by simpa [wfVal] using hv
      intro l hl
      rw [writeFieldLines_vlist] at hl
      obtain ⟨e, he, rfl⟩ := List.mem_map.mp hl
      cases e with
      | estr s =>
        obtain ⟨⟨hls, hnl, hnm⟩, _⟩ := hv2.2 (Entry.estr s) he
        exact ⟨hline_no_nl (by decide) hnl,
          noMarker_field_line (noMarker_short (s := "is_a".data) (by decide)) hnm⟩
      | eref i n =>
        obtain ⟨_, _, _, hnli, hnln, hnmi, hnmn⟩ := hv2.2 (Entry.eref i n) he
        show '\n' ∉ (if "is_a".data = "is_a".data then
            "is_a".data ++ ": ".data ++ i ++ " ! ".data ++ n
          else "is_a".data ++ ": ".data ++ reprRef i n) ∧ NoMarker _
        rw [if_pos rfl,
          show "is_a".data ++ ": ".data ++ i ++ " ! ".data ++ n
            = "is_a".data ++ ": ".data ++ (i ++ " ! ".data ++ n) from by
            simp [List.append_assoc]]
        refine ⟨hline_no_nl (by decide) ?_,
          noMarker_field_line (noMarker_short (s := "is_a".data) (by decide)) (noMarker_isa_ref hnmi hnmn)⟩
        intro hmem
        rcases List.mem_append.mp hmem with h1 | h1
        · rcases List.mem_append.mp h1 with h2 | h2
          · exact hnli h2
          · simp at h2
        · exact hnln h1
  · cases val with
    | scalar s =>
      have hwfs : wfSVal s := by simpa [wfVal, hisa] using hv
      intro l hl
      rcases List.mem_singleton.mp hl with rfl
      exact ⟨hline_no_nl hk.2.2.1 hwfs.2.1, noMarker_field_line hk.2.2.2 hwfs.2.2⟩
    | vlist es =>
      have hv2 : 2 ≤ es.length ∧ ∀ e ∈ es, ∃ s, e = Entry.estr s ∧ wfSVal s := by
        simpa [wfVal, hisa] using hv
      intro l hl
      rw [writeFieldLines_vlist] at hl
      obtain ⟨e, he, rfl⟩ := List.mem_map.mp hl
      obtain ⟨s, rfl, hwfs⟩ := hv2.2 e he
      exact ⟨hline_no_nl hk.2.2.1 hwfs.2.1, noMarker_field_line hk.2.2.2 hwfs.2.2⟩

theorem writeFieldsInOrder_wf {r : Rec} {o : List Str} (hwf : wfRecCore r) :
    ∀ l ∈ writeFieldsInOrder r o, '\n' ∉ l ∧ NoMarker l := by
  rw [writeFieldsInOrder_eq]
  intro l hl
  obtain ⟨ls, hls, hlmem⟩ := List.mem_flatten.mp hl
  obtain ⟨kv, hkv, rfl⟩ := List.mem_map.mp hls
  have h2 := hwf.2 kv (mem_orderedFields hkv)
  exact writeFieldLines_wf h2.1 h2.2 l hlmem

/-- Folding the section step over the lines of a well-formed record yields
the record in serialization order. -/
theorem fold_writeFieldsInOrder (r : Rec) (o : List Str)
    (hwf : wfRecCore r) (ho : o.Nodup) :
    (writeFieldsInOrder r o).foldl parseSectionLineStep [] = orderedFields r o := by
  rw [writeFieldsInOrder_eq]
  rw [foldl_fields (orderedFields r o) [] (nodup_keysOf_orderedFields hwf.1 ho)
    (fun kv hkv => hwf.2 kv (mem_orderedFields hkv))
    (fun k _ => by simp [keysOf])]
  rfl

theorem pieces_parse : ∀ (bs : List (Bool × List Str)),
    (∀ b ∈ bs, ∀ l ∈ b.2, '\n' ∉ l ∧ NoMarker l) →
    (pieces bs).map (fun p => (p.1, parseSection p.2))
      = bs.map (fun b => (b.1, b.2.foldl parseSectionLineStep [])) := by
  intro bs
  induction bs with
  | nil => intro _; rfl
  | cons b rest ih =>
    intro hwf
    cases rest with
    | nil =>
      show [(b.1, parseSection (pieceBody b.2 true))] = _
      rw [parseSection_pieceBody _ _ (fun l hl => (hwf b (by simp) l hl).1)
        (fun l hl => (hwf b (by simp) l hl).2)]
      rfl
    | cons b2 rest2 =>
      show (b.1, parseSection (pieceBody b.2 false))
          :: (pieces (b2 :: rest2)).map (fun p => (p.1, parseSection p.2)) = _
      rw [parseSection_pieceBody _ _ (fun l hl => (hwf b (by simp) l hl).1)
          (fun l hl => (hwf b (by simp) l hl).2),
        ih (fun bb hbb l hl => hwf bb (List.mem_cons_of_mem _ hbb) l hl)]
      rfl

theorem filter_true_blocks {F : Rec → Rec} : ∀ (ts : List Rec),
    (∀ r ∈ ts, F r ≠ []) →
    ((ts.map (fun r => (true, F r))).filter
        (fun p : Bool × Rec => p.1 && !p.2.isEmpty)).map (fun p => p.2)
      = ts.map F := by
  intro ts
  induction ts with
  | nil => intro _; rfl
  | cons r rest ih =>
    intro h
    rw [List.map_cons, List.filter_cons_of_pos (by
        simp [List.isEmpty_iff, h r (by simp)]),
      List.map_cons, ih (fun r2 h2 => h r2 (by simp [h2]))]
    rfl

theorem filter_true_blocks_none {G : Rec → Rec} : ∀ (ts : List Rec),
    (ts.map (fun r => (false, G r))).filter
        (fun p : Bool × Rec => p.1 && !p.2.isEmpty) = [] := by
  intro ts
  induction ts with
  | nil => rfl
  | cons r rest ih =>
    rw [List.map_cons, List.filter_cons_of_neg (by simp), ih]

theorem filter_false_blocks {G : Rec → Rec} : ∀ (ts : List Rec),
    (∀ r ∈ ts, G r ≠ []) →
    ((ts.map (fun r => (false, G r))).filter
        (fun p : Bool × Rec => !p.1 && !p.2.isEmpty)).map (fun p => p.2)
      = ts.map G := by
  intro ts
  induction ts with
  | nil => intro _; rfl
  | cons r rest ih =>
    intro h
    rw [List.map_cons, List.filter_cons_of_pos (by
        simp [List.isEmpty_iff, h r (by simp)]),
      List.map_cons, ih (fun r2 h2 => h r2 (by simp [h2]))]
    rfl

theorem filter_false_blocks_none {F : Rec → Rec} : ∀ (ts : List Rec),
    (ts.map (fun r => (true, F r))).filter
        (fun p : Bool × Rec => !p.1 && !p.2.isEmpty) = [] := by
  intro ts
  induction ts with
  | nil => rfl
  | cons r rest ih =>
    rw [List.map_cons, List.filter_cons_of_neg (by simp), ih]

/-- What `parse_obo_file` returns when the scanner finds exactly the
serialized blocks of two well-formed record lists. -/
theorem parseOboFile_blocks (content : Str) (front : Str)
    (terms tdl : List Rec) (fo td : List Str)
    (hfo : fo.Nodup) (htd : td.Nodup)
    (hterms : ∀ r ∈ terms, wfRec r) (htds : ∀ r ∈ tdl, wfRec r)
    (hsm : splitMarkers content
      = (front, pieces (terms.map (fun r => (true, writeFieldsInOrder r fo))
          ++ tdl.map (fun r => (false, writeFieldsInOrder r td))))) :
    parseOboFile content
      = { header := parseHeader (strip front),
          terms := terms.map (fun r => orderedFields r fo),
          typedefs := if tdl.isEmpty then none
            else some (tdl.map (fun r => orderedFields r td)) } := by
  have hwfb : ∀ b ∈ terms.map (fun r => (true, writeFieldsInOrder r fo))
      ++ tdl.map (fun r => (false, writeFieldsInOrder r td)),
      ∀ l ∈ b.2, '\n' ∉ l ∧ NoMarker l := by
    intro b hb l hl
    rcases List.mem_append.mp hb with h1 | h1
    · obtain ⟨r, hr, rfl⟩ := List.mem_map.mp h1
      exact writeFieldsInOrder_wf (hterms r hr).2 l hl
    · obtain ⟨r, hr, rfl⟩ := List.mem_map.mp h1
      exact writeFieldsInOrder_wf (htds r hr).2 l hl
  have hfoldT : ∀ r ∈ terms,
      (writeFieldsInOrder r fo).foldl parseSectionLineStep [] = orderedFields r fo :=
    fun r hr => fold_writeFieldsInOrder r fo (hterms r hr).2 hfo
  have hfoldD : ∀ r ∈ tdl,
      (writeFieldsInOrder r td).foldl parseSectionLineStep [] = orderedFields r td :=
    fun r hr => fold_writeFieldsInOrder r td (htds r hr).2 htd
  have hneT : ∀ r ∈ terms, orderedFields r fo ≠ [] :=
    fun r hr => orderedFields_ne_nil (hterms r hr).2.1 (hterms r hr).1
  have hneD : ∀ r ∈ tdl, orderedFields r td ≠ [] :=
    fun r hr => orderedFields_ne_nil (htds r hr).2.1 (htds r hr).1
  have hisEmpty : ∀ (l : List Rec) (f : Rec → Rec), (l.map f).isEmpty = l.isEmpty := by
    intro l f
    cases l with
    | nil => rfl
    | cons a t => rfl
  have hsecs2 : (pieces (terms.map (fun r => (true, writeFieldsInOrder r fo))
        ++ tdl.map (fun r => (false, writeFieldsInOrder r td)))).map
        (fun p => (p.1, parseSection p.2))
      = terms.map (fun r => (true, orderedFields r fo))
        ++ tdl.map (fun r => (false, orderedFields r td)) := by
    rw [pieces_parse _ hwfb, List.map_append, List.map_map, List.map_map]
    congr 1
    · refine List.map_congr_left ?_
      intro r hr
      show (true, (writeFieldsInOrder r fo).foldl parseSectionLineStep [])
        = (true, orderedFields r fo)
      rw [hfoldT r hr]
    · refine List.map_congr_left ?_
      intro r hr
      show (false, (writeFieldsInOrder r td).foldl parseSectionLineStep [])
        = (false, orderedFields r td)
      rw [hfoldD r hr]
  simp only [parseOboFile, hsm]
  rw [hsecs2, Document.mk.injEq]
  refine ⟨rfl, ?_, ?_⟩
  · rw [List.filter_append, List.map_append, filter_true_blocks terms hneT,
      filter_true_blocks_none tdl, List.map_nil, List.append_nil]
  · rw [List.filter_append, List.map_append, filter_false_blocks_none terms,
      List.map_nil, List.nil_append, filter_false_blocks tdl hneD, hisEmpty]

theorem getLastD_snoc : ∀ (y : List Str) (a : Str) (d : Str),
    (y ++ [a]).getLastD d = a := by
  intro y
  induction y with
  | nil => intro a d; rfl
  | cons c t ih =>
    intro a d
    rw [List.cons_append, List.getLastD_cons, ih]

theorem writeToFile_blank_last {lines : List Str} (hne : lines ≠ [])
    (hlast : lines.getLastD [] = []) : writeToFile lines = joinNl lines := by
  cases lines with
  | nil => exact absurd rfl hne
  | cons l rest =>
    show joinNl (l :: rest) ++ (if (l :: rest).getLastD [] ≠ [] then ['\n'] else []) = _
    rw [hlast, if_neg (by simp), List.append_nil]

theorem serLines_docBlocks (terms tdl : List Rec) (fo td : List Str) :
    writeTermLines terms fo ++ writeTypedefLines tdl td
      = serLines (terms.map (fun r => (true, writeFieldsInOrder r fo))
          ++ tdl.map (fun r => (false, writeFieldsInOrder r td))) := by
  simp only [serLines, writeTermLines, writeTypedefLines, blockLines, markerOf,
    List.map_append, List.map_map, List.flatten_append]
  rfl

/-- Parsing the serialized text of a well-formed document with at least one
section block. -/
theorem parse_serialized_ne (fo td : List Str) (h : Header) (terms tdl : List Rec)
    (hfo : fo.Nodup) (htd : td.Nodup) (hwfh : wfHeader h)
    (hwft : ∀ r ∈ terms, wfRec r) (htds : ∀ r ∈ tdl, wfRec r)
    (hbs : (terms.map (fun r => (true, writeFieldsInOrder r fo))
        ++ tdl.map (fun r => (false, writeFieldsInOrder r td))) ≠ []) :
    parseOboFile (writeToFile (writeHeaderLines h
        ++ serLines (terms.map (fun r => (true, writeFieldsInOrder r fo))
          ++ tdl.map (fun r => (false, writeFieldsInOrder r td)))))
      = { header := h,
          terms := terms.map (fun r => orderedFields r fo),
          typedefs := if tdl.isEmpty then none
            else some (tdl.map (fun r => orderedFields r td)) } := by
  have hwfb : ∀ b ∈ terms.map (fun r => (true, writeFieldsInOrder r fo))
      ++ tdl.map (fun r => (false, writeFieldsInOrder r td)),
      ∀ l ∈ b.2, '\n' ∉ l ∧ NoMarker l := by
    intro b hb l hl
    rcases List.mem_append.mp hb with h1 | h1
    · obtain ⟨r, hr, rfl⟩ := List.mem_map.mp h1
      exact writeFieldsInOrder_wf (hwft r hr).2 l hl
    · obtain ⟨r, hr, rfl⟩ := List.mem_map.mp h1
      exact writeFieldsInOrder_wf (htds r hr).2 l hl
  obtain ⟨xs, hxs⟩ := serLines_snoc_blank _ hbs
  have hsmS := splitMarkers_serLines _ hbs hwfb
  cases h with
  | nil =>
    rw [show writeHeaderLines [] = [] from rfl, List.nil_append,
      writeToFile_blank_last (serLines_ne_nil hbs) (by rw [hxs]; exact getLastD_snoc _ _ _)]
    rw [parseOboFile_blocks _ [] terms tdl fo td hfo htd hwft htds hsmS]
    rw [Document.mk.injEq]
    refine ⟨?_, rfl, rfl⟩
    rw [show strip ([] : Str) = [] from rfl]
    decide
  | cons kv0 h2 =>
    have hwfline : ∀ l ∈ (kv0 :: h2).map hline, NoMarker l := by
      intro l hl
      obtain ⟨kv2, hkv2, rfl⟩ := List.mem_map.mp hl
      have h3 := hwfh.2 kv2 hkv2
      exact noMarker_field_line h3.1.2.2.2 h3.2.2.2.2
    have hlines : writeHeaderLines (kv0 :: h2)
        ++ serLines (terms.map (fun r => (true, writeFieldsInOrder r fo))
          ++ tdl.map (fun r => (false, writeFieldsInOrder r td)))
        = ((kv0 :: h2).map hline ++ [[]])
          ++ serLines (terms.map (fun r => (true, writeFieldsInOrder r fo))
            ++ tdl.map (fun r => (false, writeFieldsInOrder r td))) := by
      rw [writeHeaderLines_eq, if_neg (by simp)]
    rw [hlines, writeToFile_blank_last (by simp)
      (by
        rw [hxs, show ((kv0 :: h2).map hline ++ [[]]) ++ (xs ++ [[]])
            = (((kv0 :: h2).map hline ++ [[]]) ++ xs) ++ [[]] from by simp,
          getLastD_snoc])]
    have htext : joinNl (((kv0 :: h2).map hline ++ [[]])
          ++ serLines (terms.map (fun r => (true, writeFieldsInOrder r fo))
            ++ tdl.map (fun r => (false, writeFieldsInOrder r td))))
        = (joinNl ((kv0 :: h2).map hline) ++ ['\n', '\n'])
          ++ joinNl (serLines (terms.map (fun r => (true, writeFieldsInOrder r fo))
            ++ tdl.map (fun r => (false, writeFieldsInOrder r td)))) := by
      rw [joinNl_append _ _ (by simp) (serLines_ne_nil hbs),
        joinNl_snoc_nil (by simp : (kv0 :: h2).map hline ≠ [])]
      simp
    rw [htext]
    have hfrontNM : NoMarker (joinNl ((kv0 :: h2).map hline) ++ ['\n', '\n']) := by
      rw [show joinNl ((kv0 :: h2).map hline) ++ ['\n', '\n']
          = (joinNl ((kv0 :: h2).map hline) ++ ['\n']) ++ ['\n'] from by simp]
      exact noMarker_append_nl (noMarker_append_nl (noMarker_joinNl _ hwfline))
    have hsm : splitMarkers ((joinNl ((kv0 :: h2).map hline) ++ ['\n', '\n'])
          ++ joinNl (serLines (terms.map (fun r => (true, writeFieldsInOrder r fo))
            ++ tdl.map (fun r => (false, writeFieldsInOrder r td)))))
        = (joinNl ((kv0 :: h2).map hline) ++ ['\n', '\n'],
            pieces (terms.map (fun r => (true, writeFieldsInOrder r fo))
              ++ tdl.map (fun r => (false, writeFieldsInOrder r td)))) := by
      rw [splitMarkers_prefix_glue _ _ hfrontNM
          (Or.inr ⟨joinNl ((kv0 :: h2).map hline) ++ ['\n'], by simp⟩),
        hsmS]
      simp
    rw [parseOboFile_blocks _ _ terms tdl fo td hfo htd hwft htds hsm,
      Document.mk.injEq]
    refine ⟨?_, rfl, rfl⟩
    exact parseHeader_hdrText (kv0 :: h2) hwfh (by simp) ['\n', '\n'] (by decide)

/-- Deep equality of the reparsed document with the original, given the
reparse result in serialization order. -/
theorem docEq_result (h : Header) (terms tdl : List Rec) (tds : Option (List Rec))
    (fo td : List Str) (hfo : fo.Nodup) (htd : td.Nodup)
    (hwfh : wfHeader h) (hwft : ∀ r ∈ terms, wfRec r) (htds : ∀ r ∈ tdl, wfRec r)
    (hrel : (tds = none ∧ tdl = []) ∨ (tds = some tdl ∧ tdl ≠ [])) :
    docEq ⟨h, terms.map (fun r => orderedFields r fo),
        if tdl.isEmpty then none else some (tdl.map (fun r => orderedFields r td))⟩
      ⟨h, terms, tds⟩ = true := by
  simp only [docEq]
  rw [Bool.and_eq_true, Bool.and_eq_true]
  refine ⟨⟨dictEq_of_same_mem hwfh.1 hwfh.1 (fun kv => Iff.rfl),
    recListEq_map terms (fun r hr => dictEq_orderedFields fo (hwft r hr).2.1 hfo)⟩, ?_⟩
  rcases hrel with ⟨rfl, rfl⟩ | ⟨rfl, hne⟩
  · rfl
  · rw [if_neg (by simp [List.isEmpty_iff, hne])]
    exact recListEq_map tdl (fun r hr => dictEq_orderedFields td (htds r hr).2.1 htd)

/-- Round-trip on any well-formed document: re-parsing the serialized text
gives a document deeply equal to the original. -/
theorem roundtrip_wf (fo td : List Str) (d : Document)
    (hfo : fo.Nodup) (htd : td.Nodup) (hwf : wfDoc d) :
    docEq (parseOboFile (convertJsonToObo fo td d)) d = true := by
  obtain ⟨h, terms, tds⟩ := d
  obtain ⟨hwfh, hwft, hwfd⟩ := hwf
  have hrel2 : ∃ tdl : List Rec, tds.getD [] = tdl ∧ (∀ r ∈ tdl, wfRec r) ∧
      ((tds = none ∧ tdl = []) ∨ (tds = some tdl ∧ tdl ≠ [])) := by
    cases tds with
    | none => exact ⟨[], rfl, by simp, Or.inl ⟨rfl, rfl⟩⟩
    | some l =>
      have hl : l ≠ [] ∧ ∀ r ∈ l, wfRec r := hwfd
      exact ⟨l, rfl, hl.2, Or.inr ⟨rfl, hl.1⟩⟩
  obtain ⟨tdl, htdl, htds, hrel⟩ := hrel2
  have hcontent : convertJsonToObo fo td ⟨h, terms, tds⟩
      = writeToFile (writeHeaderLines h
          ++ serLines (terms.map (fun r => (true, writeFieldsInOrder r fo))
            ++ tdl.map (fun r => (false, writeFieldsInOrder r td)))) := by
    show writeToFile (writeHeaderLines h ++ writeTermLines terms fo
        ++ writeTypedefLines (tds.getD []) td) = _
    rw [htdl, List.append_assoc, serLines_docBlocks]
  rw [hcontent]
  by_cases hbs : (terms.map (fun r => (true, writeFieldsInOrder r fo))
      ++ tdl.map (fun r => (false, writeFieldsInOrder r td))) = []
  · have hterms0 : terms = [] := by
      cases terms with
      | nil => rfl
      | cons t ts => simp at hbs
    have htdl0 : tdl = [] := by
      cases tdl with
      | nil => rfl
      | cons t ts => simp at hbs
    subst hterms0
    subst htdl0
    have htds0 : tds = none := by
      rcases hrel with ⟨h1, _⟩ | ⟨_, h2⟩
      · exact h1
      · exact absurd rfl h2
    subst htds0
    rw [hbs, show serLines [] = [] from rfl, List.append_nil]
    cases h with
    | nil =>
      rw [show writeHeaderLines [] = [] from rfl]
      decide
    | cons kv0 h2 =>
      rw [writeHeaderLines_eq, if_neg (by simp),
        writeToFile_blank_last (by simp) (getLastD_snoc _ _ _),
        joinNl_snoc_nil (by simp : (kv0 :: h2).map hline ≠ [])]
      have hwfline : ∀ l ∈ (kv0 :: h2).map hline, NoMarker l := by
        intro l hl
        obtain ⟨kv2, hkv2, rfl⟩ := List.mem_map.mp hl
        have h3 := hwfh.2 kv2 hkv2
        exact noMarker_field_line h3.1.2.2.2 h3.2.2.2.2
      have hsm : splitMarkers (joinNl ((kv0 :: h2).map hline) ++ ['\n'])
          = (joinNl ((kv0 :: h2).map hline) ++ ['\n'],
              pieces (([] : List Rec).map (fun r => (true, writeFieldsInOrder r fo))
                ++ ([] : List Rec).map (fun r => (false, writeFieldsInOrder r td)))) :=
        splitMarkers_of_noMarker _ (noMarker_append_nl (noMarker_joinNl _ hwfline))
      rw [parseOboFile_blocks _ _ [] [] fo td hfo htd (by simp) (by simp) hsm,
        parseHeader_hdrText (kv0 :: h2) hwfh (by simp) ['\n'] (by decide)]
      exact docEq_result (kv0 :: h2) [] [] none fo td hfo htd hwfh (by simp) (by simp)
        (Or.inl ⟨rfl, rfl⟩)
  · rw [parse_serialized_ne fo td h terms tdl hfo htd hwfh hwft htds hbs]
    exact docEq_result h terms tdl tds fo td hfo htd hwfh hwft htds hrel

/-! ## Round-trip: every parsed document is well-formed -/

theorem mem_of_mem_strip {a : Char} {l : Str} (h : a ∈ strip l) : a ∈ l :=
  mem_of_mem_rstrip (mem_of_mem_dropWhile h)

theorem mem_of_mem_tw {p : Char → Bool} {a : Char} {l : Str}
    (h : a ∈ l.takeWhile p) : a ∈ l :=
  (List.takeWhile_sublist p).mem h

theorem strip_strip (x : Str) : strip (strip x) = strip x := by
  have h1 : rstrip (strip x) = strip x := by
    refine rstrip_eq_self_of_suffix ⟨(rstrip x).takeWhile isWs, ?_⟩ (rstrip_rstrip x)
    exact List.takeWhile_append_dropWhile _ _
  rw [strip, h1, show strip x = lstrip (rstrip x) from rfl, lstrip_lstrip]

theorem key_wf_of_line {l1 : Str} (hnl : '\n' ∉ l1) (hnm : NoMarker l1) :
    wfKeyName (strip (l1.takeWhile (fun c => c ≠ ':'))) := by
  refine ⟨strip_strip _, ?_, ?_, ?_⟩
  · intro hmem
    have := List.mem_takeWhile_imp (mem_of_mem_strip hmem)
    simp at this
  · intro hmem
    exact hnl (mem_of_mem_tw (mem_of_mem_strip hmem))
  · exact noMarker_of_occurs
      (occurs_trans (occurs_strip _) (occurs_takeWhile _ _)) hnm

theorem suffix_colon_val (l1 : Str) :
    ∃ a, a ++ (l1.dropWhile (fun c => c ≠ ':')).drop 1 = l1 := by
  refine ⟨l1.takeWhile (fun c => c ≠ ':') ++ (l1.dropWhile (fun c => c ≠ ':')).take 1, ?_⟩
  rw [List.append_assoc, List.take_append_drop, List.takeWhile_append_dropWhile]

theorem sval_wf_of_line {l1 : Str} (hnl : '\n' ∉ l1) (hnm : NoMarker l1) :
    wfSVal (lstrip ((l1.dropWhile (fun c => c ≠ ':')).drop 1)) := by
  refine ⟨lstrip_lstrip _, ?_, ?_⟩
  · intro hmem
    exact hnl (mem_of_mem_dropWhile
      ((List.drop_subset _ _) (mem_of_mem_dropWhile hmem)))
  · exact noMarker_of_occurs
      (occurs_trans (occurs_lstrip _)
        (occurs_trans (occurs_drop _ _) (occurs_dropWhile _ _))) hnm

theorem hval_wf_of_line {l1 : Str} (hr : rstrip l1 = l1)
    (hnl : '\n' ∉ l1) (hnm : NoMarker l1) :
    wfHVal (lstrip ((l1.dropWhile (fun c => c ≠ ':')).drop 1)) := by
  have hs := sval_wf_of_line hnl hnm
  refine ⟨hs.1, ?_, hs.2.1, hs.2.2⟩
  have h2 : rstrip ((l1.dropWhile (fun c => c ≠ ':')).drop 1)
      = (l1.dropWhile (fun c => c ≠ ':')).drop 1 :=
    rstrip_eq_self_of_suffix (suffix_colon_val l1) hr
  refine rstrip_eq_self_of_suffix ⟨((l1.dropWhile (fun c => c ≠ ':')).drop 1).takeWhile isWs, ?_⟩ h2
  exact List.takeWhile_append_dropWhile _ _

theorem takeWhile_append_stop {p : Char → Bool} {x : Str} {c0 : Char} (y : Str)
    (hx : ∀ c ∈ x, p c = true) (hc : p c0 = false) :
    (x ++ c0 :: y).takeWhile p = x := by
  induction x with
  | nil =>
    rw [List.nil_append, List.takeWhile_cons_of_neg (by simp [hc])]
  | cons c t ih =>
    rw [List.cons_append, List.takeWhile_cons_of_pos (hx c (by simp)),
      ih (fun c2 h2 => hx c2 (by simp [h2]))]

theorem lstrip_takeWhile_dropWhile (q : Char → Bool) (x : Str) :
    lstrip ((x.dropWhile isWs).takeWhile q) = (x.dropWhile isWs).takeWhile q := by
  cases hd : x.dropWhile isWs with
  | nil => rw [List.takeWhile_nil]; rfl
  | cons c t =>
    have hc : isWs c = false := dropWhile_head_not hd
    by_cases hq : q c = true
    · rw [List.takeWhile_cons_of_pos hq, lstrip,
        List.dropWhile_cons_of_neg (by simp [hc])]
    · rw [List.takeWhile_cons_of_neg (by simp at hq ⊢; exact hq)]
      rfl

/-- The entry `_handle_is_a_field` builds from a well-formed section value
is itself well-formed: in particular a reference pair is reconstructed
exactly by the pattern from its serialized `id ! name` form. -/
theorem wfIsaEntry_isaEntryOf {v : Str} (hv : wfSVal v) :
    wfIsaEntry (isaEntryOf v) := by
  cases hm0 : isaMatch v with
  | none =>
    rw [isaEntryOf_estr hm0]
    exact ⟨hv, hm0⟩
  | some p =>
    obtain ⟨i, n⟩ := p
    have hm := hm0
    simp only [isaMatch] at hm
    split at hm
    · split at hm
      · exact Option.noConfusion hm
      · split at hm
        · rename_i hb hds hx0 r3 heq
          rw [Option.some.injEq, Prod.mk.injEq] at hm
          obtain ⟨hi, hn⟩ := hm
          subst hi
          subst hn
          have hds2 : ((v.drop 4).takeWhile Char.isDigit).isEmpty = false :=
            Bool.of_not_eq_true hds
          have hdsne : (v.drop 4).takeWhile Char.isDigit ≠ [] := by
            intro h0
            rw [h0] at hds2
            cases hds2
          have hdigits : ∀ c ∈ (v.drop 4).takeWhile Char.isDigit, Char.isDigit c = true :=
            fun c hc => List.mem_takeWhile_imp hc
          have hnln : '\n' ∉ ((r3.dropWhile isWs).takeWhile (fun c => c ≠ '\n')) := by
            intro hmem
            have := List.mem_takeWhile_imp hmem
            simp at this
          have hlsn : lstrip ((r3.dropWhile isWs).takeWhile (fun c => c ≠ '\n'))
              = (r3.dropWhile isWs).takeWhile (fun c => c ≠ '\n') :=
            lstrip_takeWhile_dropWhile _ r3
          have hv4 : "SBO:".data ++ v.drop 4 = v := by
            obtain ⟨t, ht⟩ := begins_iff.mp hb
            have hteq : v.drop 4 = t := by
              rw [← ht, show (4 : Nat) = ("SBO:".data).length from rfl, List.drop_left]
            rw [hteq, ht]
          have hOccI : Occurs ("SBO:".data ++ (v.drop 4).takeWhile Char.isDigit) v := by
            refine ⟨[], (v.drop 4).dropWhile Char.isDigit, ?_⟩
            rw [List.nil_append, List.append_assoc,
              List.takeWhile_append_dropWhile, hv4]
          have hOccN : Occurs ((r3.dropWhile isWs).takeWhile (fun c => c ≠ '\n')) v := by
            refine occurs_trans (occurs_takeWhile _ _)
              (occurs_trans (occurs_dropWhile _ _) ?_)
            refine occurs_trans (show Occurs r3 ('!' :: r3) from ⟨['!'], [], by simp⟩) ?_
            rw [← heq]
            exact occurs_trans (occurs_dropWhile _ _)
              (occurs_trans (occurs_drop _ _) (occurs_drop _ _))
          have hEq : isaMatch (("SBO:".data ++ (v.drop 4).takeWhile Char.isDigit)
                ++ " ! ".data ++ ((r3.dropWhile isWs).takeWhile (fun c => c ≠ '\n')))
              = some ("SBO:".data ++ (v.drop 4).takeWhile Char.isDigit,
                  (r3.dropWhile isWs).takeWhile (fun c => c ≠ '\n')) := by
            have hshape : ("SBO:".data ++ (v.drop 4).takeWhile Char.isDigit)
                  ++ " ! ".data ++ ((r3.dropWhile isWs).takeWhile (fun c => c ≠ '\n'))
                = "SBO:".data ++ ((v.drop 4).takeWhile Char.isDigit
                    ++ ' ' :: ('!' :: (' ' :: ((r3.dropWhile isWs).takeWhile (fun c => c ≠ '\n'))))) := by
              simp
            rw [hshape]
            simp only [isaMatch]
            rw [if_pos (begins_self_append _ _),
              show ("SBO:".data ++ ((v.drop 4).takeWhile Char.isDigit
                    ++ ' ' :: ('!' :: (' ' :: ((r3.dropWhile isWs).takeWhile
                      (fun c => c ≠ '\n')))))).drop 4
                  = (v.drop 4).takeWhile Char.isDigit
                    ++ ' ' :: ('!' :: (' ' :: ((r3.dropWhile isWs).takeWhile
                      (fun c => c ≠ '\n')))) from by
                rw [show (4 : Nat) = ("SBO:".data).length from rfl, List.drop_left],
              takeWhile_append_stop _ hdigits (by decide),
              if_neg (by rw [hds2]; simp),
              List.drop_left,
              List.dropWhile_cons_of_pos (by decide),
              List.dropWhile_cons_of_neg (by decide)]
            show some ("SBO:".data ++ (v.drop 4).takeWhile Char.isDigit,
                ((' ' :: ((r3.dropWhile isWs).takeWhile (fun c => c ≠ '\n'))).dropWhile
                  isWs).takeWhile (fun c => c ≠ '\n')) = _
            rw [List.dropWhile_cons_of_pos (by decide),
              show List.dropWhile isWs ((r3.dropWhile isWs).takeWhile (fun c => c ≠ '\n'))
                = (r3.dropWhile isWs).takeWhile (fun c => c ≠ '\n') from hlsn,
              takeWhile_all ((r3.dropWhile isWs).takeWhile (fun c => c ≠ '\n'))
                (fun c hc => by
                  simp only [decide_eq_true_eq]
                  intro h0
                  subst h0
                  exact hnln hc)]
          rw [show isaEntryOf v
              = Entry.eref ("SBO:".data ++ (v.drop 4).takeWhile Char.isDigit)
                  ((r3.dropWhile isWs).takeWhile (fun c => c ≠ '\n')) from by
            simp [isaEntryOf, hm0]]
          refine ⟨hEq, ?_, ?_, ?_, hnln, ?_, ?_⟩
          · intro h0
            rw [show ("SBO:".data) ++ (v.drop 4).takeWhile Char.isDigit
                = 'S' :: ("BO:".data ++ (v.drop 4).takeWhile Char.isDigit) from rfl] at h0
            cases h0
          · rw [show ("SBO:".data) ++ (v.drop 4).takeWhile Char.isDigit
                = 'S' :: ("BO:".data ++ (v.drop 4).takeWhile Char.isDigit) from rfl,
              lstrip, List.dropWhile_cons_of_neg (by decide)]
          · intro hmem
            rcases List.mem_append.mp hmem with h1 | h1
            · exact absurd h1 (by decide)
            · exact absurd (List.mem_takeWhile_imp h1) (by decide)
          · exact noMarker_of_occurs hOccI hv.2.2
          · exact noMarker_of_occurs hOccN hv.2.2
        · exact Option.noConfusion hm
    · exact Option.noConfusion hm

theorem wfVal_isa_vlist {es : List Entry} (hne : es ≠ [])
    (h : ∀ e ∈ es, wfIsaEntry e) : wfVal ("is_a".data) (RecVal.vlist es) := by
  simp only [wfVal]
  rw [if_pos trivial]
  exact ⟨hne, h⟩

theorem wfVal_isa_inv {val : RecVal} (h : wfVal ("is_a".data) val) :
    ∃ es, val = RecVal.vlist es ∧ es ≠ [] ∧ ∀ e ∈ es, wfIsaEntry e := by
  simp only [wfVal] at h
  rw [if_pos trivial] at h
  cases val with
  | scalar s => exact h.elim
  | vlist es => exact ⟨es, rfl, h⟩

theorem wfVal_reg_scalar {k : Str} (hne : k ≠ "is_a".data) {s : Str}
    (h : wfSVal s) : wfVal k (RecVal.scalar s) := by
  simp only [wfVal]
  rw [if_neg hne]
  exact h

theorem wfVal_reg_scalar_inv {k : Str} (hne : k ≠ "is_a".data) {s : Str}
    (h : wfVal k (RecVal.scalar s)) : wfSVal s := by
  simp only [wfVal] at h
  rw [if_neg hne] at h
  exact h

theorem wfVal_reg_vlist {k : Str} (hne : k ≠ "is_a".data) {es : List Entry}
    (hlen : 2 ≤ es.length) (h : ∀ e ∈ es, ∃ s, e = Entry.estr s ∧ wfSVal s) :
    wfVal k (RecVal.vlist es) := by
  simp only [wfVal]
  rw [if_neg hne]
  exact ⟨hlen, h⟩

theorem wfVal_reg_vlist_inv {k : Str} (hne : k ≠ "is_a".data) {es : List Entry}
    (h : wfVal k (RecVal.vlist es)) :
    2 ≤ es.length ∧ ∀ e ∈ es, ∃ s, e = Entry.estr s ∧ wfSVal s := by
  simp only [wfVal] at h
  rw [if_neg hne] at h
  exact h

theorem wfRecCore_handleIsA {r : Rec} (hwf : wfRecCore r) {v : Str}
    (hv : wfSVal v) : wfRecCore (handleIsAField r v) := by
  have hkey : wfKeyName ("is_a".data) :=
    ⟨by decide, by decide, by decide, noMarker_short (by decide)⟩
  have hent : wfIsaEntry (isaEntryOf v) := wfIsaEntry_isaEntryOf hv
  cases hg : getV r ("is_a".data) with
  | none =>
    rw [show handleIsAField r v
        = updIns r ("is_a".data) (RecVal.vlist [isaEntryOf v]) from by
      simp only [handleIsAField, hg, isaEntryOf]]
    refine ⟨nodup_keysOf_updIns _ hwf.1, ?_⟩
    intro kv hkv
    rcases mem_updIns hkv with h1 | rfl
    · exact hwf.2 kv h1
    · exact ⟨hkey, wfVal_isa_vlist (by simp) (fun e he => by
        rcases List.mem_singleton.mp he with rfl
        exact hent)⟩
  | some val =>
    cases val with
    | scalar s =>
      rw [show handleIsAField r v = r from by simp only [handleIsAField, hg]]
      exact hwf
    | vlist es =>
      rw [show handleIsAField r v
          = updIns r ("is_a".data) (RecVal.vlist (es ++ [isaEntryOf v])) from by
        simp only [handleIsAField, hg, isaEntryOf]]
      have hold := hwf.2 ("is_a".data, RecVal.vlist es) (getV_mem hg)
      obtain ⟨es2, heq2, hne2, hall2⟩ := wfVal_isa_inv hold.2
      have hes : es2 = es := by
        cases heq2
        rfl
      subst hes
      refine ⟨nodup_keysOf_updIns _ hwf.1, ?_⟩
      intro kv hkv
      rcases mem_updIns hkv with h1 | rfl
      · exact hwf.2 kv h1
      · refine ⟨hkey, wfVal_isa_vlist (by simp) ?_⟩
        intro e he
        rcases List.mem_append.mp he with h2 | h2
        · exact hall2 e h2
        · rcases List.mem_singleton.mp h2 with rfl
          exact hent

theorem wfRecCore_handleRegular {r : Rec} (hwf : wfRecCore r) {k v : Str}
    (hk : wfKeyName k) (hne : k ≠ "is_a".data) (hv : wfSVal v) :
    wfRecCore (handleRegularField r k v) := by
  cases hg : getV r k with
  | none =>
    rw [show handleRegularField r k v = updIns r k (RecVal.scalar v) from by
      simp only [handleRegularField, hg]]
    refine ⟨nodup_keysOf_updIns _ hwf.1, ?_⟩
    intro kv hkv
    rcases mem_updIns hkv with h1 | rfl
    · exact hwf.2 kv h1
    · exact ⟨hk, wfVal_reg_scalar hne hv⟩
  | some val =>
    cases val with
    | scalar s =>
      rw [show handleRegularField r k v
          = updIns r k (RecVal.vlist [Entry.estr s, Entry.estr v]) from by
        simp only [handleRegularField, hg]]
      have hold := wfVal_reg_scalar_inv hne
        (hwf.2 (k, RecVal.scalar s) (getV_mem hg)).2
      refine ⟨nodup_keysOf_updIns _ hwf.1, ?_⟩
      intro kv hkv
      rcases mem_updIns hkv with h1 | rfl
      · exact hwf.2 kv h1
      · refine ⟨hk, wfVal_reg_vlist hne (by simp) ?_⟩
        intro e he
        rcases List.mem_cons.mp he with rfl | h2
        · exact ⟨s, rfl, hold⟩
        · rcases List.mem_singleton.mp h2 with rfl
          exact ⟨v, rfl, hv⟩
    | vlist es =>
      rw [show handleRegularField r k v
          = updIns r k (RecVal.vlist (es ++ [Entry.estr v])) from by
        simp only [handleRegularField, hg]]
      have hold := wfVal_reg_vlist_inv hne
        (hwf.2 (k, RecVal.vlist es) (getV_mem hg)).2
      refine ⟨nodup_keysOf_updIns _ hwf.1, ?_⟩
      intro kv hkv
      rcases mem_updIns hkv with h1 | rfl
      · exact hwf.2 kv h1
      · refine ⟨hk, wfVal_reg_vlist hne (by
          rw [List.length_append]
          have := hold.1
          omega) ?_⟩
        intro e he
        rcases List.mem_append.mp he with h2 | h2
        · exact hold.2 e h2
        · rcases List.mem_singleton.mp h2 with rfl
          exact ⟨v, rfl, hv⟩

theorem wfRecCore_sectionStep {r : Rec} (hwf : wfRecCore r) {l : Str}
    (hnl : '\n' ∉ l) (hnm : NoMarker l) :
    wfRecCore (parseSectionLineStep r l) := by
  simp only [parseSectionLineStep, colonSplit]
  by_cases hc : strip (rstripNl l) ≠ [] ∧ ':' ∈ rstripNl l
  · rw [if_pos hc]
    have hnl1 : '\n' ∉ rstripNl l := fun hm2 => hnl (mem_of_mem_rstripNl hm2)
    have hnm1 : NoMarker (rstripNl l) := noMarker_of_occurs (occurs_rstripNl l) hnm
    have hkey := key_wf_of_line hnl1 hnm1
    have hval := sval_wf_of_line hnl1 hnm1
    by_cases hk : strip ((rstripNl l).takeWhile (fun c => c ≠ ':')) = "is_a".data
    · rw [if_pos hk]
      exact wfRecCore_handleIsA hwf hval
    · rw [if_neg hk]
      exact wfRecCore_handleRegular hwf hkey hk hval
  · rw [if_neg hc]
    exact hwf

theorem wfRecCore_fold : ∀ (ls : List Str) (r : Rec), wfRecCore r →
    (∀ l ∈ ls, '\n' ∉ l ∧ NoMarker l) →
    wfRecCore (ls.foldl parseSectionLineStep r) := by
  intro ls
  induction ls with
  | nil => intro r h _; exact h
  | cons l t ih =>
    intro r h hls
    rw [List.foldl_cons]
    exact ih _ (wfRecCore_sectionStep h (hls l (by simp)).1 (hls l (by simp)).2)
      (fun l2 h2 => hls l2 (by simp [h2]))

theorem wfRecCore_parseSection (s : Str) (hnm : NoMarker s) :
    wfRecCore (parseSection s) := by
  rw [parseSection]
  refine wfRecCore_fold _ [] ⟨by simp [keysOf], by simp⟩ ?_
  intro l hl
  have hl2 : l ∈ (splitNl s).map rstripNl :=
    (List.takeWhile_sublist _).subset hl
  obtain ⟨l0, hl0, rfl⟩ := List.mem_map.mp hl2
  constructor
  · intro hm2
    exact (mem_splitNl_no_nl s l0 hl0) (mem_of_mem_rstripNl hm2)
  · exact noMarker_of_occurs
      (occurs_trans (occurs_rstripNl l0) (mem_splitNl_occurs s l0 hl0)) hnm

theorem wfHeader_headerStep {m : Header} (hwf : wfHeader m) {l : Str}
    (hnl : '\n' ∉ l) (hnm : NoMarker l) :
    wfHeader (parseHeaderLineStep m l) := by
  simp only [parseHeaderLineStep, colonSplit]
  by_cases hc : strip (rstrip l) ≠ [] ∧ ':' ∈ rstrip l
  · rw [if_pos hc]
    have hnl1 : '\n' ∉ rstrip l := fun hm2 => hnl (mem_of_mem_rstrip hm2)
    have hnm1 : NoMarker (rstrip l) := noMarker_of_occurs (occurs_rstrip l) hnm
    refine ⟨nodup_keysOf_updIns _ hwf.1, ?_⟩
    intro kv hkv
    rcases mem_updIns hkv with h1 | rfl
    · exact hwf.2 kv h1
    · exact ⟨key_wf_of_line hnl1 hnm1,
        hval_wf_of_line (rstrip_rstrip l) hnl1 hnm1⟩
  · rw [if_neg hc]
    exact hwf

theorem wfHeader_fold : ∀ (ls : List Str) (m : Header), wfHeader m →
    (∀ l ∈ ls, '\n' ∉ l ∧ NoMarker l) →
    wfHeader (ls.foldl parseHeaderLineStep m) := by
  intro ls
  induction ls with
  | nil => intro m h _; exact h
  | cons l t ih =>
    intro m h hls
    rw [List.foldl_cons]
    exact ih _ (wfHeader_headerStep h (hls l (by simp)).1 (hls l (by simp)).2)
      (fun l2 h2 => hls l2 (by simp [h2]))

theorem wfHeader_parseHeader (s : Str) (hnm : NoMarker s) :
    wfHeader (parseHeader s) := by
  rw [parseHeader]
  refine wfHeader_fold _ [] ⟨by simp [keysOf], by simp⟩ ?_
  intro l hl
  exact ⟨mem_splitNl_no_nl s l hl,
    noMarker_of_occurs (mem_splitNl_occurs s l hl) hnm⟩

theorem wfDoc_typedefs_aux (X : List Rec) (hX : ∀ r ∈ X, wfRec r) :
    (match (if X.isEmpty then none else some X : Option (List Rec)) with
      | none => True
      | some l => l ≠ [] ∧ ∀ r ∈ l, wfRec r) := by
  by_cases hemp : X.isEmpty = true
  · rw [if_pos hemp]
    exact trivial
  · rw [if_neg hemp]
    exact ⟨fun h0 => hemp (by rw [h0]; rfl), hX⟩

/-- Every document the parser returns satisfies the parser-image
invariants. -/
theorem parse_wf (T : Str) : wfDoc (parseOboFile T) := by
  have hsp := splitMarkers_noMarker T
  refine ⟨?_, ?_, ?_⟩
  · exact wfHeader_parseHeader _ (noMarker_of_occurs (occurs_strip _) hsp.1)
  · intro r hr
    obtain ⟨p, hp, rfl⟩ := List.mem_map.mp hr
    have hp2 := List.mem_filter.mp hp
    obtain ⟨q, hq, rfl⟩ := List.mem_map.mp hp2.1
    refine ⟨?_, wfRecCore_parseSection _ (hsp.2 q hq)⟩
    intro h0
    have hpred := hp2.2
    simp [show parseSection q.2 = [] from h0] at hpred
  · show (match (if _ then none else some _ : Option (List Rec)) with
      | none => True
      | some l => l ≠ [] ∧ ∀ r ∈ l, wfRec r)
    refine wfDoc_typedefs_aux _ ?_
    intro r hr
    obtain ⟨p, hp, rfl⟩ := List.mem_map.mp hr
    have hp2 := List.mem_filter.mp hp
    obtain ⟨q, hq, rfl⟩ := List.mem_map.mp hp2.1
    refine ⟨?_, wfRecCore_parseSection _ (hsp.2 q hq)⟩
    intro h0
    have hpred := hp2.2
    simp [show parseSection q.2 = [] from h0] at hpred

/-- C1: Round-trip idempotence.  For every document the parser produces
(from any input text) and any duplicate-free field-order configurations,
serializing the document with `convert_json_to_obo` and re-parsing the
result with `parse_obo_file` yields a document deeply equal (Python `==`:
dicts order-insensitively, lists pointwise, the `typedefs` key present in
the re-parse exactly when present in the original) to the original
document. -/
theorem parse_serialize_roundtrip (fo td : List Str) (T : Str)
    (hfo : fo.Nodup) (htd : td.Nodup) :
    docEq (parseOboFile (convertJsonToObo fo td (parseOboFile T)))
      (parseOboFile T) = true :=
  roundtrip_wf fo td (parseOboFile T) hfo htd (parse_wf T)

theorem parse_serialize_roundtrip_witness :
    (["id".data, "name".data] : List Str).Nodup ∧ ([] : List Str).Nodup ∧
    docEq (parseOboFile (convertJsonToObo ["id".data, "name".data] []
        (parseOboFile ("format-version: 1.2\n\n[Term]\nname: rate\nid: SBO:0000001\nis_a: SBO:0000064 ! math\n\n[Typedef]\nid: part_of\n".data))))
      (parseOboFile ("format-version: 1.2\n\n[Term]\nname: rate\nid: SBO:0000001\nis_a: SBO:0000064 ! math\n\n[Typedef]\nid: part_of\n".data)) = true :=
  ⟨by decide, by decide,
    parse_serialize_roundtrip ["id".data, "name".data] [] _ (by decide) (by decide)⟩

end OboCore
